import Mathlib

/-!
Multithreaded twitter feed: a verification development.

Shallow embedding of the Go sources

* `feed/feed.go`      (coarse-grained sorted feed),
* `queue/lockfree.go` (Michael-Scott lock-free queue),
* `lock/rwlock.go`, `lock/rwlock_faster.go` (reader/writer locks),
* `server/server.go`  (request dispatcher),

followed by theorems about them.

Conventions.

* Timestamps are `float64` in the source and are only ever compared (`<`, `>`,
  `==`, `!=`); the specification treats them as real numbers.  They are modelled
  by an arbitrary type `T` with a decidable linear order, which covers the
  rationals used in the examples and the non-NaN floats with the two zeros
  identified.
* A linked list of `post` nodes is modelled by the Lean list of the nodes met
  when following `next` from `start` until `nil`.  Every node is allocated by
  `newPost` right before it is linked in and the coarse feed is only touched
  under its lock, so the chain is acyclic and not shared.
* Loops of the source are recursive functions named after the method.
-/

namespace TwitterFeed

/-! ## Definitions -/

/-! ### feed/feed.go -/

/-- Go struct `Post`: body and timestamp of a feed post, as handed to callers of `ReturnFeed`. -/
structure Post (T : Type) where
  Body : String
  Timestamp : T
deriving DecidableEq, Repr

/-- Go struct `post`: a node of the feed.  The field `next` is the tail of the Lean list
that holds the node; `content` is the `Post` built from `body` and `timestamp`. -/
structure post (T : Type) where
  body : String
  timestamp : T
  removed : Bool
deriving DecidableEq, Repr

/-- Field `content` of a node: `&Post{Body: &p.body, Timestamp: &p.timestamp}`. -/
def post.content {T : Type} (p : post T) : Post T :=
  { Body := p.body, Timestamp := p.timestamp }

/-- Go struct `feed`: `start` is the chain of nodes reachable from the `start` pointer
(`[]` is the nil pointer).  The lock is not part of the sequential state. -/
structure feed (T : Type) where
  start : List (post T)
deriving DecidableEq, Repr

/-- Go `newPost(body, timestamp, nil)`. -/
def newPost {T : Type} (body : String) (timestamp : T) : post T :=
  { body := body, timestamp := timestamp, removed := false }

/-- Go `NewFeed()`: `start` is nil. -/
def NewFeed {T : Type} : feed T :=
  { start := [] }

/-- The traversal of `Add`:
`for curPost.next != nil && timestamp < curPost.next.timestamp { curPost = curPost.next }`
followed by `newPost.next = curPost.next; curPost.next = newPost`.
The second argument is `curPost`, the third the chain from `curPost.next`;
the result is the chain from `curPost` after the splice. -/
def addLoop {T : Type} [LinearOrder T] (np : post T) : post T → List (post T) → List (post T)
  | curPost, [] => [curPost, np]
  | curPost, nxt :: rest =>
    if np.timestamp < nxt.timestamp then curPost :: addLoop np nxt rest
    else curPost :: np :: nxt :: rest

/-- Go `(f *feed) Add(body, timestamp)`. -/
def feed.Add {T : Type} [LinearOrder T] (f : feed T) (body : String) (timestamp : T) : feed T :=
  match f.start with
  | [] => { start := [newPost body timestamp] }
  | curPost :: rest =>
    if timestamp > curPost.timestamp then
      { start := newPost body timestamp :: curPost :: rest }
    else
      { start := addLoop (newPost body timestamp) curPost rest }

/-- The traversal of `Remove`:
`for curPost.next != nil && timestamp != curPost.next.timestamp { curPost = curPost.next }`
followed by the test `curPost.next == nil` and the unlink `curPost.next = curPost.next.next`.
Returns the result of `Remove` and the chain from `curPost` afterwards. -/
def removeLoop {T : Type} [LinearOrder T] (timestamp : T) :
    post T → List (post T) → Bool × List (post T)
  | curPost, [] => (false, [curPost])
  | curPost, nxt :: rest =>
    if timestamp ≠ nxt.timestamp then
      ((removeLoop timestamp nxt rest).1, curPost :: (removeLoop timestamp nxt rest).2)
    else (true, curPost :: rest)

/-- Go `(f *feed) Remove(timestamp) bool`: the returned boolean and the feed afterwards. -/
def feed.Remove {T : Type} [LinearOrder T] (f : feed T) (timestamp : T) : Bool × feed T :=
  match f.start with
  | [] => (false, f)
  | curPost :: rest =>
    if timestamp = curPost.timestamp then (true, { start := rest })
    else ((removeLoop timestamp curPost rest).1, { start := (removeLoop timestamp curPost rest).2 })

/-- The loop of `Contains`, started at `curPost` (the head of the list, `[]` for nil). -/
def containsLoop {T : Type} [LinearOrder T] (timestamp : T) : List (post T) → Bool
  | [] => false
  | curPost :: rest =>
    if curPost.timestamp = timestamp then true else containsLoop timestamp rest

/-- Go `(f *feed) Contains(timestamp) bool`. -/
def feed.Contains {T : Type} [LinearOrder T] (f : feed T) (timestamp : T) : Bool :=
  containsLoop timestamp f.start

/-- The loop of `ReturnFeed`: `feed = append(feed, *curPost.content)` for every node. -/
def returnFeedLoop {T : Type} (acc : List (Post T)) : List (post T) → List (Post T)
  | [] => acc
  | curPost :: rest => returnFeedLoop (acc ++ [curPost.content]) rest

/-- Go `(f *feed) ReturnFeed() []Post`. -/
def feed.ReturnFeed {T : Type} (f : feed T) : List (Post T) :=
  returnFeedLoop [] f.start

/-- One call of a mutating method of the feed. -/
inductive FeedCall (T : Type) where
  | add (body : String) (timestamp : T)
  | remove (timestamp : T)
deriving DecidableEq, Repr

/-- The feed after one mutating call. -/
def feed.call {T : Type} [LinearOrder T] (f : feed T) : FeedCall T → feed T
  | .add body timestamp => f.Add body timestamp
  | .remove timestamp => (f.Remove timestamp).2

/-- The feed after a sequence of mutating calls executed one at a time. -/
def feed.calls {T : Type} [LinearOrder T] (f : feed T) (cs : List (FeedCall T)) : feed T :=
  cs.foldl feed.call f

/-- The feed after adding the given posts one at a time, first post first. -/
def feed.addAll {T : Type} [LinearOrder T] (f : feed T) (ps : List (Post T)) : feed T :=
  ps.foldl (fun g p => g.Add p.Body p.Timestamp) f

/-- Timestamps of a chain of nodes never increase from the head to the tail. -/
def SortedDesc {T : Type} [LinearOrder T] (l : List (post T)) : Prop :=
  l.Pairwise (fun a b => a.timestamp ≥ b.timestamp)

/-! ### queue/lockfree.go -/

/-- Go struct `Request`: a client request. -/
structure Request (T : Type) where
  Command : String
  Id : Int
  Body : String
  TimeStamp : T
deriving DecidableEq, Repr

/-- An `unsafe.Pointer` to a queue node: `none` is nil, `some a` the address `a`. -/
abbrev Ptr := Option Nat

/-- Go struct `node`: `request` is a `*Request` (`none` is nil), `next` a pointer. -/
structure node (T : Type) where
  request : Option (Request T)
  next : Ptr

/-- Go struct `LockFreeQueue` together with the memory its pointers point into:
`heap a` is the node stored at address `a` (`none` when nothing is allocated there) and
`fresh` is the address the next allocation `&node{...}` returns.  Nodes are never freed. -/
structure LockFreeQueue (T : Type) where
  heap : Nat → Option (node T)
  fresh : Nat
  head : Ptr
  tail : Ptr

/-- Ways in which a run of the model stops without the method returning. -/
inductive Fault where
  | invalidPointer
  | outOfFuel
deriving DecidableEq, Repr

/-- Dereference of a node pointer; nil (or an address that holds no node) faults. -/
def LockFreeQueue.deref {T : Type} (q : LockFreeQueue T) : Ptr → Except Fault (node T)
  | none => .error .invalidPointer
  | some a =>
    match q.heap a with
    | none => .error .invalidPointer
    | some n => .ok n

/-- Allocation `&node{request: task, next: nil}`: the address and the new memory. -/
def LockFreeQueue.alloc {T : Type} (q : LockFreeQueue T) (task : Option (Request T)) :
    Nat × LockFreeQueue T :=
  (q.fresh,
    { q with
      heap := fun a => if a = q.fresh then some { request := task, next := none } else q.heap a
      fresh := q.fresh + 1 })

/-- Go `NewLockFreeQueue()`: one dummy node, `head` and `tail` point to it. -/
def NewLockFreeQueue {T : Type} : LockFreeQueue T :=
  { heap := fun a => if a = 0 then some { request := none, next := none } else none
    fresh := 1
    head := some 0
    tail := some 0 }

/-- Go `atomic.CompareAndSwapPointer(&n.next, old, new)` for the node `n` at address `a`. -/
def LockFreeQueue.casNext {T : Type} (q : LockFreeQueue T) (a : Nat) (old new : Ptr) :
    Except Fault (Bool × LockFreeQueue T) :=
  match q.heap a with
  | none => .error .invalidPointer
  | some n =>
    if n.next = old then
      .ok (true, { q with heap := fun b => if b = a then some { n with next := new } else q.heap b })
    else .ok (false, q)

/-- Go `atomic.CompareAndSwapPointer(&queue.tail, old, new)`. -/
def LockFreeQueue.casTail {T : Type} (q : LockFreeQueue T) (old new : Ptr) :
    Bool × LockFreeQueue T :=
  if q.tail = old then (true, { q with tail := new }) else (false, q)

/-- Go `atomic.CompareAndSwapPointer(&queue.head, old, new)`. -/
def LockFreeQueue.casHead {T : Type} (q : LockFreeQueue T) (old new : Ptr) :
    Bool × LockFreeQueue T :=
  if q.head = old then (true, { q with head := new }) else (false, q)

/-- The `for` loop of `Enqueue`, run for at most `fuel` iterations; `nod` is the address of the
node to append. -/
def enqueueLoop {T : Type} (nod : Nat) : Nat → LockFreeQueue T → Except Fault (LockFreeQueue T)
  | 0, _ => .error .outOfFuel
  | fuel + 1, q =>
    match q.tail with
    | none => .error .invalidPointer
    | some tail =>
      match q.deref (some tail) with
      | .error e => .error e
      | .ok tailNode =>
        if tailNode.next = none then
          match q.casNext tail tailNode.next (some nod) with
          | .error e => .error e
          | .ok (true, q1) => .ok q1
          | .ok (false, q1) => enqueueLoop nod fuel q1
        else
          enqueueLoop nod fuel (q.casTail (some tail) tailNode.next).2

/-- Go `(queue *LockFreeQueue) Enqueue(task)`. -/
def LockFreeQueue.Enqueue {T : Type} (fuel : Nat) (q : LockFreeQueue T)
    (task : Option (Request T)) : Except Fault (LockFreeQueue T) :=
  enqueueLoop (q.alloc task).1 fuel (q.alloc task).2

/-- The `for` loop of `Dequeue`, run for at most `fuel` iterations. -/
def dequeueLoop {T : Type} :
    Nat → LockFreeQueue T → Except Fault (Option (Request T) × LockFreeQueue T)
  | 0, _ => .error .outOfFuel
  | fuel + 1, q =>
    match q.deref q.head with
    | .error e => .error e
    | .ok headNode =>
      if q.head = q.tail then
        if headNode.next = none then .ok (none, q)
        else dequeueLoop fuel (q.casTail q.tail headNode.next).2
      else
        match q.deref headNode.next with
        | .error e => .error e
        | .ok nextNode =>
          match q.casHead q.head headNode.next with
          | (true, q1) => .ok (nextNode.request, q1)
          | (false, q1) => dequeueLoop fuel q1

/-- Go `(queue *LockFreeQueue) Dequeue() *Request`. -/
def LockFreeQueue.Dequeue {T : Type} (fuel : Nat) (q : LockFreeQueue T) :
    Except Fault (Option (Request T) × LockFreeQueue T) :=
  dequeueLoop fuel q

/-- One call of a method of the queue (the enqueued pointer is not nil). -/
inductive QueueCall (T : Type) where
  | enqueue (r : Request T)
  | dequeue
deriving DecidableEq, Repr

/-- The values returned by the `Dequeue` calls of a sequence of calls executed one at a time
on the lock-free queue, each loop being given `fuel` iterations. -/
def LockFreeQueue.run {T : Type} (fuel : Nat) :
    List (QueueCall T) → LockFreeQueue T → Except Fault (List (Option (Request T)))
  | [], _ => .ok []
  | .enqueue r :: cs, q =>
    match q.Enqueue fuel (some r) with
    | .error e => .error e
    | .ok q1 => LockFreeQueue.run fuel cs q1
  | .dequeue :: cs, q =>
    match q.Dequeue fuel with
    | .error e => .error e
    | .ok (r, q1) =>
      match LockFreeQueue.run fuel cs q1 with
      | .error e => .error e
      | .ok rs => .ok (r :: rs)

/-- Reference FIFO list of the specification: `enqueue` appends, `dequeue` removes from the
front or answers with the empty indicator.  The second argument holds the requests enqueued
and not yet dequeued, oldest first; the result lists what the `dequeue` calls return. -/
def fifoRun {T : Type} : List (QueueCall T) → List (Request T) → List (Option (Request T))
  | [], _ => []
  | .enqueue r :: cs, pending => fifoRun cs (pending ++ [r])
  | .dequeue :: cs, [] => none :: fifoRun cs []
  | .dequeue :: cs, r :: pending => some r :: fifoRun cs pending

/-- Representation invariant of the queue in single-threaded use: the memory holds one node
for every entry of `rs` (entry `0` is the first dummy), allocated and linked in this order;
`head` is at address `h`, `tail` at address `t`, `head` does not overtake `tail`, and `tail`
is the last node or its predecessor. -/
def QueueRep {T : Type} (q : LockFreeQueue T) (rs : List (Option (Request T))) (h t : Nat) :
    Prop :=
  q.fresh = rs.length ∧ q.head = some h ∧ q.tail = some t ∧
  h ≤ t ∧ t < rs.length ∧ rs.length ≤ t + 2 ∧
  ∀ i, q.heap i =
    (rs[i]?).map (fun r => { request := r, next := if i + 1 < rs.length then some (i + 1) else none })

/-! ### lock/rwlock.go

The lock is shared by any number of threads.  Every method body runs under the internal mutex,
which it gives up only inside `cond.Wait()`, so an execution is a sequence of atomic segments:
from the call of a method, or from the return of a `Wait`, to the next `Wait` or to the return
of the method.  A thread inside `Wait` is first asleep; `Broadcast` (or `Signal`) makes it
ready, and a ready thread may take the mutex again and run its next segment.  There are no
spurious wake-ups.  Threads are anonymous: the state counts how many threads are at each
program point.  The integer fields are Go `int`; they are bounded by the number of threads, so
they are modelled by unbounded integers. -/

/-- Go constant `maxReaders`. -/
def maxReaders : Int := 32

/-- Go struct `rwLock` (fields `readerCount`, `writerCount`, `writerWait`; the mutex and the
condition variable are implicit in the step semantics) together with the position of the
threads that use it. -/
structure rwLock where
  readerCount : Int
  writerCount : Int
  writerWait : Bool
  /-- Threads asleep in the `Wait` of the first loop of `RLock`. -/
  rSleep1 : Nat
  /-- Threads woken in the `Wait` of the first loop of `RLock`, waiting for the mutex. -/
  rReady1 : Nat
  /-- Threads asleep in the `Wait` of the second loop of `RLock`. -/
  rSleep2 : Nat
  /-- Threads woken in the `Wait` of the second loop of `RLock`, waiting for the mutex. -/
  rReady2 : Nat
  /-- Threads that have returned from `RLock` and have not yet called `RUnlock`. -/
  readers : Nat
  /-- Threads asleep in the `Wait` of the first loop of `Lock`. -/
  wSleep1 : Nat
  /-- Threads woken in the `Wait` of the first loop of `Lock`, waiting for the mutex. -/
  wReady1 : Nat
  /-- Threads asleep in the `Wait` of the second loop of `Lock`. -/
  wSleep2 : Nat
  /-- Threads woken in the `Wait` of the second loop of `Lock`, waiting for the mutex. -/
  wReady2 : Nat
  /-- Threads that have returned from `Lock` and have not yet called `Unlock`. -/
  writers : Nat
deriving DecidableEq, Repr

/-- Go `NewRWLock()`: all fields zero, no thread uses the lock. -/
def NewRWLock : rwLock :=
  { readerCount := 0, writerCount := 0, writerWait := false,
    rSleep1 := 0, rReady1 := 0, rSleep2 := 0, rReady2 := 0, readers := 0,
    wSleep1 := 0, wReady1 := 0, wSleep2 := 0, wReady2 := 0, writers := 0 }

/-- Go `rw.cond.Broadcast()`: every sleeping thread becomes ready. -/
def rwLock.Broadcast (rw : rwLock) : rwLock :=
  { rw with
    rSleep1 := 0, rReady1 := rw.rReady1 + rw.rSleep1,
    rSleep2 := 0, rReady2 := rw.rReady2 + rw.rSleep2,
    wSleep1 := 0, wReady1 := rw.wReady1 + rw.wSleep1,
    wSleep2 := 0, wReady2 := rw.wReady2 + rw.wSleep2 }

/-- `RLock` from the test of its second loop: `for rw.readerCount > maxReaders { Wait }`, then
`rw.readerCount++` and return. -/
def rwLock.RLockSecond (rw : rwLock) : rwLock :=
  if rw.readerCount > maxReaders then { rw with rSleep2 := rw.rSleep2 + 1 }
  else { rw with readerCount := rw.readerCount + 1, readers := rw.readers + 1 }

/-- `RLock` from the test of its first loop: `for rw.writerCount > 0 { Wait }`, then the
second loop. -/
def rwLock.RLockFirst (rw : rwLock) : rwLock :=
  if rw.writerCount > 0 then { rw with rSleep1 := rw.rSleep1 + 1 }
  else rw.RLockSecond

/-- Go `(rw *rwLock) RUnlock()`, called by a thread that holds the lock in shared mode. -/
def rwLock.RUnlock (rw : rwLock) : rwLock :=
  let rw1 := { rw with readerCount := rw.readerCount - 1, readers := rw.readers - 1 }
  if rw1.readerCount = 0 then rw1.Broadcast else rw1

/-- `Lock` from the test of its second loop: `for rw.writerWait { Wait }`, then
`rw.writerWait = true` and return. -/
def rwLock.LockSecond (rw : rwLock) : rwLock :=
  if rw.writerWait then { rw with wSleep2 := rw.wSleep2 + 1 }
  else { rw with writerWait := true, writers := rw.writers + 1 }

/-- `Lock` from the test of its first loop: `for rw.readerCount > 0 { Wait }`, then the
second loop. -/
def rwLock.LockFirst (rw : rwLock) : rwLock :=
  if rw.readerCount > 0 then { rw with wSleep1 := rw.wSleep1 + 1 }
  else rw.LockSecond

/-- Go `(rw *rwLock) Unlock()`, called by a thread that holds the lock exclusively. -/
def rwLock.Unlock (rw : rwLock) : rwLock :=
  ({ rw with writerCount := rw.writerCount - 1, writerWait := false,
             writers := rw.writers - 1 }).Broadcast

/-- The atomic segments of the lock's methods. -/
inductive rwEvent where
  /-- A thread calls `RLock`. -/
  | RLock
  /-- A ready thread of the first loop of `RLock` returns from `Wait`. -/
  | RLockWake1
  /-- A ready thread of the second loop of `RLock` returns from `Wait`. -/
  | RLockWake2
  /-- A thread that holds the lock in shared mode calls `RUnlock`. -/
  | RUnlock
  /-- A thread calls `Lock`. -/
  | Lock
  /-- A ready thread of the first loop of `Lock` returns from `Wait`. -/
  | LockWake1
  /-- A ready thread of the second loop of `Lock` returns from `Wait`. -/
  | LockWake2
  /-- A thread that holds the lock exclusively calls `Unlock`. -/
  | Unlock
deriving DecidableEq, Repr

/-- One atomic segment; `none` when no thread can perform it (no ready thread at that program
point, or a release by a thread that did not acquire). -/
def rwLock.step (rw : rwLock) : rwEvent → Option rwLock
  | .RLock => some rw.RLockFirst
  | .RLockWake1 =>
    if rw.rReady1 > 0 then some (({ rw with rReady1 := rw.rReady1 - 1 }).RLockFirst) else none
  | .RLockWake2 =>
    if rw.rReady2 > 0 then some (({ rw with rReady2 := rw.rReady2 - 1 }).RLockSecond) else none
  | .RUnlock => if rw.readers > 0 then some rw.RUnlock else none
  | .Lock => some (({ rw with writerCount := rw.writerCount + 1 }).LockFirst)
  | .LockWake1 =>
    if rw.wReady1 > 0 then some (({ rw with wReady1 := rw.wReady1 - 1 }).LockFirst) else none
  | .LockWake2 =>
    if rw.wReady2 > 0 then some (({ rw with wReady2 := rw.wReady2 - 1 }).LockSecond) else none
  | .Unlock => if rw.writers > 0 then some rw.Unlock else none

/-- A sequence of atomic segments, first one first. -/
def rwLock.run (rw : rwLock) : List rwEvent → Option rwLock
  | [] => some rw
  | e :: es =>
    match rw.step e with
    | none => none
    | some rw1 => rw1.run es

/-! ### lock/rwlock_faster.go

Same step semantics as for `rwLock`, with three condition variables.  `Signal` wakes one
sleeping thread of the condition variable if there is one; which one is a choice of the
scheduler. -/

/-- Go struct `rwLockFaster` (fields `readingReaders`, `pendingReaders`, `writerWaiting`,
`writerWriting`, `waitForReaders`) together with the position of the threads that use it. -/
structure rwLockFaster where
  readingReaders : Int
  pendingReaders : Int
  writerWaiting : Bool
  writerWriting : Bool
  waitForReaders : Int
  /-- Threads asleep in `rCond.Wait()` of the first loop of `RLock`. -/
  rSleep1 : Nat
  /-- Threads woken in `rCond.Wait()` of the first loop of `RLock`, waiting for the mutex. -/
  rReady1 : Nat
  /-- Threads asleep in `rCond.Wait()` of the second loop of `RLock`. -/
  rSleep2 : Nat
  /-- Threads woken in `rCond.Wait()` of the second loop of `RLock`, waiting for the mutex. -/
  rReady2 : Nat
  /-- Threads that have returned from `RLock` and have not yet called `RUnlock`. -/
  readers : Nat
  /-- Threads asleep in `wCond.Wait()` of the loop of `Lock`. -/
  wSleep1 : Nat
  /-- Threads woken in `wCond.Wait()` of the loop of `Lock`, waiting for the mutex. -/
  wReady1 : Nat
  /-- Threads asleep in `w2Cond.Wait()` of `Lock`. -/
  wSleep2 : Nat
  /-- Threads woken in `w2Cond.Wait()` of `Lock`, waiting for the mutex. -/
  wReady2 : Nat
  /-- Threads that have returned from `Lock` and have not yet called `Unlock`. -/
  writers : Nat
deriving DecidableEq, Repr

/-- Go `NewRWLockFaster()`. -/
def NewRWLockFaster : rwLockFaster :=
  { readingReaders := 0, pendingReaders := 0, writerWaiting := false, writerWriting := false,
    waitForReaders := 0,
    rSleep1 := 0, rReady1 := 0, rSleep2 := 0, rReady2 := 0, readers := 0,
    wSleep1 := 0, wReady1 := 0, wSleep2 := 0, wReady2 := 0, writers := 0 }

/-- The scheduler's choice of the thread that `rCond.Signal()` wakes: a sleeper of the first
or of the second loop of `RLock` (when there is none of that kind, one of the other kind). -/
inductive Pick where
  | first
  | second
deriving DecidableEq, Repr

/-- Go `rw.rCond.Signal()`. -/
def rwLockFaster.rCondSignal (rw : rwLockFaster) (pick : Pick) : rwLockFaster :=
  if pick = Pick.first ∧ rw.rSleep1 > 0 then
    { rw with rSleep1 := rw.rSleep1 - 1, rReady1 := rw.rReady1 + 1 }
  else if rw.rSleep2 > 0 then
    { rw with rSleep2 := rw.rSleep2 - 1, rReady2 := rw.rReady2 + 1 }
  else if rw.rSleep1 > 0 then
    { rw with rSleep1 := rw.rSleep1 - 1, rReady1 := rw.rReady1 + 1 }
  else rw

/-- Go `rw.rCond.Broadcast()`. -/
def rwLockFaster.rCondBroadcast (rw : rwLockFaster) : rwLockFaster :=
  { rw with
    rSleep1 := 0, rReady1 := rw.rReady1 + rw.rSleep1,
    rSleep2 := 0, rReady2 := rw.rReady2 + rw.rSleep2 }

/-- Go `rw.wCond.Signal()`. -/
def rwLockFaster.wCondSignal (rw : rwLockFaster) : rwLockFaster :=
  if rw.wSleep1 > 0 then { rw with wSleep1 := rw.wSleep1 - 1, wReady1 := rw.wReady1 + 1 }
  else rw

/-- Go `rw.w2Cond.Signal()`. -/
def rwLockFaster.w2CondSignal (rw : rwLockFaster) : rwLockFaster :=
  if rw.wSleep2 > 0 then { rw with wSleep2 := rw.wSleep2 - 1, wReady2 := rw.wReady2 + 1 }
  else rw

/-- `RLock` from the test of its second loop:
`for rw.readingReaders > maxReaders { rw.pendingReaders++; Wait; rw.pendingReaders-- }`, then
`rw.readingReaders++` and return. -/
def rwLockFaster.RLockSecond (rw : rwLockFaster) : rwLockFaster :=
  if rw.readingReaders > maxReaders then
    { rw with pendingReaders := rw.pendingReaders + 1, rSleep2 := rw.rSleep2 + 1 }
  else { rw with readingReaders := rw.readingReaders + 1, readers := rw.readers + 1 }

/-- `RLock` from the test of its first loop:
`for rw.writerWriting || rw.writerWaiting { Wait }`, then the second loop. -/
def rwLockFaster.RLockFirst (rw : rwLockFaster) : rwLockFaster :=
  if rw.writerWriting || rw.writerWaiting then { rw with rSleep1 := rw.rSleep1 + 1 }
  else rw.RLockSecond

/-- Go `(rw *rwLockFaster) RUnlockSlow()`. -/
def rwLockFaster.RUnlockSlow (rw : rwLockFaster) (pick : Pick) : rwLockFaster :=
  if rw.waitForReaders > 1 then
    ({ rw with waitForReaders := rw.waitForReaders - 1 }).rCondSignal pick
  else rw.w2CondSignal

/-- Go `(rw *rwLockFaster) RUnlock()`, called by a thread that holds the lock in shared mode. -/
def rwLockFaster.RUnlock (rw : rwLockFaster) (pick : Pick) : rwLockFaster :=
  let rw1 := { rw with readingReaders := rw.readingReaders - 1, readers := rw.readers - 1 }
  if !rw1.writerWaiting && rw1.pendingReaders > 0 then rw1.rCondSignal pick
  else rw1.RUnlockSlow pick

/-- The end of `Lock`: `rw.writerWriting = true; rw.writerWaiting = false` and return. -/
def rwLockFaster.LockAcquire (rw : rwLockFaster) : rwLockFaster :=
  { rw with writerWriting := true, writerWaiting := false, writers := rw.writers + 1 }

/-- `Lock` from the test `if rw.readingReaders > 0 || rw.pendingReaders > 0`. -/
def rwLockFaster.LockDrain (rw : rwLockFaster) : rwLockFaster :=
  if rw.readingReaders > 0 || rw.pendingReaders > 0 then
    { rw with writerWaiting := true, waitForReaders := rw.readingReaders + rw.pendingReaders,
              wSleep2 := rw.wSleep2 + 1 }
  else rw.LockAcquire

/-- `Lock` from the test of its loop: `for rw.writerWaiting || rw.writerWriting { Wait }`. -/
def rwLockFaster.LockFirst (rw : rwLockFaster) : rwLockFaster :=
  if rw.writerWaiting || rw.writerWriting then { rw with wSleep1 := rw.wSleep1 + 1 }
  else rw.LockDrain

/-- Go `(rw *rwLockFaster) Unlock()`, called by a thread that holds the lock exclusively. -/
def rwLockFaster.Unlock (rw : rwLockFaster) : rwLockFaster :=
  ({ rw with writerWriting := false, writers := rw.writers - 1 }).rCondBroadcast.wCondSignal

/-- The atomic segments of the methods of `rwLockFaster`. -/
inductive rwFasterEvent where
  /-- A thread calls `RLock`. -/
  | RLock
  /-- A ready thread of the first loop of `RLock` returns from `Wait`. -/
  | RLockWake1
  /-- A ready thread of the second loop of `RLock` returns from `Wait`. -/
  | RLockWake2
  /-- A thread that holds the lock in shared mode calls `RUnlock`. -/
  | RUnlock (pick : Pick)
  /-- A thread calls `Lock`. -/
  | Lock
  /-- A ready thread of the loop of `Lock` returns from `wCond.Wait()`. -/
  | LockWake1
  /-- The ready thread of `w2Cond.Wait()` in `Lock` returns from it. -/
  | LockWake2
  /-- A thread that holds the lock exclusively calls `Unlock`. -/
  | Unlock
deriving DecidableEq, Repr

/-- One atomic segment; `none` when no thread can perform it. -/
def rwLockFaster.step (rw : rwLockFaster) : rwFasterEvent → Option rwLockFaster
  | .RLock => some rw.RLockFirst
  | .RLockWake1 =>
    if rw.rReady1 > 0 then some (({ rw with rReady1 := rw.rReady1 - 1 }).RLockFirst) else none
  | .RLockWake2 =>
    if rw.rReady2 > 0 then
      some (({ rw with rReady2 := rw.rReady2 - 1,
                       pendingReaders := rw.pendingReaders - 1 }).RLockSecond)
    else none
  | .RUnlock pick => if rw.readers > 0 then some (rw.RUnlock pick) else none
  | .Lock => some rw.LockFirst
  | .LockWake1 =>
    if rw.wReady1 > 0 then some (({ rw with wReady1 := rw.wReady1 - 1 }).LockFirst) else none
  | .LockWake2 =>
    if rw.wReady2 > 0 then some (({ rw with wReady2 := rw.wReady2 - 1 }).LockAcquire) else none
  | .Unlock => if rw.writers > 0 then some rw.Unlock else none

/-- A sequence of atomic segments, first one first. -/
def rwLockFaster.run (rw : rwLockFaster) : List rwFasterEvent → Option rwLockFaster
  | [] => some rw
  | e :: es =>
    match rw.step e with
    | none => none
    | some rw1 => rw1.run es

/-- Inductive invariant of `rwLockFaster`: the flags and counters agree with the position of
the threads, a writing writer excludes readers past the first loop of `RLock`, and the writer
that drains the readers is woken only when none of them is left. -/
def rwLockFaster.Inv (rw : rwLockFaster) : Prop :=
  (rw.writers = if rw.writerWriting then 1 else 0) ∧
  (rw.wSleep2 + rw.wReady2 = if rw.writerWaiting then 1 else 0) ∧
  ¬ (rw.writerWaiting = true ∧ rw.writerWriting = true) ∧
  rw.readingReaders = rw.readers ∧
  rw.pendingReaders = rw.rSleep2 + rw.rReady2 ∧
  (rw.writerWriting = true → rw.readers = 0 ∧ rw.rSleep2 + rw.rReady2 = 0) ∧
  (rw.wSleep2 = 1 → rw.waitForReaders = rw.readers + rw.rSleep2 + rw.rReady2 ∧
    1 ≤ rw.waitForReaders) ∧
  (rw.wReady2 = 1 → rw.readers + rw.rSleep2 + rw.rReady2 = 0)

/-! ### server/server.go -/

/-- Go struct `Response`: the answer to `ADD`, `REMOVE` and `CONTAINS`. -/
structure Response where
  Success : Bool
  Id : Int
deriving DecidableEq, Repr

/-- Go struct `FeedResponse`: the answer to `FEED`. -/
structure FeedResponse (T : Type) where
  Id : Int
  Feed : List (Post T)
deriving DecidableEq, Repr

/-- A value handed to `enc.Encode`. -/
inductive Encoded (T : Type) where
  | response (r : Response)
  | feedResponse (r : FeedResponse T)
deriving DecidableEq, Repr

/-- Go `execute(f, enc, task)` on the coarse feed that `Run` creates: the feed after the call
and the values handed to `enc.Encode`, in order.  The `switch` on `task.Command` has the cases
`"ADD"`, `"REMOVE"`, `"CONTAINS"`, `"FEED"` and no default. -/
def execute {T : Type} [LinearOrder T] (f : feed T) (task : Request T) :
    feed T × List (Encoded T) :=
  if task.Command = "ADD" then
    (f.Add task.Body task.TimeStamp, [.response { Success := true, Id := task.Id }])
  else if task.Command = "REMOVE" then
    ((f.Remove task.TimeStamp).2,
      [.response { Success := (f.Remove task.TimeStamp).1, Id := task.Id }])
  else if task.Command = "CONTAINS" then
    (f, [.response { Success := f.Contains task.TimeStamp, Id := task.Id }])
  else if task.Command = "FEED" then
    (f, [.feedResponse { Id := task.Id, Feed := f.ReturnFeed }])
  else (f, [])

/-! ### feed/feed2.go

The optimistic feed lets go of the lock between the traversal and the update, and a removed
node stays reachable from the local variables of other threads.  Its nodes are therefore kept
in an explicit memory, as for the queue: `heap a` is the node at address `a`, `next` is a
pointer.  Each method is cut at the change of locks into the part run under the read lock
(`Locate`) and the part run under the write lock (`Commit`); a single-threaded call runs the two
on the same state. -/

/-- Go struct `post` as a memory cell of the optimistic feed, with its `next` pointer. -/
structure optPost (T : Type) where
  body : String
  timestamp : T
  next : Ptr
  removed : Bool
deriving DecidableEq, Repr

/-- Field `content` of a node of the optimistic feed. -/
def optPost.content {T : Type} (p : optPost T) : Post T :=
  { Body := p.body, Timestamp := p.timestamp }

/-- Go struct `optFeed` together with the memory its pointers point into; `fresh` is the
address the next `newPost` returns. -/
structure optFeed (T : Type) where
  heap : Nat → Option (optPost T)
  fresh : Nat
  start : Ptr

/-- Dereference of a node pointer of the optimistic feed. -/
def optFeed.deref {T : Type} (f : optFeed T) : Ptr → Except Fault (optPost T)
  | none => .error .invalidPointer
  | some a =>
    match f.heap a with
    | none => .error .invalidPointer
    | some n => .ok n

/-- Go `newPost(body, timestamp, nil)` in the memory of the optimistic feed: the address of
the new node and the memory afterwards. -/
def optFeed.newPost {T : Type} (f : optFeed T) (body : String) (timestamp : T) :
    Nat × optFeed T :=
  (f.fresh,
    { f with
      heap := fun a =>
        if a = f.fresh then
          some { body := body, timestamp := timestamp, next := none, removed := false }
        else f.heap a
      fresh := f.fresh + 1 })

/-- Assignment `p.next = q` for the node at address `a`. -/
def optFeed.setNext {T : Type} (f : optFeed T) (a : Nat) (q : Ptr) : optFeed T :=
  { f with heap := fun b => if b = a then (f.heap a).map (fun n => { n with next := q })
                            else f.heap b }

/-- Assignment `p.removed = true` for the node at address `a`. -/
def optFeed.setRemoved {T : Type} (f : optFeed T) (a : Nat) : optFeed T :=
  { f with heap := fun b => if b = a then (f.heap a).map (fun n => { n with removed := true })
                            else f.heap b }

/-- Go `NewOptFeed()`: the sentinel post `newPost("", -1, nil)` and `start` pointing to it. -/
def NewOptFeed {T : Type} [Neg T] [One T] : optFeed T :=
  { heap := fun a =>
      if a = 0 then some { body := "", timestamp := -1, next := none, removed := false }
      else none
    fresh := 1
    start := some 0 }

/-- The test `p.next == nil || timestamp > p.next.timestamp` for the node pointed to by `p`. -/
def optFeed.nextNilOrSmaller {T : Type} [LinearOrder T] (f : optFeed T) (p : Ptr)
    (timestamp : T) : Except Fault Bool :=
  match f.deref p with
  | .error e => .error e
  | .ok n =>
    match n.next with
    | none => .ok true
    | some nx =>
      match f.deref (some nx) with
      | .error e => .error e
      | .ok m => .ok (decide (timestamp > m.timestamp))

/-- Where `Add` intends to splice the new node in: behind the sentinel, or behind the node
`curPost` found by the traversal. -/
inductive AddSite where
  | head
  | after (curPost : Nat)
deriving DecidableEq, Repr

/-- The traversal of `optFeed.Add`:
`for curPost.next != nil && timestamp < curPost.next.timestamp { curPost = curPost.next }`,
started at the node at address `curPost`, for at most `fuel` iterations. -/
def optAddLoop {T : Type} [LinearOrder T] (f : optFeed T) (timestamp : T) :
    Nat → Nat → Except Fault Nat
  | 0, _ => .error .outOfFuel
  | fuel + 1, curPost =>
    match f.deref (some curPost) with
    | .error e => .error e
    | .ok cur =>
      match cur.next with
      | none => .ok curPost
      | some nx =>
        match f.deref (some nx) with
        | .error e => .error e
        | .ok nxt =>
          if timestamp < nxt.timestamp then optAddLoop f timestamp fuel nx else .ok curPost

/-- The part of one iteration of `optFeed.Add` that runs under the read lock. -/
def optFeed.AddLocate {T : Type} [LinearOrder T] (f : optFeed T) (timestamp : T) (fuel : Nat) :
    Except Fault AddSite :=
  match f.nextNilOrSmaller f.start timestamp with
  | .error e => .error e
  | .ok true => .ok .head
  | .ok false =>
    match f.deref f.start with
    | .error e => .error e
    | .ok s =>
      match s.next with
      | none => .error .invalidPointer
      | some first =>
        match optAddLoop f timestamp fuel first with
        | .error e => .error e
        | .ok curPost => .ok (.after curPost)

/-- The splice `newPost.next = p.next; p.next = newPost` behind the node at address `a`. -/
def optFeed.spliceAfter {T : Type} (f : optFeed T) (a np : Nat) : Except Fault (optFeed T) :=
  match f.deref (some a) with
  | .error e => .error e
  | .ok n => .ok ((f.setNext np n.next).setNext a (some np))

/-- The part of one iteration of `optFeed.Add` that runs under the write lock, on the state
`f` found there: the re-validation of the site and, when it passes, the splice of the node at
address `np`.  The boolean tells whether `Add` returns (`true`) or retries (`false`). -/
def optFeed.AddCommit {T : Type} [LinearOrder T] (f : optFeed T) (np : Nat) (timestamp : T) :
    AddSite → Except Fault (Bool × optFeed T)
  | .head =>
    match f.nextNilOrSmaller f.start timestamp with
    | .error e => .error e
    | .ok false => .ok (false, f)
    | .ok true =>
      match f.start with
      | none => .error .invalidPointer
      | some s =>
        match f.spliceAfter s np with
        | .error e => .error e
        | .ok f1 => .ok (true, f1)
  | .after curPost =>
    match f.deref (some curPost) with
    | .error e => .error e
    | .ok cur =>
      if cur.removed then .ok (false, f)
      else
        match f.nextNilOrSmaller (some curPost) timestamp with
        | .error e => .error e
        | .ok false => .ok (false, f)
        | .ok true =>
          match f.spliceAfter curPost np with
          | .error e => .error e
          | .ok f1 => .ok (true, f1)

/-- The retry loop of `optFeed.Add` in single-threaded use, for at most `tries` iterations,
each traversal being given `fuel` steps. -/
def optAddRetry {T : Type} [LinearOrder T] (np : Nat) (timestamp : T) (fuel : Nat) :
    Nat → optFeed T → Except Fault (optFeed T)
  | 0, _ => .error .outOfFuel
  | tries + 1, f =>
    match f.AddLocate timestamp fuel with
    | .error e => .error e
    | .ok site =>
      match f.AddCommit np timestamp site with
      | .error e => .error e
      | .ok (true, f1) => .ok f1
      | .ok (false, f1) => optAddRetry np timestamp fuel tries f1

/-- Go `(f *optFeed) Add(body, timestamp)` in single-threaded use. -/
def optFeed.Add {T : Type} [LinearOrder T] (fuel : Nat) (f : optFeed T) (body : String)
    (timestamp : T) : Except Fault (optFeed T) :=
  optAddRetry (f.newPost body timestamp).1 timestamp fuel fuel (f.newPost body timestamp).2

/-- Where `Remove` intends to act: nowhere (the feed is empty, `Remove` returns false), on the
first post, or behind the node `curPost` found by the traversal. -/
inductive RemoveSite where
  | empty
  | head
  | after (curPost : Nat)
deriving DecidableEq, Repr

/-- The traversal of `optFeed.Remove`:
`for curPost.next != nil && timestamp != curPost.next.timestamp { curPost = curPost.next }`,
started at the node at address `curPost`, for at most `fuel` iterations. -/
def optRemoveLoop {T : Type} [LinearOrder T] (f : optFeed T) (timestamp : T) :
    Nat → Nat → Except Fault Nat
  | 0, _ => .error .outOfFuel
  | fuel + 1, curPost =>
    match f.deref (some curPost) with
    | .error e => .error e
    | .ok cur =>
      match cur.next with
      | none => .ok curPost
      | some nx =>
        match f.deref (some nx) with
        | .error e => .error e
        | .ok nxt =>
          if timestamp ≠ nxt.timestamp then optRemoveLoop f timestamp fuel nx else .ok curPost

/-- The part of one iteration of `optFeed.Remove` that runs under the read lock. -/
def optFeed.RemoveLocate {T : Type} [LinearOrder T] (f : optFeed T) (timestamp : T)
    (fuel : Nat) : Except Fault RemoveSite :=
  match f.deref f.start with
  | .error e => .error e
  | .ok s =>
    match s.next with
    | none => .ok .empty
    | some first =>
      match f.deref (some first) with
      | .error e => .error e
      | .ok firstPost =>
        if timestamp = firstPost.timestamp then .ok .head
        else
          match optRemoveLoop f timestamp fuel first with
          | .error e => .error e
          | .ok curPost => .ok (.after curPost)

/-- The unlink `p.next.removed = true; p.next = p.next.next` behind the node at address `a`,
whose successor is at address `nx`. -/
def optFeed.unlinkAfter {T : Type} (f : optFeed T) (a nx : Nat) : Except Fault (optFeed T) :=
  match f.deref (some nx) with
  | .error e => .error e
  | .ok n => .ok ((f.setRemoved nx).setNext a n.next)

/-- The part of one iteration of `optFeed.Remove` that follows the release of the read lock,
on the state `f` found under the write lock.  The result is `some b` when `Remove` returns `b`
and `none` when it retries. -/
def optFeed.RemoveCommit {T : Type} [LinearOrder T] (f : optFeed T) (timestamp : T) :
    RemoveSite → Except Fault (Option Bool × optFeed T)
  | .empty => .ok (some false, f)
  | .head =>
    match f.deref f.start with
    | .error e => .error e
    | .ok s =>
      match f.deref s.next with
      | .error e => .error e
      | .ok firstPost =>
        if timestamp = firstPost.timestamp then
          match f.start, s.next with
          | some sa, some first =>
            match f.unlinkAfter sa first with
            | .error e => .error e
            | .ok f1 => .ok (some true, f1)
          | _, _ => .error .invalidPointer
        else .ok (none, f)
  | .after curPost =>
    match f.deref (some curPost) with
    | .error e => .error e
    | .ok cur =>
      if cur.removed then .ok (none, f)
      else
        match cur.next with
        | none => .ok (some false, f)
        | some nx =>
          match f.deref (some nx) with
          | .error e => .error e
          | .ok nxt =>
            if timestamp = nxt.timestamp then
              match f.unlinkAfter curPost nx with
              | .error e => .error e
              | .ok f1 => .ok (some true, f1)
            else .ok (none, f)

/-- The retry loop of `optFeed.Remove` in single-threaded use. -/
def optRemoveRetry {T : Type} [LinearOrder T] (timestamp : T) (fuel : Nat) :
    Nat → optFeed T → Except Fault (Bool × optFeed T)
  | 0, _ => .error .outOfFuel
  | tries + 1, f =>
    match f.RemoveLocate timestamp fuel with
    | .error e => .error e
    | .ok site =>
      match f.RemoveCommit timestamp site with
      | .error e => .error e
      | .ok (some b, f1) => .ok (b, f1)
      | .ok (none, f1) => optRemoveRetry timestamp fuel tries f1

/-- Go `(f *optFeed) Remove(timestamp) bool` in single-threaded use. -/
def optFeed.Remove {T : Type} [LinearOrder T] (fuel : Nat) (f : optFeed T) (timestamp : T) :
    Except Fault (Bool × optFeed T) :=
  optRemoveRetry timestamp fuel fuel f

/-- The loop of `optFeed.Contains`, started at the pointer `curPost`. -/
def optContainsLoop {T : Type} [LinearOrder T] (f : optFeed T) (timestamp : T) :
    Nat → Ptr → Except Fault Bool
  | _, none => .ok false
  | 0, some _ => .error .outOfFuel
  | fuel + 1, some a =>
    match f.deref (some a) with
    | .error e => .error e
    | .ok curPost =>
      if curPost.timestamp = timestamp then .ok true
      else optContainsLoop f timestamp fuel curPost.next

/-- Go `(f *optFeed) Contains(timestamp) bool`: the loop starts at `f.start`. -/
def optFeed.Contains {T : Type} [LinearOrder T] (fuel : Nat) (f : optFeed T) (timestamp : T) :
    Except Fault Bool :=
  optContainsLoop f timestamp fuel f.start

/-- The loop of `optFeed.ReturnFeed`, started at the pointer `curPost`. -/
def optReturnFeedLoop {T : Type} (f : optFeed T) :
    Nat → List (Post T) → Ptr → Except Fault (List (Post T))
  | _, acc, none => .ok acc
  | 0, _, some _ => .error .outOfFuel
  | fuel + 1, acc, some a =>
    match f.deref (some a) with
    | .error e => .error e
    | .ok curPost => optReturnFeedLoop f fuel (acc ++ [curPost.content]) curPost.next

/-- Go `(f *optFeed) ReturnFeed() []Post`: the loop starts at `f.start.next`. -/
def optFeed.ReturnFeed {T : Type} (fuel : Nat) (f : optFeed T) : Except Fault (List (Post T)) :=
  match f.deref f.start with
  | .error e => .error e
  | .ok s => optReturnFeedLoop f fuel [] s.next

/-- The nodes met when following `next` from the pointer `p` until nil. -/
def optChain {T : Type} (heap : Nat → Option (optPost T)) : Ptr → List (optPost T) → Prop
  | p, [] => p = none
  | p, n :: l => ∃ a, p = some a ∧ heap a = some n ∧ optChain heap n.next l

/-- A call of one of the four methods of the interface `Feed`. -/
inductive FeedMethod (T : Type) where
  | Add (body : String) (timestamp : T)
  | Remove (timestamp : T)
  | Contains (timestamp : T)
  | ReturnFeed
deriving DecidableEq, Repr

/-- The methods that only read the feed. -/
def FeedMethod.readOnly {T : Type} : FeedMethod T → Bool
  | .Contains _ => true
  | .ReturnFeed => true
  | _ => false

/-- What a call of a method of `Feed` returns. -/
inductive FeedReturn (T : Type) where
  | unit
  | bool (b : Bool)
  | posts (feed : List (Post T))
deriving DecidableEq, Repr

/-- A method call on the coarse feed as a state transformer: the value returned and the feed
afterwards.  `Contains` and `ReturnFeed` assign to no field of the feed or of a node. -/
def feed.invoke {T : Type} [LinearOrder T] (f : feed T) : FeedMethod T → FeedReturn T × feed T
  | .Add body timestamp => (.unit, f.Add body timestamp)
  | .Remove timestamp => (.bool (f.Remove timestamp).1, (f.Remove timestamp).2)
  | .Contains timestamp => (.bool (f.Contains timestamp), f)
  | .ReturnFeed => (.posts f.ReturnFeed, f)

/-- A method call on the optimistic feed in single-threaded use as a state transformer.
`Contains` and `ReturnFeed` assign to no field of the feed or of a node. -/
def optFeed.invoke {T : Type} [LinearOrder T] (fuel : Nat) (f : optFeed T) :
    FeedMethod T → Except Fault (FeedReturn T × optFeed T)
  | .Add body timestamp =>
    match f.Add fuel body timestamp with
    | .error e => .error e
    | .ok f1 => .ok (.unit, f1)
  | .Remove timestamp =>
    match f.Remove fuel timestamp with
    | .error e => .error e
    | .ok (b, f1) => .ok (.bool b, f1)
  | .Contains timestamp =>
    match f.Contains fuel timestamp with
    | .error e => .error e
    | .ok b => .ok (.bool b, f)
  | .ReturnFeed =>
    match f.ReturnFeed fuel with
    | .error e => .error e
    | .ok ps => .ok (.posts ps, f)

/-! ### server/server.go: decoding, sequential mode, producer and consumers

`dec.Decode` hands over one JSON record per call, or an error; at the end of the input it
returns the error `io.EOF`.  Decoding into a struct overwrites exactly the fields that are
present in the record.

The parallel mode is modelled as a step relation.  The producer and every consumer advance by
atomic steps: a step of the producer is the decoding of a record together with `wg.Add(1)`,
or `q.Enqueue`, or `cond.Broadcast`, or the return from `wg.Wait()`; a step of a consumer is
`q.Dequeue`, or the entry into `cond.Wait()`, or `execute`, or `wg.Done()`.  `Enqueue` and
`Dequeue` act atomically on the list of queued requests, `execute` acts atomically on the feed
and the encoder.  A consumer inside `cond.Wait()` sleeps until the next `Broadcast`; the mutex of
the condition variable is the `DummyLocker`, whose methods do nothing. -/

/-- One JSON record of the input: every field of `Request` is present or absent. -/
structure Record (T : Type) where
  command : Option String
  id : Option Int
  body : Option String
  timestamp : Option T
deriving DecidableEq, Repr

/-- The zero value of the Go struct `Request`. -/
def Request.zero {T : Type} [Zero T] : Request T :=
  { Command := "", Id := 0, Body := "", TimeStamp := 0 }

/-- Go `dec.Decode(&request)` without error, on a `request` that already holds values: the
fields present in the record are overwritten, the others keep their value. -/
def Request.decode {T : Type} (request : Request T) (r : Record T) : Request T :=
  { Command := r.command.getD request.Command
    Id := r.id.getD request.Id
    Body := r.body.getD request.Body
    TimeStamp := r.timestamp.getD request.TimeStamp }

/-- The record that carries all four fields of a request. -/
def Record.ofRequest {T : Type} (request : Request T) : Record T :=
  { command := some request.Command, id := some request.Id, body := some request.Body,
    timestamp := some request.TimeStamp }

/-- The `for` loop of `RunSequential`; `request` is the variable declared before the loop,
`dec` lists what the coming calls of `dec.Decode` return (`none` is an error, the end of the
list is the error `io.EOF`). -/
def RunSequentialLoop {T : Type} [LinearOrder T] (f : feed T) (enc : List (Encoded T))
    (request : Request T) : List (Option (Record T)) → feed T × List (Encoded T)
  | [] => (f, enc)
  | none :: _ => (f, enc)
  | some r :: dec =>
    if (request.decode r).Command = "DONE" then (f, enc)
    else
      RunSequentialLoop (execute f (request.decode r)).1 (enc ++ (execute f (request.decode r)).2)
        (request.decode r) dec

/-- Go `RunSequential(f, enc, dec)`: the feed and the encoded values when it returns. -/
def RunSequential {T : Type} [LinearOrder T] [Zero T] (f : feed T)
    (dec : List (Option (Record T))) : feed T × List (Encoded T) :=
  RunSequentialLoop f [] Request.zero dec

/-- Program points of `producer`. -/
inductive producerPc (T : Type) where
  /-- At the top of the loop, before `dec.Decode`. -/
  | decode
  /-- After `ctx.wg.Add(1)`, before `q.Enqueue(request)`. -/
  | enqueue (request : Request T)
  /-- After `q.Enqueue(request)`, before `ctx.cond.Broadcast()`. -/
  | broadcast
  /-- Inside `ctx.wg.Wait()`, after a `DONE` record. -/
  | wait
  /-- After `return`. -/
  | returned
deriving DecidableEq, Repr

/-- Program points of `consumer`. -/
inductive consumerPc (T : Type) where
  /-- At the top of the loop, before `q.Dequeue()`. -/
  | dequeue
  /-- After `q.Dequeue()` returned nil, before `ctx.cond.Wait()`. -/
  | nilTask
  /-- Inside `ctx.cond.Wait()`, asleep. -/
  | waiting
  /-- After `q.Dequeue()` returned `task`, before `execute(f, enc, task)`. -/
  | execute (task : Request T)
  /-- After `execute`, before `ctx.wg.Done()`. -/
  | done
deriving DecidableEq, Repr

/-- The state of `Run` in parallel mode.  The last three fields are a history that the code
does not keep: the requests for which the producer called `wg.Add(1)`, the requests on which
`execute` returned, both in the order of the events, and the number of `wg.Done()` calls. -/
structure Server (T : Type) where
  f : feed T
  enc : List (Encoded T)
  dec : List (Option (Record T))
  q : List (Request T)
  wg : Int
  producer : producerPc T
  consumers : List (consumerPc T)
  accepted : List (Request T)
  executed : List (Request T)
  dones : Nat
deriving DecidableEq, Repr

/-- Go `Run(config)` in parallel mode right after the consumers are spawned. -/
def Server.init {T : Type} (dec : List (Option (Record T))) (ConsumersCount : Nat) : Server T :=
  { f := NewFeed, enc := [], dec := dec, q := [], wg := 0, producer := .decode,
    consumers := List.replicate ConsumersCount .dequeue,
    accepted := [], executed := [], dones := 0 }

/-- The effect of `ctx.cond.Broadcast()` on one consumer: a sleeping consumer returns from
`cond.Wait()` to the top of its loop. -/
def consumerPc.wake {T : Type} : consumerPc T → consumerPc T
  | .waiting => .dequeue
  | c => c

/-- One atomic step of `producer`; `none` when the producer is blocked or has returned. -/
def Server.producerStep {T : Type} [Zero T] (s : Server T) : Option (Server T) :=
  match s.producer with
  | .decode =>
    match s.dec with
    | [] => some { s with producer := .returned }
    | none :: dec => some { s with dec := dec, producer := .returned }
    | some r :: dec =>
      if (Request.zero.decode r).Command = "DONE" then
        some { s with dec := dec, producer := .wait }
      else
        some { s with dec := dec, wg := s.wg + 1,
                      producer := .enqueue (Request.zero.decode r),
                      accepted := s.accepted ++ [Request.zero.decode r] }
  | .enqueue request => some { s with q := s.q ++ [request], producer := .broadcast }
  | .broadcast => some { s with consumers := s.consumers.map consumerPc.wake, producer := .decode }
  | .wait => if s.wg = 0 then some { s with producer := .returned } else none
  | .returned => none

/-- One atomic step of the consumer number `i`; `none` when there is no such consumer or it
is asleep. -/
def Server.consumerStep {T : Type} [LinearOrder T] (s : Server T) (i : Nat) :
    Option (Server T) :=
  match s.consumers[i]? with
  | none => none
  | some .dequeue =>
    match s.q with
    | [] => some { s with consumers := s.consumers.set i .nilTask }
    | task :: q => some { s with q := q, consumers := s.consumers.set i (.execute task) }
  | some .nilTask => some { s with consumers := s.consumers.set i .waiting }
  | some .waiting => none
  | some (.execute task) =>
    some { s with f := (execute s.f task).1, enc := s.enc ++ (execute s.f task).2,
                  executed := s.executed ++ [task],
                  consumers := s.consumers.set i .done }
  | some .done =>
    some { s with wg := s.wg - 1, dones := s.dones + 1,
                  consumers := s.consumers.set i .dequeue }

/-- The thread that takes the next step. -/
inductive ServerEvent where
  | producer
  | consumer (i : Nat)
deriving DecidableEq, Repr

/-- One atomic step of the server. -/
def Server.step {T : Type} [LinearOrder T] [Zero T] (s : Server T) : ServerEvent → Option (Server T)
  | .producer => s.producerStep
  | .consumer i => s.consumerStep i

/-- A sequence of atomic steps, first one first. -/
def Server.run {T : Type} [LinearOrder T] [Zero T] (s : Server T) :
    List ServerEvent → Option (Server T)
  | [] => some s
  | e :: es =>
    match s.step e with
    | none => none
    | some s1 => s1.run es

/-- The requests the producer accepts from the input: those decoded before the first `DONE`
record, the first error or the end of the input. -/
def acceptedOf {T : Type} [Zero T] : List (Option (Record T)) → List (Request T)
  | [] => []
  | none :: _ => []
  | some r :: dec =>
    if (Request.zero.decode r).Command = "DONE" then []
    else Request.zero.decode r :: acceptedOf dec

/-- The feed and the encoded values after `execute` has run on the given requests one after
the other, starting from the feed `f` and the encoded values `enc`. -/
def executeAll {T : Type} [LinearOrder T] (f : feed T) (enc : List (Encoded T)) :
    List (Request T) → feed T × List (Encoded T)
  | [] => (f, enc)
  | task :: tasks => executeAll (execute f task).1 (enc ++ (execute f task).2) tasks

/-- What `wg.Add(1)` of the producer still counts at its program point: `1` between
`wg.Add(1)` and `q.Enqueue`. -/
def producerPc.pending {T : Type} : producerPc T → Nat
  | .enqueue _ => 1
  | _ => 0

/-- The request the producer holds between `wg.Add(1)` and `q.Enqueue`. -/
def producerPc.held {T : Type} : producerPc T → Multiset (Request T)
  | .enqueue request => {request}
  | _ => 0

/-- The request a consumer holds between `q.Dequeue` and `execute`. -/
def consumerPc.held {T : Type} : consumerPc T → Multiset (Request T)
  | .execute task => {task}
  | _ => 0

/-- Counts a consumer that is between `q.Dequeue` and `execute`. -/
def consumerPc.executing {T : Type} : consumerPc T → Nat
  | .execute _ => 1
  | _ => 0

/-- Counts a consumer that is between `execute` and `wg.Done()`. -/
def consumerPc.finishing {T : Type} : consumerPc T → Nat
  | .done => 1
  | _ => 0

/-- Inductive invariant of the parallel mode for the input `input`. -/
def Server.Inv {T : Type} [LinearOrder T] [Zero T] (input : List (Option (Record T)))
    (s : Server T) : Prop :=
  s.wg = (s.producer.pending : Int) + s.q.length +
    (s.consumers.map consumerPc.executing).sum + (s.consumers.map consumerPc.finishing).sum ∧
  s.accepted.length = s.executed.length + s.producer.pending + s.q.length +
    (s.consumers.map consumerPc.executing).sum ∧
  s.executed.length = s.dones + (s.consumers.map consumerPc.finishing).sum ∧
  (s.accepted : Multiset (Request T)) =
    s.executed + s.producer.held + s.q + (s.consumers.map consumerPc.held).sum ∧
  (s.f, s.enc) = executeAll NewFeed [] s.executed ∧
  acceptedOf input = s.accepted ++
    (match s.producer with
      | .wait => []
      | .returned => []
      | _ => acceptedOf s.dec)

/-- The request a consumer holds between `q.Dequeue` and `execute`, as a list. -/
def consumerPc.heldList {T : Type} : consumerPc T → List (Request T)
  | .execute task => [task]
  | _ => []

/-- The request the producer holds between `wg.Add(1)` and `q.Enqueue`, as a list. -/
def producerPc.heldList {T : Type} : producerPc T → List (Request T)
  | .enqueue request => [request]
  | _ => []

/-- Invariant of the parallel mode with exactly one consumer: the accepted requests are, in
this order, the executed ones, the one the consumer holds, the queued ones and the one the
producer is about to enqueue. -/
def Server.InOrder {T : Type} (s : Server T) : Prop :=
  ∃ c, s.consumers = [c] ∧
    s.accepted = s.executed ++ c.heldList ++ s.q ++ s.producer.heldList

/-! ### queue/queue.go -/

/-- Go struct `qNode`. -/
structure qNode (T : Type) where
  request : Option (Request T)
  next : Ptr

/-- Go struct `SeqQueue` together with the memory its pointers point into. -/
structure SeqQueue (T : Type) where
  heap : Nat → Option (qNode T)
  fresh : Nat
  head : Ptr
  tail : Ptr

/-- Dereference of a `*qNode`; nil (or an address that holds no node) faults. -/
def SeqQueue.deref {T : Type} (q : SeqQueue T) : Ptr → Except Fault (qNode T)
  | none => .error .invalidPointer
  | some a =>
    match q.heap a with
    | none => .error .invalidPointer
    | some n => .ok n

/-- Go `NewSeqQueue()`: one dummy node, `head` and `tail` point to it. -/
def NewSeqQueue {T : Type} : SeqQueue T :=
  { heap := fun a => if a = 0 then some { request := none, next := none } else none
    fresh := 1
    head := some 0
    tail := some 0 }

/-- Go `(q *SeqQueue) Enqueue(request)`:
`qnode := &qNode{request, nil}; q.tail.next = qnode; q.tail = qnode`. -/
def SeqQueue.Enqueue {T : Type} (q : SeqQueue T) (request : Option (Request T)) :
    Except Fault (SeqQueue T) :=
  let qnode := q.fresh
  match q.tail with
  | none => .error .invalidPointer
  | some tail =>
    match q.deref (some tail) with
    | .error e => .error e
    | .ok tailNode =>
      .ok { heap := fun a =>
              if a = tail then some { tailNode with next := some qnode }
              else if a = qnode then some { request := request, next := none }
              else q.heap a
            fresh := q.fresh + 1
            head := q.head
            tail := some qnode }

/-- Go `(q *SeqQueue) Dequeue() *Request`. -/
def SeqQueue.Dequeue {T : Type} (q : SeqQueue T) :
    Except Fault (Option (Request T) × SeqQueue T) :=
  match q.deref q.head with
  | .error e => .error e
  | .ok headNode =>
    if q.head = q.tail ∧ headNode.next = none then .ok (none, q)
    else
      match q.deref headNode.next with
      | .error e => .error e
      | .ok nextNode => .ok (nextNode.request, { q with head := headNode.next })

/-- One call of a method of the interface `Queue`; the argument of `Enqueue` is a `*Request`
and may be nil. -/
inductive QueueOp (T : Type) where
  | Enqueue (task : Option (Request T))
  | Dequeue
deriving DecidableEq, Repr

/-- A sequence of calls executed one at a time on the lock-free queue, each loop being given
`fuel` iterations: the values returned by the `Dequeue` calls and the queue afterwards. -/
def LockFreeQueue.runOps {T : Type} (fuel : Nat) :
    List (QueueOp T) → LockFreeQueue T →
      Except Fault (List (Option (Request T)) × LockFreeQueue T)
  | [], q => .ok ([], q)
  | .Enqueue task :: ops, q =>
    match q.Enqueue fuel task with
    | .error e => .error e
    | .ok q1 => LockFreeQueue.runOps fuel ops q1
  | .Dequeue :: ops, q =>
    match q.Dequeue fuel with
    | .error e => .error e
    | .ok (r, q1) =>
      match LockFreeQueue.runOps fuel ops q1 with
      | .error e => .error e
      | .ok (rs, q2) => .ok (r :: rs, q2)

/-- A sequence of calls executed one at a time on the sequential queue: the values returned by
the `Dequeue` calls and the queue afterwards. -/
def SeqQueue.runOps {T : Type} :
    List (QueueOp T) → SeqQueue T → Except Fault (List (Option (Request T)) × SeqQueue T)
  | [], q => .ok ([], q)
  | .Enqueue task :: ops, q =>
    match q.Enqueue task with
    | .error e => .error e
    | .ok q1 => SeqQueue.runOps ops q1
  | .Dequeue :: ops, q =>
    match q.Dequeue with
    | .error e => .error e
    | .ok (r, q1) =>
      match SeqQueue.runOps ops q1 with
      | .error e => .error e
      | .ok (rs, q2) => .ok (r :: rs, q2)

/-- The addresses met when following `next` from the pointer `p` until nil, in the memory of
the lock-free queue. -/
def queuePath {T : Type} (heap : Nat → Option (node T)) : Ptr → List Nat → Prop
  | p, [] => p = none
  | p, a :: l => p = some a ∧ ∃ n, heap a = some n ∧ queuePath heap n.next l

/-- Representation invariant of the sequential queue: the memory holds one node for every entry
of `rs` (entry `0` is the first dummy), allocated and linked in this order; `head` is at address
`h` and `tail` at the last node. -/
def SeqRep {T : Type} (q : SeqQueue T) (rs : List (Option (Request T))) (h : Nat) : Prop :=
  q.fresh = rs.length ∧ q.head = some h ∧ q.tail = some (rs.length - 1) ∧ h < rs.length ∧
  ∀ i, q.heap i =
    (rs[i]?).map (fun r => { request := r, next := if i + 1 < rs.length then some (i + 1) else none })

/-! ### feed/feed2.go: the list in memory, operations in flight -/

/-- The nodes met when following `next` from the pointer `p` until the pointer `q`, each with
its address.  With `q` nil this is the whole list hanging from `p`. -/
def optSeg {T : Type} (heap : Nat → Option (optPost T)) :
    Ptr → List (Nat × optPost T) → Ptr → Prop
  | p, [], q => p = q
  | p, x :: l, q => p = some x.1 ∧ heap x.1 = some x.2 ∧ optSeg heap x.2.next l q

/-- A call of `Add` or of `Remove` in flight: `add` holds the address of the node made by
`newPost`; `site` is nil while the thread has no site (at the top of the loop) and holds the
site found under the read lock while the thread changes locks. -/
inductive optOp (T : Type) where
  | add (np : Nat) (timestamp : T) (site : Option AddSite)
  | remove (timestamp : T) (site : Option RemoveSite)

/-- The node made by `newPost` for a call of `Add` in flight. -/
def optOp.newNode {T : Type} : optOp T → Option Nat
  | .add np _ _ => some np
  | .remove _ _ => none

/-- The local variable `curPost` of a call that has found a site behind a node. -/
def optOp.located {T : Type} : optOp T → Option Nat
  | .add _ _ (some (.after curPost)) => some curPost
  | .remove _ (some (.after curPost)) => some curPost
  | _ => none

/-- An optimistic feed shared by threads: `ops i` is the call thread `i` is executing, nil when
it is executing none. -/
structure optShared (T : Type) where
  f : optFeed T
  ops : Nat → Option (optOp T)

/-- A feed from `NewOptFeed()` on which no thread has called a method yet. -/
def optShared.init {T : Type} [Neg T] [One T] : optShared T :=
  { f := NewOptFeed, ops := fun _ => none }

/-- The state in which thread `i` has moved to `op`. -/
def optShared.setOp {T : Type} (s : optShared T) (f : optFeed T) (i : Nat)
    (op : Option (optOp T)) : optShared T :=
  { f := f, ops := fun j => if j = i then op else s.ops j }

/-- The atomic segments of `Add` and `Remove`.  The lock makes the part of an iteration run
under the read lock (`locate`, which writes nothing) and the part run under the write lock
(`commit`) atomic with respect to the write-locked parts of the other threads. -/
inductive optEvent (T : Type) where
  /-- Thread `i` calls `Add(body, timestamp)` and executes `newPost`. -/
  | callAdd (i : Nat) (body : String) (timestamp : T)
  /-- Thread `i` calls `Remove(timestamp)`. -/
  | callRemove (i : Nat) (timestamp : T)
  /-- Thread `i` runs the read-locked part of an iteration, its traversal taking at most `fuel`
  steps. -/
  | locate (i fuel : Nat)
  /-- Thread `i` runs the write-locked part of the iteration and returns or retries. -/
  | commit (i : Nat)

/-- One atomic segment; `none` when the thread cannot perform it (it is not at that program
point, the traversal needs more steps, or the segment dereferences an invalid pointer and the
process stops). -/
def optShared.step {T : Type} [LinearOrder T] (s : optShared T) : optEvent T → Option (optShared T)
  | .callAdd i body timestamp =>
    match s.ops i with
    | none =>
      some (s.setOp (s.f.newPost body timestamp).2 i
        (some (.add (s.f.newPost body timestamp).1 timestamp none)))
    | some _ => none
  | .callRemove i timestamp =>
    match s.ops i with
    | none => some (s.setOp s.f i (some (.remove timestamp none)))
    | some _ => none
  | .locate i fuel =>
    match s.ops i with
    | some (.add np timestamp none) =>
      match s.f.AddLocate timestamp fuel with
      | .ok site => some (s.setOp s.f i (some (.add np timestamp (some site))))
      | .error _ => none
    | some (.remove timestamp none) =>
      match s.f.RemoveLocate timestamp fuel with
      | .ok site => some (s.setOp s.f i (some (.remove timestamp (some site))))
      | .error _ => none
    | _ => none
  | .commit i =>
    match s.ops i with
    | some (.add np timestamp (some site)) =>
      match s.f.AddCommit np timestamp site with
      | .ok (true, f1) => some (s.setOp f1 i none)
      | .ok (false, f1) => some (s.setOp f1 i (some (.add np timestamp none)))
      | .error _ => none
    | some (.remove timestamp (some site)) =>
      match s.f.RemoveCommit timestamp site with
      | .ok (some _, f1) => some (s.setOp f1 i none)
      | .ok (none, f1) => some (s.setOp f1 i (some (.remove timestamp none)))
      | .error _ => none
    | _ => none

/-- A sequence of atomic segments, first one first. -/
def optShared.run {T : Type} [LinearOrder T] (s : optShared T) :
    List (optEvent T) → Option (optShared T)
  | [] => some s
  | e :: es =>
    match s.step e with
    | none => none
    | some s1 => s1.run es

/-- Invariant of the shared optimistic feed; `l` is the list hanging from `start`, sentinel
included.  The sentinel made by `NewOptFeed()` is at address `0` and is the first node; no node
of the list is marked removed; nothing is allocated from `fresh` on; the new node of a call of
`Add` in flight is allocated, not marked removed, not in the list and not the new node of
another call; the node of a located site is allocated and is in the list unless it is marked
removed. -/
def optShared.Inv {T : Type} [Neg T] [One T] (s : optShared T)
    (l : List (Nat × optPost T)) : Prop :=
  s.f.start = some 0 ∧ optSeg s.f.heap (some 0) l none ∧
  (∃ sent l0, l = (0, sent) :: l0 ∧ sent.body = "" ∧ sent.timestamp = -1) ∧
  (∀ x ∈ l, x.2.removed = false) ∧
  (∀ a, s.f.fresh ≤ a → s.f.heap a = none) ∧
  (∀ i op np, s.ops i = some op → op.newNode = some np →
    np ∉ l.map Prod.fst ∧ (∃ n, s.f.heap np = some n ∧ n.removed = false) ∧
    ∀ j op1, s.ops j = some op1 → op1.newNode = some np → j = i) ∧
  (∀ i op c, s.ops i = some op → op.located = some c →
    ∃ n, s.f.heap c = some n ∧ (n.removed = false → c ∈ l.map Prod.fst))

/-- A sequence of method calls on the coarse feed, executed one at a time: the values returned
and the feed afterwards. -/
def feed.invokeAll {T : Type} [LinearOrder T] :
    List (FeedMethod T) → feed T → List (FeedReturn T) × feed T
  | [], f => ([], f)
  | m :: ms, f =>
    ((f.invoke m).1 :: (feed.invokeAll ms (f.invoke m).2).1, (feed.invokeAll ms (f.invoke m).2).2)

/-- A sequence of method calls on the optimistic feed, executed one at a time by one thread,
each loop being given `fuel` iterations: the values returned and the feed afterwards. -/
def optFeed.invokeAll {T : Type} [LinearOrder T] (fuel : Nat) :
    List (FeedMethod T) → optFeed T → Except Fault (List (FeedReturn T) × optFeed T)
  | [], f => .ok ([], f)
  | m :: ms, f =>
    match f.invoke fuel m with
    | .error e => .error e
    | .ok (r, f1) =>
      match optFeed.invokeAll fuel ms f1 with
      | .error e => .error e
      | .ok (rs, f2) => .ok (r :: rs, f2)

/-! ### lock/rwlock.go: threads with an identity

The same atomic segments as in the counting model of `rwLock`, with the program point of every
thread kept apart, so that a property can follow one reader and one writer.  Thread `i` is the
entry `i` of `pcs`. -/

/-- Program points of a thread with respect to an `rwLock`: outside the lock, asleep or woken
in the `Wait` of the first or of the second loop of `RLock`, between `RLock` and `RUnlock`, and
the same for `Lock` and `Unlock`. -/
inductive rwPc where
  | idle
  | rSleep1
  | rReady1
  | rSleep2
  | rReady2
  | reading
  | wSleep1
  | wReady1
  | wSleep2
  | wReady2
  | writing
deriving DecidableEq, Repr

/-- Effect of `Broadcast` on one thread: a sleeping thread becomes ready. -/
def rwPc.wake : rwPc → rwPc
  | .rSleep1 => .rReady1
  | .rSleep2 => .rReady2
  | .wSleep1 => .wReady1
  | .wSleep2 => .wReady2
  | p => p

/-- A writer that is queued or active: the thread has called `Lock` and has not yet called
`Unlock`. -/
def rwPc.isWriter : rwPc → Bool
  | .wSleep1 => true
  | .wReady1 => true
  | .wSleep2 => true
  | .wReady2 => true
  | .writing => true
  | _ => false

/-- Go struct `rwLock` together with the program point of each thread that may use it. -/
structure rwLockThreads where
  readerCount : Int
  writerCount : Int
  writerWait : Bool
  pcs : List rwPc
deriving DecidableEq, Repr

/-- Go `NewRWLock()` with `n` threads, all outside the lock. -/
def rwLockThreads.init (n : Nat) : rwLockThreads :=
  { readerCount := 0, writerCount := 0, writerWait := false, pcs := List.replicate n .idle }

/-- Go `rw.cond.Broadcast()`. -/
def rwLockThreads.Broadcast (s : rwLockThreads) : rwLockThreads :=
  { s with pcs := s.pcs.map rwPc.wake }

/-- `RLock` of thread `i` from the test of its second loop. -/
def rwLockThreads.RLockSecond (s : rwLockThreads) (i : Nat) : rwLockThreads :=
  if s.readerCount > maxReaders then { s with pcs := s.pcs.set i .rSleep2 }
  else { s with readerCount := s.readerCount + 1, pcs := s.pcs.set i .reading }

/-- `RLock` of thread `i` from the test of its first loop. -/
def rwLockThreads.RLockFirst (s : rwLockThreads) (i : Nat) : rwLockThreads :=
  if s.writerCount > 0 then { s with pcs := s.pcs.set i .rSleep1 }
  else s.RLockSecond i

/-- `RUnlock` of thread `i`. -/
def rwLockThreads.RUnlock (s : rwLockThreads) (i : Nat) : rwLockThreads :=
  let s1 := { s with readerCount := s.readerCount - 1, pcs := s.pcs.set i .idle }
  if s1.readerCount = 0 then s1.Broadcast else s1

/-- `Lock` of thread `i` from the test of its second loop. -/
def rwLockThreads.LockSecond (s : rwLockThreads) (i : Nat) : rwLockThreads :=
  if s.writerWait then { s with pcs := s.pcs.set i .wSleep2 }
  else { s with writerWait := true, pcs := s.pcs.set i .writing }

/-- `Lock` of thread `i` from the test of its first loop. -/
def rwLockThreads.LockFirst (s : rwLockThreads) (i : Nat) : rwLockThreads :=
  if s.readerCount > 0 then { s with pcs := s.pcs.set i .wSleep1 }
  else s.LockSecond i

/-- `Unlock` of thread `i`. -/
def rwLockThreads.Unlock (s : rwLockThreads) (i : Nat) : rwLockThreads :=
  ({ s with writerCount := s.writerCount - 1, writerWait := false,
            pcs := s.pcs.set i .idle }).Broadcast

/-- The atomic segments, each with the thread that runs it: the call of a method, or the return
from `Wait` of a thread that has been woken. -/
inductive rwThreadEvent where
  | RLock (i : Nat)
  | RUnlock (i : Nat)
  | Lock (i : Nat)
  | Unlock (i : Nat)
  | wake (i : Nat)
deriving DecidableEq, Repr

/-- One atomic segment; `none` when the thread is not at a program point from which it can run
it. -/
def rwLockThreads.step (s : rwLockThreads) : rwThreadEvent → Option rwLockThreads
  | .RLock i => if s.pcs[i]? = some .idle then some (s.RLockFirst i) else none
  | .RUnlock i => if s.pcs[i]? = some .reading then some (s.RUnlock i) else none
  | .Lock i =>
    if s.pcs[i]? = some .idle then
      some (({ s with writerCount := s.writerCount + 1 }).LockFirst i)
    else none
  | .Unlock i => if s.pcs[i]? = some .writing then some (s.Unlock i) else none
  | .wake i =>
    match s.pcs[i]? with
    | some .rReady1 => some (s.RLockFirst i)
    | some .rReady2 => some (s.RLockSecond i)
    | some .wReady1 => some (s.LockFirst i)
    | some .wReady2 => some (s.LockSecond i)
    | _ => none

/-- A sequence of atomic segments, first one first. -/
def rwLockThreads.run (s : rwLockThreads) : List rwThreadEvent → Option rwLockThreads
  | [] => some s
  | e :: es =>
    match s.step e with
    | none => none
    | some s1 => s1.run es

/-- The number of writers queued or active. -/
def rwLockThreads.writersIn (s : rwLockThreads) : Int :=
  (s.pcs.map fun p => if p.isWriter then (1 : Int) else 0).sum

/-! ### server/server.go: reference for the sequential mode -/

/-- A decode result at which the server stops reading: an error, or a record whose command is
`DONE`. -/
def stopsInput {T : Type} : Option (Record T) → Bool
  | none => true
  | some r => decide (r.command = some "DONE")

/-- Reference of the specification: the records of the input that come before the first error,
the first record whose command is `DONE`, or the end of the input. -/
def recordsBeforeStop {T : Type} : List (Option (Record T)) → List (Record T)
  | [] => []
  | none :: _ => []
  | some r :: dec => if r.command = some "DONE" then [] else r :: recordsBeforeStop dec

/-- The requests obtained by decoding the given records one after the other into the variable
`request`. -/
def decodedRequests {T : Type} (request : Request T) : List (Record T) → List (Request T)
  | [] => []
  | r :: rs => request.decode r :: decodedRequests (request.decode r) rs

/-- The concatenation, in order, of what `execute` emits for the given requests, the feed being
passed from each call to the next. -/
def responsesOf {T : Type} [LinearOrder T] (f : feed T) : List (Request T) → List (Encoded T)
  | [] => []
  | task :: tasks => (execute f task).2 ++ responsesOf (execute f task).1 tasks

/-! ## Theorems -/

/-! ### Coarse feed -/

theorem returnFeedLoop_eq {T : Type} (l : List (post T)) (acc : List (Post T)) :
    returnFeedLoop acc l = acc ++ l.map post.content := by
  induction l generalizing acc with
  | nil => simp [returnFeedLoop]
  | cons a l ih => simp [returnFeedLoop, ih]

theorem ReturnFeed_eq {T : Type} (f : feed T) :
    f.ReturnFeed = f.start.map post.content := by
  simp [feed.ReturnFeed, returnFeedLoop_eq]

theorem addLoop_perm {T : Type} [LinearOrder T] (np : post T) (rest : List (post T)) :
    ∀ cur : post T, (addLoop np cur rest).Perm (np :: cur :: rest) := by
  induction rest with
  | nil =>
    intro cur
    simpa [addLoop] using List.Perm.swap np cur []
  | cons nxt rest ih =>
    intro cur
    unfold addLoop
    split
    · exact ((ih nxt).cons cur).trans (List.Perm.swap np cur (nxt :: rest))
    · exact List.Perm.swap np cur (nxt :: rest)

theorem addLoop_sorted {T : Type} [LinearOrder T] (np : post T) (rest : List (post T)) :
    ∀ cur : post T, SortedDesc (cur :: rest) → np.timestamp ≤ cur.timestamp →
      SortedDesc (addLoop np cur rest) := by
  induction rest with
  | nil =>
    intro cur _ hle
    simpa [addLoop, SortedDesc] using hle
  | cons nxt rest ih =>
    intro cur hs hle
    unfold addLoop
    have hs2 := hs
    simp only [SortedDesc, List.pairwise_cons] at hs2
    obtain ⟨hcur, hnxt, hrest⟩ := hs2
    split
    · next hlt =>
      have hrec := ih nxt (List.Pairwise.of_cons hs) (le_of_lt hlt)
      refine List.Pairwise.cons ?_ hrec
      intro x hx
      have hx2 := (addLoop_perm np rest nxt).subset hx
      rcases List.mem_cons.1 hx2 with rfl | hx3
      · exact hle
      · exact hcur x hx3
    · next hnlt =>
      have hge : nxt.timestamp ≤ np.timestamp := not_lt.1 hnlt
      simp only [SortedDesc, List.pairwise_cons]
      refine ⟨?_, ?_, hnxt, hrest⟩
      · intro x hx
        rcases List.mem_cons.1 hx with rfl | hx3
        · exact hle
        · exact hcur x hx3
      · intro x hx
        rcases List.mem_cons.1 hx with rfl | hx3
        · exact hge
        · exact le_trans (hnxt x hx3) hge

theorem Add_perm {T : Type} [LinearOrder T] (f : feed T) (body : String) (timestamp : T) :
    (f.Add body timestamp).start.Perm (newPost body timestamp :: f.start) := by
  unfold feed.Add
  split
  · next h => simp [h]
  · next cur rest h =>
    rw [h]
    split
    · exact List.Perm.refl _
    · exact addLoop_perm _ _ _

theorem Add_sorted {T : Type} [LinearOrder T] (f : feed T) (body : String) (timestamp : T)
    (hs : SortedDesc f.start) : SortedDesc (f.Add body timestamp).start := by
  unfold feed.Add
  split
  · simp [SortedDesc]
  · next cur rest h =>
    rw [h] at hs
    split
    · next hgt =>
      refine List.Pairwise.cons ?_ hs
      intro x hx
      have hs2 := hs
      simp only [SortedDesc, List.pairwise_cons] at hs2
      rcases List.mem_cons.1 hx with rfl | hx3
      · exact le_of_lt hgt
      · exact le_trans (hs2.1 x hx3) (le_of_lt hgt)
    · next hngt =>
      exact addLoop_sorted _ _ _ hs (not_lt.1 hngt)

theorem removeLoop_sublist {T : Type} [LinearOrder T] (timestamp : T) (rest : List (post T)) :
    ∀ cur : post T, (removeLoop timestamp cur rest).2.Sublist (cur :: rest) := by
  induction rest with
  | nil =>
    intro cur
    simp [removeLoop]
  | cons nxt rest ih =>
    intro cur
    unfold removeLoop
    split
    · exact (ih nxt).cons₂ cur
    · exact ((List.sublist_cons_self nxt rest).cons₂ cur)

theorem Remove_sublist {T : Type} [LinearOrder T] (f : feed T) (timestamp : T) :
    (f.Remove timestamp).2.start.Sublist f.start := by
  unfold feed.Remove
  split
  · exact List.Sublist.refl _
  · next cur rest h =>
    rw [h]
    split
    · exact List.sublist_cons_self cur rest
    · exact removeLoop_sublist _ _ _

theorem call_sorted {T : Type} [LinearOrder T] (f : feed T) (c : FeedCall T)
    (hs : SortedDesc f.start) : SortedDesc (f.call c).start := by
  cases c with
  | add body timestamp => exact Add_sorted f body timestamp hs
  | remove timestamp => exact List.Pairwise.sublist (Remove_sublist f timestamp) hs

theorem calls_sorted {T : Type} [LinearOrder T] (cs : List (FeedCall T)) :
    ∀ f : feed T, SortedDesc f.start → SortedDesc (f.calls cs).start := by
  induction cs with
  | nil => intro f hs; simpa [feed.calls] using hs
  | cons c cs ih =>
    intro f hs
    simpa [feed.calls] using ih (f.call c) (call_sorted f c hs)

/-- Claim C1: after any finite sequence of `Add` and `Remove` calls executed one at a time on
a feed created by `NewFeed()`, the timestamps of the posts returned by `ReturnFeed()` never
increase from the first element to the last. -/
theorem coarse_feed_timestamps_nonincreasing {T : Type} [LinearOrder T]
    (cs : List (FeedCall T)) :
    ((NewFeed.calls cs).ReturnFeed.map Post.Timestamp).Pairwise (fun a b => a ≥ b) := by
  have hs : SortedDesc (NewFeed.calls cs).start :=
    calls_sorted cs NewFeed (by simp [SortedDesc, NewFeed])
  rw [ReturnFeed_eq, List.map_map, List.pairwise_map]
  exact hs

theorem addLoop_split {T : Type} [LinearOrder T] (np : post T) (rest : List (post T)) :
    ∀ cur : post T, ∃ pre suf, rest = pre ++ suf ∧
      addLoop np cur rest = cur :: (pre ++ np :: suf) ∧
      ∀ q ∈ pre, np.timestamp < q.timestamp := by
  induction rest with
  | nil =>
    intro cur
    exact ⟨[], [], by simp [addLoop]⟩
  | cons nxt rest ih =>
    intro cur
    unfold addLoop
    split
    · next hlt =>
      obtain ⟨pre, suf, h1, h2, h3⟩ := ih nxt
      refine ⟨nxt :: pre, suf, by simp [h1], by simp [h2], ?_⟩
      intro q hq
      rcases List.mem_cons.1 hq with rfl | hq2
      · exact hlt
      · exact h3 q hq2
    · exact ⟨[], nxt :: rest, by simp⟩

theorem Add_split {T : Type} [LinearOrder T] (f : feed T) (body : String) (timestamp : T) :
    ∃ pre suf, f.start = pre ++ suf ∧
      (f.Add body timestamp).start = pre ++ newPost body timestamp :: suf ∧
      (∀ q ∈ pre.tail, timestamp < q.timestamp) ∧
      (∀ h, f.start.head? = some h → (pre = [] ↔ h.timestamp < timestamp)) := by
  unfold feed.Add
  split
  · next h => exact ⟨[], [], by simp [h]⟩
  · next cur rest h =>
    rw [h]
    split
    · next hgt =>
      refine ⟨[], cur :: rest, by simp, by simp, by simp, ?_⟩
      intro x hx
      simp only [List.head?_cons, Option.some.injEq] at hx
      subst hx
      simpa using hgt
    · next hngt =>
      obtain ⟨pre, suf, h1, h2, h3⟩ := addLoop_split (newPost body timestamp) rest cur
      refine ⟨cur :: pre, suf, by simp [h1], by simp [h2], ?_, ?_⟩
      · simpa [newPost] using h3
      · intro x hx
        simp only [List.head?_cons, Option.some.injEq] at hx
        subst hx
        simpa using hngt

theorem removeLoop_eq {T : Type} [LinearOrder T] (timestamp : T) (rest : List (post T)) :
    ∀ cur : post T, removeLoop timestamp cur rest =
      (rest.any (fun q => decide (q.timestamp = timestamp)),
        cur :: rest.eraseP (fun q => decide (q.timestamp = timestamp))) := by
  induction rest with
  | nil => intro cur; simp [removeLoop]
  | cons nxt rest ih =>
    intro cur
    unfold removeLoop
    split
    · next hne =>
      have hne2 : ¬ nxt.timestamp = timestamp := fun h => hne h.symm
      simp [ih nxt, List.eraseP_cons, hne2]
    · next heq =>
      have heq2 : nxt.timestamp = timestamp := (not_not.1 heq).symm
      simp [List.eraseP_cons, heq2]

theorem Remove_eq {T : Type} [LinearOrder T] (f : feed T) (timestamp : T) :
    f.Remove timestamp =
      (f.start.any (fun q => decide (q.timestamp = timestamp)),
        { start := f.start.eraseP (fun q => decide (q.timestamp = timestamp)) }) := by
  unfold feed.Remove
  split
  · next h =>
    cases f
    simp only at h
    subst h
    simp
  · next cur rest h =>
    rw [h]
    split
    · next heq => simp [List.eraseP_cons, heq.symm]
    · next hne =>
      have hne2 : ¬ cur.timestamp = timestamp := fun h => hne h.symm
      simp [removeLoop_eq, List.eraseP_cons, hne2]

theorem containsLoop_iff {T : Type} [LinearOrder T] (timestamp : T) (l : List (post T)) :
    containsLoop timestamp l = true ↔ ∃ q ∈ l, q.timestamp = timestamp := by
  induction l with
  | nil => simp [containsLoop]
  | cons a l ih =>
    unfold containsLoop
    split
    · next h => simp [h]
    · next h => simp [ih, h]

theorem addAll_perm {T : Type} [LinearOrder T] (ps : List (Post T)) :
    ∀ f : feed T, (f.addAll ps).ReturnFeed.Perm (ps ++ f.ReturnFeed) := by
  induction ps with
  | nil => intro f; simp [feed.addAll]
  | cons p ps ih =>
    intro f
    have h1 : (f.addAll (p :: ps)) = (f.Add p.Body p.Timestamp).addAll ps := by
      simp [feed.addAll]
    rw [h1]
    refine (ih _).trans ?_
    have h2 : (f.Add p.Body p.Timestamp).ReturnFeed.Perm (p :: f.ReturnFeed) := by
      rw [ReturnFeed_eq, ReturnFeed_eq]
      have := (Add_perm f p.Body p.Timestamp).map post.content
      simpa [newPost, post.content] using this
    refine (List.Perm.append_left ps h2).trans ?_
    exact List.perm_middle

theorem addAll_sorted {T : Type} [LinearOrder T] (ps : List (Post T)) :
    ∀ f : feed T, SortedDesc f.start → SortedDesc (f.addAll ps).start := by
  induction ps with
  | nil => intro f hs; simpa [feed.addAll] using hs
  | cons p ps ih =>
    intro f hs
    simpa [feed.addAll] using ih _ (Add_sorted f p.Body p.Timestamp hs)

theorem strictly_sorted_unique {T : Type} [LinearOrder T] (l₁ l₂ : List (Post T))
    (hp : l₁.Perm l₂)
    (h₁ : l₁.Pairwise (fun a b => a.Timestamp > b.Timestamp))
    (h₂ : l₂.Pairwise (fun a b => a.Timestamp > b.Timestamp)) : l₁ = l₂ := by
  haveI : IsAntisymm (Post T) (fun a b => a.Timestamp > b.Timestamp) :=
    ⟨fun a b h1 h2 => absurd h1 (lt_asymm h2)⟩
  exact List.eq_of_perm_of_sorted hp h₁ h₂

/-- Claim C2, the counterexample: on an empty feed `Add("x",1.0)` then `Add("y",1.0)` gives the
snapshot `[x/1, y/1]`, not `[y/1, x/1]`: the new post `y` is placed behind the equal-timestamp
post `x`, and the following `Remove(1.0)` returns true and leaves `[y/1]`, not `[x/1]`. -/
theorem add_equal_timestamp_at_head_not_lifo :
    (((NewFeed (T := ℚ)).Add "x" 1).Add "y" 1).ReturnFeed = [⟨"x", 1⟩, ⟨"y", 1⟩] ∧
    (((NewFeed (T := ℚ)).Add "x" 1).Add "y" 1).ReturnFeed ≠ [⟨"y", 1⟩, ⟨"x", 1⟩] ∧
    ((((NewFeed (T := ℚ)).Add "x" 1).Add "y" 1).Remove 1).1 = true ∧
    ((((NewFeed (T := ℚ)).Add "x" 1).Add "y" 1).Remove 1).2.ReturnFeed = [⟨"y", 1⟩] ∧
    ((((NewFeed (T := ℚ)).Add "x" 1).Add "y" 1).Remove 1).2.ReturnFeed ≠ [⟨"x", 1⟩] := by
  decide

/-- Claim C2, amended: for every state of the coarse feed and every `(body, ts)`, `Add(body, ts)`
splits the old snapshot into `pre ++ suf` and returns `pre ++ [new post] ++ suf`, where every post
of `pre` other than its first one has a timestamp strictly greater than `ts`.  Hence the new post
appears before every previously present post whose timestamp equals `ts`, except the first post of
the feed: `pre` is empty only when the feed was empty or its first post had a timestamp strictly
smaller than `ts`, so a first post whose timestamp equals `ts` stays in front of the new post. -/
theorem coarse_Add_equal_timestamps {T : Type} [LinearOrder T]
    (f : feed T) (body : String) (ts : T) :
    ∃ pre suf : List (Post T),
      f.ReturnFeed = pre ++ suf ∧
      (f.Add body ts).ReturnFeed = pre ++ ⟨body, ts⟩ :: suf ∧
      (∀ q ∈ pre.tail, ts < q.Timestamp) ∧
      (∀ h, f.ReturnFeed.head? = some h → (pre = [] ↔ h.Timestamp < ts)) := by
  obtain ⟨pre, suf, h1, h2, h3, h4⟩ := Add_split f body ts
  refine ⟨pre.map post.content, suf.map post.content, ?_, ?_, ?_, ?_⟩
  · rw [ReturnFeed_eq, h1, List.map_append]
  · rw [ReturnFeed_eq, h2, List.map_append, List.map_cons]
    rfl
  · intro q hq
    rw [← List.map_tail] at hq
    obtain ⟨x, hx, rfl⟩ := List.mem_map.1 hq
    exact h3 x hx
  · intro h hh
    rw [ReturnFeed_eq, List.head?_map] at hh
    cases hst : f.start.head? with
    | none => rw [hst] at hh; cases hh
    | some x =>
      rw [hst] at hh
      simp only [Option.map_some', Option.some.injEq] at hh
      subst hh
      simpa [post.content] using h4 x hst

/-- Claim C3: for every state of the coarse feed with snapshot `S` and every timestamp `ts`,
`Remove(ts)` returns true iff some post of `S` has timestamp `ts`; when it returns true the new
snapshot is `S` with exactly the first post whose timestamp equals `ts` deleted and all other
posts kept in the same order; when it returns false the snapshot is unchanged; on the empty feed
it returns false. -/
theorem coarse_Remove_first_match {T : Type} [LinearOrder T] (f : feed T) (ts : T) :
    ((f.Remove ts).1 = true ↔ ∃ p ∈ f.ReturnFeed, p.Timestamp = ts) ∧
    ((f.Remove ts).1 = true →
      ∃ pre p suf, f.ReturnFeed = pre ++ p :: suf ∧ p.Timestamp = ts ∧
        (∀ q ∈ pre, q.Timestamp ≠ ts) ∧ (f.Remove ts).2.ReturnFeed = pre ++ suf) ∧
    ((f.Remove ts).1 = false → (f.Remove ts).2.ReturnFeed = f.ReturnFeed) ∧
    ((NewFeed (T := T)).Remove ts).1 = false := by
  have hiff : (f.Remove ts).1 = true ↔ ∃ q ∈ f.start, q.timestamp = ts := by
    simp [Remove_eq]
  refine ⟨?_, ?_, ?_, ?_⟩
  · rw [hiff, ReturnFeed_eq]
    constructor
    · rintro ⟨q, hq, rfl⟩
      exact ⟨q.content, List.mem_map_of_mem _ hq, rfl⟩
    · rintro ⟨p, hp, rfl⟩
      obtain ⟨q, hq, rfl⟩ := List.mem_map.1 hp
      exact ⟨q, hq, rfl⟩
  · intro htrue
    obtain ⟨q, hq, hqt⟩ := hiff.1 htrue
    obtain ⟨a, l₁, l₂, hl₁, ha, hsplit, herase⟩ :=
      List.exists_of_eraseP (p := fun q : post T => decide (q.timestamp = ts)) hq (by simpa using hqt)
    refine ⟨l₁.map post.content, a.content, l₂.map post.content, ?_, ?_, ?_, ?_⟩
    · rw [ReturnFeed_eq, hsplit]; simp
    · simpa [post.content] using ha
    · intro p hp
      obtain ⟨x, hx, rfl⟩ := List.mem_map.1 hp
      simpa [post.content] using hl₁ x hx
    · rw [ReturnFeed_eq, Remove_eq]
      simp only
      rw [herase]; simp
  · intro hfalse
    have hnone : ∀ q ∈ f.start, ¬ (decide (q.timestamp = ts) = true) := by
      intro q hq hdec
      have : (f.Remove ts).1 = true := hiff.2 ⟨q, hq, by simpa using hdec⟩
      rw [hfalse] at this
      cases this
    rw [ReturnFeed_eq, ReturnFeed_eq, Remove_eq]
    simp only
    rw [List.eraseP_of_forall_not hnone]
  · rfl

/-- Claim C4: for every state of the coarse feed and every timestamp `ts`, `Contains(ts)`
returns true iff `ReturnFeed()` holds at least one post whose timestamp equals `ts`; on the
empty feed it returns false for every `ts`. -/
theorem coarse_Contains_iff_in_snapshot {T : Type} [LinearOrder T] (f : feed T) (ts : T) :
    (f.Contains ts = true ↔ ∃ p ∈ f.ReturnFeed, p.Timestamp = ts) ∧
    (NewFeed (T := T)).Contains ts = false := by
  refine ⟨?_, rfl⟩
  rw [feed.Contains, containsLoop_iff, ReturnFeed_eq]
  constructor
  · rintro ⟨q, hq, rfl⟩
    exact ⟨q.content, List.mem_map_of_mem _ hq, rfl⟩
  · rintro ⟨p, hp, rfl⟩
    obtain ⟨q, hq, rfl⟩ := List.mem_map.1 hp
    exact ⟨q, hq, rfl⟩

/-- Claim C5: for every finite list of posts with pairwise distinct timestamps, adding them one
at a time, in the order of the list (any order), to an empty coarse feed makes `ReturnFeed()` a
rearrangement of that list (no post lost, duplicated or altered) in strictly descending timestamp
order; it is the only such rearrangement, so it is the list sorted by descending timestamp. -/
theorem coarse_Add_all_sorts {T : Type} [LinearOrder T] (ps : List (Post T))
    (hdistinct : (ps.map Post.Timestamp).Nodup) :
    (NewFeed.addAll ps).ReturnFeed.Perm ps ∧
    (NewFeed.addAll ps).ReturnFeed.Pairwise (fun a b => a.Timestamp > b.Timestamp) ∧
    ∀ l : List (Post T), l.Perm ps → l.Pairwise (fun a b => a.Timestamp > b.Timestamp) →
      (NewFeed.addAll ps).ReturnFeed = l := by
  have hperm : (NewFeed.addAll ps).ReturnFeed.Perm ps := by
    simpa [ReturnFeed_eq, NewFeed] using addAll_perm ps (NewFeed (T := T))
  have hsorted : SortedDesc (NewFeed.addAll ps).start :=
    addAll_sorted ps NewFeed (by simp [SortedDesc, NewFeed])
  have hge : (NewFeed.addAll ps).ReturnFeed.Pairwise (fun a b => a.Timestamp ≥ b.Timestamp) := by
    rw [ReturnFeed_eq, List.pairwise_map]
    exact hsorted
  have hnodup : ((NewFeed.addAll ps).ReturnFeed.map Post.Timestamp).Nodup :=
    ((hperm.map Post.Timestamp).nodup_iff).2 hdistinct
  have hne : (NewFeed.addAll ps).ReturnFeed.Pairwise (fun a b => a.Timestamp ≠ b.Timestamp) := by
    rw [List.Nodup, List.pairwise_map] at hnodup
    exact hnodup
  have hgt : (NewFeed.addAll ps).ReturnFeed.Pairwise (fun a b => a.Timestamp > b.Timestamp) :=
    (hge.and hne).imp (fun h => lt_of_le_of_ne h.1 (Ne.symm h.2))
  exact ⟨hperm, hgt, fun l hl hls => strictly_sorted_unique _ _ (hperm.trans hl.symm) hgt hls⟩

/-- Claim C5, the example of the specification: `Add(a,3.0)`, `Add(b,1.0)`, `Add(c,2.0)` on an
empty feed yields `[a/3, c/2, b/1]`. -/
theorem coarse_Add_all_sorts_witness :
    (([⟨"a", 3⟩, ⟨"b", 1⟩, ⟨"c", 2⟩] : List (Post ℚ)).map Post.Timestamp).Nodup ∧
    (NewFeed.addAll ([⟨"a", 3⟩, ⟨"b", 1⟩, ⟨"c", 2⟩] : List (Post ℚ))).ReturnFeed =
      [⟨"a", 3⟩, ⟨"c", 2⟩, ⟨"b", 1⟩] :=
  ⟨by decide,
   (coarse_Add_all_sorts ([⟨"a", 3⟩, ⟨"b", 1⟩, ⟨"c", 2⟩] : List (Post ℚ)) (by decide)).2.2
     [⟨"a", 3⟩, ⟨"c", 2⟩, ⟨"b", 1⟩] (by decide) (by decide)⟩

/-! ### Lock-free queue -/

theorem QueueRep_new {T : Type} : QueueRep (NewLockFreeQueue (T := T)) [none] 0 0 := by
  refine ⟨rfl, rfl, rfl, le_refl _, by simp, by simp, ?_⟩
  intro i
  by_cases hi : i = 0
  · subst hi; simp [NewLockFreeQueue]
  · have : ([none] : List (Option (Request T)))[i]? = none := by
      simp; omega
    simp [NewLockFreeQueue, hi, this]

theorem QueueRep_heap_lt {T : Type} {q : LockFreeQueue T} {rs : List (Option (Request T))}
    {h t : Nat} (hrep : QueueRep q rs h t) {i : Nat} (hi : i < rs.length) :
    q.heap i = some { request := rs[i], next := if i + 1 < rs.length then some (i + 1) else none } := by
  rw [hrep.2.2.2.2.2.2 i, List.getElem?_eq_getElem hi]
  rfl

/-- The last iteration of `Enqueue`: `tail` points to the last linked node. -/
theorem enqueueLoop_tail_last {T : Type} {q : LockFreeQueue T}
    {rs : List (Option (Request T))} {h t : Nat} (hrep : QueueRep q rs h t)
    (task : Option (Request T)) (tl : Ptr) (htl : tl = some (rs.length - 1)) (fuel : Nat) :
    ∃ q2, enqueueLoop rs.length (fuel + 1) { (q.alloc task).2 with tail := tl } = .ok q2 ∧
      QueueRep q2 (rs ++ [task]) h (rs.length - 1) := by
  obtain ⟨hfresh, hhead, htail, hht, htn, hnt, hheap⟩ := hrep
  have hn : rs.length - 1 < rs.length := by omega
  have hlast : q.heap (rs.length - 1) = some { request := rs[rs.length - 1], next := none } := by
    rw [QueueRep_heap_lt ⟨hfresh, hhead, htail, hht, htn, hnt, hheap⟩ hn]
    have : ¬ (rs.length - 1 + 1 < rs.length) := by omega
    simp [this]
  have hne : ¬ (rs.length - 1 = rs.length) := by omega
  subst htl
  have hrun : enqueueLoop rs.length (fuel + 1)
      { (q.alloc task).2 with tail := some (rs.length - 1) } =
      .ok { heap := fun b => if b = rs.length - 1 then
                      some { request := rs[rs.length - 1], next := some rs.length }
                    else if b = rs.length then some { request := task, next := none }
                    else q.heap b
            fresh := rs.length + 1
            head := q.head
            tail := some (rs.length - 1) } := by
    simp [enqueueLoop, LockFreeQueue.deref, LockFreeQueue.alloc, LockFreeQueue.casNext,
      hfresh, hlast, hne]
  refine ⟨_, hrun, ?_⟩
  · refine ⟨by simp, hhead, rfl, by omega, by simp; omega, by simp; omega, ?_⟩
    intro i
    simp only [List.length_append, List.length_singleton]
    by_cases h1 : i = rs.length - 1
    · have h2 : (rs ++ [task])[i]? = some rs[rs.length - 1] := by
        rw [h1, List.getElem?_append_left hn, List.getElem?_eq_getElem hn]
      have h3 : i + 1 < rs.length + 1 := by omega
      have h4 : i + 1 = rs.length := by omega
      rw [if_pos h1, h2, if_pos h3, h4]
      rfl
    · rw [if_neg h1]
      by_cases h5 : i = rs.length
      · have h6 : (rs ++ [task])[i]? = some task := by
          rw [h5]; simp
        have h7 : ¬ (i + 1 < rs.length + 1) := by omega
        rw [if_pos h5, h6, if_neg h7]
        rfl
      · rw [if_neg h5, hheap i]
        by_cases h8 : i < rs.length
        · have h9 : i + 1 < rs.length := by omega
          have h10 : i + 1 < rs.length + 1 := by omega
          rw [List.getElem?_append_left h8, if_pos h9, if_pos h10]
        · rw [List.getElem?_eq_none (by omega),
            List.getElem?_eq_none (by simp; omega)]
          rfl

theorem Enqueue_rep {T : Type} {q : LockFreeQueue T} {rs : List (Option (Request T))}
    {h t : Nat} (hrep : QueueRep q rs h t) (task : Option (Request T)) (fuel : Nat) :
    ∃ q2, q.Enqueue (fuel + 2) task = .ok q2 ∧ QueueRep q2 (rs ++ [task]) h (rs.length - 1) := by
  have hrep2 := hrep
  obtain ⟨hfresh, hhead, htail, hht, htn, hnt, hheap⟩ := hrep2
  by_cases hlast : t + 1 = rs.length
  · have h1 : (q.alloc task).2 = { (q.alloc task).2 with tail := some (rs.length - 1) } := by
      have : t = rs.length - 1 := by omega
      simp [LockFreeQueue.alloc, htail, this]
    unfold LockFreeQueue.Enqueue
    rw [h1]
    have h2 : (q.alloc task).1 = rs.length := by simp [LockFreeQueue.alloc, hfresh]
    simp only [h2]
    exact enqueueLoop_tail_last hrep task _ rfl (fuel + 1)
  · have htl : t + 2 = rs.length := by omega
    have hnode : q.heap t = some { request := rs[t], next := some (t + 1) } := by
      rw [QueueRep_heap_lt hrep htn]
      have : t + 1 < rs.length := by omega
      simp [this]
    have hne : ¬ (t = rs.length) := by omega
    obtain ⟨q2, h3, h4⟩ := enqueueLoop_tail_last hrep task (some (t + 1))
      (by congr 1; omega) fuel
    refine ⟨q2, ?_, h4⟩
    rw [← h3]
    unfold LockFreeQueue.Enqueue
    conv_lhs => unfold enqueueLoop
    simp [LockFreeQueue.deref, LockFreeQueue.alloc, LockFreeQueue.casTail, hfresh, htail,
      hnode, hne]

theorem Dequeue_rep_empty {T : Type} {q : LockFreeQueue T} {rs : List (Option (Request T))}
    {h t : Nat} (hrep : QueueRep q rs h t) (hempty : h + 1 = rs.length) (fuel : Nat) :
    q.Dequeue (fuel + 1) = .ok (none, q) := by
  have hrep2 := hrep
  obtain ⟨hfresh, hhead, htail, hht, htn, hnt, hheap⟩ := hrep2
  have hth : t = h := by omega
  have hnode : q.heap h = some { request := rs[h], next := none } := by
    rw [QueueRep_heap_lt hrep (by omega)]
    have : ¬ (h + 1 < rs.length) := by omega
    simp [this]
  simp [LockFreeQueue.Dequeue, dequeueLoop, LockFreeQueue.deref, hhead, htail, hth, hnode]

/-- One iteration of `Dequeue` when `head` is behind `tail`: the request of `head.next` is
returned and `head` moves one node forward. -/
theorem dequeueLoop_head_behind {T : Type} {q : LockFreeQueue T}
    {rs : List (Option (Request T))} {h t : Nat} (hrep : QueueRep q rs h t) (hlt : h < t)
    (fuel : Nat) :
    ∃ q2, dequeueLoop (fuel + 1) q = .ok (rs[h + 1]?.join, q2) ∧ QueueRep q2 rs (h + 1) t := by
  have hrep2 := hrep
  obtain ⟨hfresh, hhead, htail, hht, htn, hnt, hheap⟩ := hrep2
  have h1 : h + 1 < rs.length := by omega
  have hnode : q.heap h = some { request := rs[h], next := some (h + 1) } := by
    rw [QueueRep_heap_lt hrep (by omega)]
    simp [h1]
  have hnext := QueueRep_heap_lt hrep h1
  have hne : ¬ (h = t) := by omega
  have hrun : dequeueLoop (fuel + 1) q = .ok (rs[h + 1]?.join, { q with head := some (h + 1) }) := by
    simp [dequeueLoop, LockFreeQueue.deref, LockFreeQueue.casHead, hhead, htail, hnode, hnext,
      hne, List.getElem?_eq_getElem h1]
  exact ⟨_, hrun, hfresh, rfl, htail, by omega, htn, hnt, hheap⟩

theorem Dequeue_rep_nonempty {T : Type} {q : LockFreeQueue T}
    {rs : List (Option (Request T))} {h t : Nat} (hrep : QueueRep q rs h t)
    (hne : h + 1 < rs.length) (fuel : Nat) :
    ∃ q2 t2, q.Dequeue (fuel + 2) = .ok (rs[h + 1]?.join, q2) ∧ QueueRep q2 rs (h + 1) t2 := by
  have hrep2 := hrep
  obtain ⟨hfresh, hhead, htail, hht, htn, hnt, hheap⟩ := hrep2
  by_cases hlt : h < t
  · obtain ⟨q2, h1, h2⟩ := dequeueLoop_head_behind hrep hlt (fuel + 1)
    exact ⟨q2, t, h1, h2⟩
  · have hth : t = h := by omega
    have hnode : q.heap h = some { request := rs[h], next := some (h + 1) } := by
      rw [QueueRep_heap_lt hrep (by omega)]
      simp [hne]
    have hrep3 : QueueRep { q with tail := some (h + 1) } rs h (h + 1) :=
      ⟨hfresh, hhead, rfl, by omega, hne, by omega, hheap⟩
    obtain ⟨q2, h1, h2⟩ := dequeueLoop_head_behind hrep3 (Nat.lt_succ_self h) fuel
    refine ⟨q2, h + 1, ?_, h2⟩
    rw [← h1]
    unfold LockFreeQueue.Dequeue
    conv_lhs => unfold dequeueLoop
    simp [LockFreeQueue.deref, LockFreeQueue.casTail, hhead, htail, hth, hnode]

theorem run_refines_fifo {T : Type} (fuel : Nat) (cs : List (QueueCall T)) :
    ∀ (q : LockFreeQueue T) (rs : List (Option (Request T))) (h t : Nat)
      (pending : List (Request T)),
      QueueRep q rs h t → rs.drop (h + 1) = pending.map some →
      q.run (fuel + 2) cs = .ok (fifoRun cs pending) := by
  induction cs with
  | nil => intros; rfl
  | cons c cs ih =>
    intro q rs h t pending hrep hpend
    have hrep2 := hrep
    obtain ⟨hfresh, hhead, htail, hht, htn, hnt, hheap⟩ := hrep2
    cases c with
    | enqueue r =>
      obtain ⟨q2, h1, h2⟩ := Enqueue_rep hrep (some r) fuel
      have h3 : (rs ++ [some r]).drop (h + 1) = (pending ++ [r]).map some := by
        rw [List.drop_append_of_le_length (by omega), hpend]
        simp
      simp only [LockFreeQueue.run, h1, fifoRun]
      exact ih q2 _ h _ _ h2 h3
    | dequeue =>
      cases pending with
      | nil =>
        have hlen : h + 1 = rs.length := by
          have := congrArg List.length hpend
          simp at this
          omega
        simp only [LockFreeQueue.run, Dequeue_rep_empty hrep hlen (fuel + 1), fifoRun,
          ih q rs h t [] hrep hpend]
      | cons x pending =>
        have hlen : h + 1 < rs.length := by
          have := congrArg List.length hpend
          simp at this
          omega
        obtain ⟨q2, t2, h1, h2⟩ := Dequeue_rep_nonempty hrep hlen fuel
        have h4 : rs[h + 1]? = some (some x) ∧ rs.drop (h + 1 + 1) = pending.map some := by
          rw [List.drop_eq_getElem_cons hlen] at hpend
          simp only [List.map_cons, List.cons.injEq] at hpend
          exact ⟨by rw [List.getElem?_eq_getElem hlen, hpend.1], hpend.2⟩
        rw [h4.1] at h1
        simp only [LockFreeQueue.run, h1, fifoRun, Option.join, ih q2 rs (h + 1) t2 pending h2 h4.2]
        rfl

theorem fifoRun_enqueue_all {T : Type} (rs : List (Request T)) :
    ∀ (cs : List (QueueCall T)) (pending : List (Request T)),
      fifoRun (rs.map QueueCall.enqueue ++ cs) pending = fifoRun cs (pending ++ rs) := by
  induction rs with
  | nil => intro cs pending; simp
  | cons r rs ih =>
    intro cs pending
    simp [fifoRun, ih]

theorem fifoRun_dequeue_all {T : Type} (pending : List (Request T)) :
    fifoRun (List.replicate (pending.length + 1) QueueCall.dequeue) pending =
      pending.map some ++ [none] := by
  induction pending with
  | nil => simp [fifoRun, List.replicate]
  | cons r pending ih =>
    rw [List.length_cons, List.replicate_succ]
    simp [fifoRun, ih]

/-- Claim C6: for every sequence of `Enqueue` and `Dequeue` calls executed one at a time on a
queue created by `NewLockFreeQueue()`, every call returns within two loop iterations and the
`Dequeue` calls return what the reference FIFO list returns: the oldest request enqueued and not
yet dequeued, or nil exactly when there is none.  In particular, enqueuing `r0..r(n-1)` and then
dequeuing `n+1` times returns `r0..r(n-1)` in that order followed by nil. -/
theorem lockfree_queue_sequential_fifo {T : Type} (fuel : Nat) :
    (∀ cs : List (QueueCall T),
      (NewLockFreeQueue (T := T)).run (fuel + 2) cs = .ok (fifoRun cs [])) ∧
    (∀ rs : List (Request T),
      (NewLockFreeQueue (T := T)).run (fuel + 2)
          (rs.map QueueCall.enqueue ++ List.replicate (rs.length + 1) QueueCall.dequeue) =
        .ok (rs.map some ++ [none])) := by
  have hgen : ∀ cs : List (QueueCall T),
      (NewLockFreeQueue (T := T)).run (fuel + 2) cs = .ok (fifoRun cs []) :=
    fun cs => run_refines_fifo fuel cs NewLockFreeQueue [none] 0 0 [] QueueRep_new (by simp)
  refine ⟨hgen, fun rs => ?_⟩
  rw [hgen, fifoRun_enqueue_all, List.nil_append, fifoRun_dequeue_all]

/-! ### Reader/writer locks -/

theorem rwLock_RLockSecond_writers (rw : rwLock) :
    rw.RLockSecond.writers = rw.writers ∧ rw.RLockSecond.writerWait = rw.writerWait := by
  unfold rwLock.RLockSecond
  split_ifs <;> exact ⟨rfl, rfl⟩

theorem rwLock_RLockFirst_writers (rw : rwLock) :
    rw.RLockFirst.writers = rw.writers ∧ rw.RLockFirst.writerWait = rw.writerWait := by
  unfold rwLock.RLockFirst
  split_ifs
  · exact ⟨rfl, rfl⟩
  · exact rwLock_RLockSecond_writers rw

theorem rwLock_RUnlock_writers (rw : rwLock) :
    rw.RUnlock.writers = rw.writers ∧ rw.RUnlock.writerWait = rw.writerWait := by
  unfold rwLock.RUnlock rwLock.Broadcast
  simp only
  split_ifs <;> exact ⟨rfl, rfl⟩

theorem rwLock_LockSecond_writers (rw : rwLock)
    (hinv : rw.writers = if rw.writerWait then 1 else 0) :
    rw.LockSecond.writers = if rw.LockSecond.writerWait then 1 else 0 := by
  unfold rwLock.LockSecond
  cases hw : rw.writerWait
  · rw [hw] at hinv
    simp at hinv
    simp [hinv]
  · simpa [hw] using hinv

theorem rwLock_LockFirst_writers (rw : rwLock)
    (hinv : rw.writers = if rw.writerWait then 1 else 0) :
    rw.LockFirst.writers = if rw.LockFirst.writerWait then 1 else 0 := by
  unfold rwLock.LockFirst
  by_cases h : rw.readerCount > 0
  · rw [if_pos h]; exact hinv
  · rw [if_neg h]; exact rwLock_LockSecond_writers rw hinv

theorem rwLock_Unlock_writers (rw : rwLock)
    (hinv : rw.writers = if rw.writerWait then 1 else 0) :
    rw.Unlock.writers = if rw.Unlock.writerWait then 1 else 0 := by
  unfold rwLock.Unlock rwLock.Broadcast
  cases hw : rw.writerWait
  · rw [hw] at hinv
    simp at hinv
    simp [hinv]
  · rw [hw] at hinv
    simp at hinv
    simp [hinv]

theorem rwLock_step_writers (rw rw1 : rwLock) (e : rwEvent)
    (hinv : rw.writers = if rw.writerWait then 1 else 0) (hstep : rw.step e = some rw1) :
    rw1.writers = if rw1.writerWait then 1 else 0 := by
  cases e <;> simp only [rwLock.step] at hstep <;> (try split_ifs at hstep) <;>
    simp only [Option.some.injEq] at hstep <;> subst hstep
  · rw [(rwLock_RLockFirst_writers rw).1, (rwLock_RLockFirst_writers rw).2]; exact hinv
  · rw [(rwLock_RLockFirst_writers _).1, (rwLock_RLockFirst_writers _).2]; exact hinv
  · rw [(rwLock_RLockSecond_writers _).1, (rwLock_RLockSecond_writers _).2]; exact hinv
  · rw [(rwLock_RUnlock_writers rw).1, (rwLock_RUnlock_writers rw).2]; exact hinv
  · exact rwLock_LockFirst_writers _ hinv
  · exact rwLock_LockFirst_writers _ hinv
  · exact rwLock_LockSecond_writers _ hinv
  · exact rwLock_Unlock_writers rw hinv

theorem rwLock_run_writers (evs : List rwEvent) :
    ∀ rw rw1 : rwLock, rw.writers = (if rw.writerWait then 1 else 0) →
      rw.run evs = some rw1 → rw1.writers = if rw1.writerWait then 1 else 0 := by
  induction evs with
  | nil =>
    intro rw rw1 hinv hrun
    simp only [rwLock.run, Option.some.injEq] at hrun
    subst hrun
    exact hinv
  | cons e es ih =>
    intro rw rw1 hinv hrun
    simp only [rwLock.run] at hrun
    cases hstep : rw.step e with
    | none => rw [hstep] at hrun; cases hrun
    | some rw2 =>
      rw [hstep] at hrun
      exact ih rw2 rw1 (rwLock_step_writers rw rw2 e hinv hstep) hrun

/-- In every reachable state of `rwLock` at most one thread holds the lock exclusively, and
`writerWait` is set exactly when one does. -/
theorem rwLock_writers_exclusive (evs : List rwEvent) (rw : rwLock)
    (hrun : NewRWLock.run evs = some rw) :
    rw.writers ≤ 1 ∧ (rw.writerWait = true ↔ rw.writers = 1) := by
  have h := rwLock_run_writers evs NewRWLock rw rfl hrun
  cases hw : rw.writerWait <;> simp [hw] at h ⊢ <;> omega

set_option maxRecDepth 100000 in
/-- Claim C7, the failing schedule.  34 threads call `RLock`: 33 are admitted and the 34th goes
to sleep in the second loop (`readerCount = 33 > maxReaders`).  A writer calls `Lock` and goes to
sleep in its first loop.  The 33 readers call `RUnlock`; the last one finds `readerCount == 0`
and broadcasts, which makes the writer and the 34th reader ready.  The writer takes the mutex
first, passes both loops and returns from `Lock`.  Then the reader takes the mutex, tests only
`readerCount > maxReaders` again and returns from `RLock`: a writer holds the lock
(`writers = 1`, `writerWait = true`) while `readerCount = 1`.  The four equations give the state
after each of these phases. -/
theorem rwLock_reader_admitted_beside_writer :
    NewRWLock.run (List.replicate 34 rwEvent.RLock ++ [rwEvent.Lock]) =
      some { readerCount := 33, writerCount := 1, writerWait := false,
             rSleep1 := 0, rReady1 := 0, rSleep2 := 1, rReady2 := 0, readers := 33,
             wSleep1 := 1, wReady1 := 0, wSleep2 := 0, wReady2 := 0, writers := 0 } ∧
    NewRWLock.run (List.replicate 34 rwEvent.RLock ++ [rwEvent.Lock] ++
        List.replicate 33 rwEvent.RUnlock) =
      some { readerCount := 0, writerCount := 1, writerWait := false,
             rSleep1 := 0, rReady1 := 0, rSleep2 := 0, rReady2 := 1, readers := 0,
             wSleep1 := 0, wReady1 := 1, wSleep2 := 0, wReady2 := 0, writers := 0 } ∧
    NewRWLock.run (List.replicate 34 rwEvent.RLock ++ [rwEvent.Lock] ++
        List.replicate 33 rwEvent.RUnlock ++ [rwEvent.LockWake1]) =
      some { readerCount := 0, writerCount := 1, writerWait := true,
             rSleep1 := 0, rReady1 := 0, rSleep2 := 0, rReady2 := 1, readers := 0,
             wSleep1 := 0, wReady1 := 0, wSleep2 := 0, wReady2 := 0, writers := 1 } ∧
    NewRWLock.run (List.replicate 34 rwEvent.RLock ++ [rwEvent.Lock] ++
        List.replicate 33 rwEvent.RUnlock ++ [rwEvent.LockWake1, rwEvent.RLockWake2]) =
      some { readerCount := 1, writerCount := 1, writerWait := true,
             rSleep1 := 0, rReady1 := 0, rSleep2 := 0, rReady2 := 0, readers := 1,
             wSleep1 := 0, wReady1 := 0, wSleep2 := 0, wReady2 := 0, writers := 1 } := by
  refine ⟨?_, ?_, ?_, ?_⟩ <;> decide

set_option maxRecDepth 100000 in
/-- Claim C8, the failing schedule: when 33 threads call `RLock` one after the other on a
fresh lock, all 33 are admitted, in `rwLock` and in `rwLockFaster`: the test is
`readerCount > maxReaders`, so the 33rd caller, which finds 32 readers, passes it; the number
of shared holders is 33 and exceeds `maxReaders = 32`. -/
theorem rwLocks_admit_33_readers :
    maxReaders = 32 ∧
    NewRWLock.run (List.replicate 33 rwEvent.RLock) =
      some { readerCount := 33, writerCount := 0, writerWait := false,
             rSleep1 := 0, rReady1 := 0, rSleep2 := 0, rReady2 := 0, readers := 33,
             wSleep1 := 0, wReady1 := 0, wSleep2 := 0, wReady2 := 0, writers := 0 } ∧
    NewRWLockFaster.run (List.replicate 33 rwFasterEvent.RLock) =
      some { readingReaders := 33, pendingReaders := 0, writerWaiting := false,
             writerWriting := false, waitForReaders := 0,
             rSleep1 := 0, rReady1 := 0, rSleep2 := 0, rReady2 := 0, readers := 33,
             wSleep1 := 0, wReady1 := 0, wSleep2 := 0, wReady2 := 0, writers := 0 } := by
  decide

theorem rwLockFaster_inv_flags (rw : rwLockFaster) (hinv : rw.Inv) :
    (rw.writerWaiting = false ∧ rw.writerWriting = false ∧ rw.writers = 0 ∧
        rw.wSleep2 = 0 ∧ rw.wReady2 = 0) ∨
    (rw.writerWaiting = false ∧ rw.writerWriting = true ∧ rw.writers = 1 ∧
        rw.wSleep2 = 0 ∧ rw.wReady2 = 0 ∧ rw.readers = 0 ∧ rw.rSleep2 = 0 ∧ rw.rReady2 = 0) ∨
    (rw.writerWaiting = true ∧ rw.writerWriting = false ∧ rw.writers = 0 ∧
        rw.wSleep2 = 1 ∧ rw.wReady2 = 0 ∧
        rw.waitForReaders = rw.readers + rw.rSleep2 + rw.rReady2 ∧ 1 ≤ rw.waitForReaders) ∨
    (rw.writerWaiting = true ∧ rw.writerWriting = false ∧ rw.writers = 0 ∧
        rw.wSleep2 = 0 ∧ rw.wReady2 = 1 ∧ rw.readers = 0 ∧ rw.rSleep2 = 0 ∧ rw.rReady2 = 0) := by
  obtain ⟨h1, h2, h3, -, -, h6, h7, h8⟩ := hinv
  cases hww : rw.writerWaiting <;> cases hwr : rw.writerWriting <;>
    simp only [hww, hwr, Bool.false_eq_true, if_false, if_true, and_self,
      not_true_eq_false, not_false_eq_true, true_implies, false_implies] at h1 h2 h3 h6
  · exact Or.inl ⟨rfl, rfl, by omega, by omega, by omega⟩
  · exact Or.inr (Or.inl ⟨rfl, rfl, by omega, by omega, by omega, by omega, by omega, by omega⟩)
  · by_cases hs : rw.wSleep2 = 1
    · have := h7 hs
      exact Or.inr (Or.inr (Or.inl ⟨rfl, rfl, by omega, by omega, by omega, by omega, by omega⟩))
    · have hr : rw.wReady2 = 1 := by omega
      have := h8 hr
      exact Or.inr (Or.inr (Or.inr
        ⟨rfl, rfl, by omega, by omega, by omega, by omega, by omega, by omega⟩))

theorem rwLockFaster_RLockFirst_inv (rw : rwLockFaster) (hinv : rw.Inv) :
    rw.RLockFirst.Inv := by
  have h4 : rw.readingReaders = rw.readers := hinv.2.2.2.1
  have h5 : rw.pendingReaders = rw.rSleep2 + rw.rReady2 := hinv.2.2.2.2.1
  have hf := rwLockFaster_inv_flags _ hinv
  unfold rwLockFaster.RLockFirst rwLockFaster.RLockSecond
  rcases hf with hf | hf | hf | hf <;> obtain ⟨hww, hwr, hf⟩ := hf <;>
    simp only [hww, hwr, Bool.or_false, Bool.or_true, Bool.false_eq_true, if_false, if_true] <;>
    (try split_ifs) <;>
    refine ⟨?_, ?_, ?_, ?_, ?_, ?_, ?_, ?_⟩ <;> simp [hww, hwr] <;> omega

theorem rwLockFaster_RLockWake2_inv (rw : rwLockFaster) (hinv : rw.Inv)
    (hready : rw.rReady2 > 0) :
    (({ rw with rReady2 := rw.rReady2 - 1,
                pendingReaders := rw.pendingReaders - 1 }).RLockSecond).Inv := by
  have h4 : rw.readingReaders = rw.readers := hinv.2.2.2.1
  have h5 : rw.pendingReaders = rw.rSleep2 + rw.rReady2 := hinv.2.2.2.2.1
  have hf := rwLockFaster_inv_flags _ hinv
  unfold rwLockFaster.RLockSecond
  rcases hf with hf | hf | hf | hf <;> obtain ⟨hww, hwr, hf⟩ := hf <;>
    simp only [hww, hwr, Bool.or_false, Bool.or_true, Bool.false_eq_true, if_false, if_true] <;>
    (try split_ifs) <;>
    refine ⟨?_, ?_, ?_, ?_, ?_, ?_, ?_, ?_⟩ <;> simp [hww, hwr] <;> omega

theorem rwLockFaster_RUnlock_inv (rw : rwLockFaster) (pick : Pick) (hinv : rw.Inv)
    (hheld : rw.readers > 0) : (rw.RUnlock pick).Inv := by
  have h4 : rw.readingReaders = rw.readers := hinv.2.2.2.1
  have h5 : rw.pendingReaders = rw.rSleep2 + rw.rReady2 := hinv.2.2.2.2.1
  have hf := rwLockFaster_inv_flags _ hinv
  unfold rwLockFaster.RUnlock rwLockFaster.RUnlockSlow rwLockFaster.rCondSignal
    rwLockFaster.w2CondSignal
  rcases hf with hf | hf | hf | hf <;> obtain ⟨hww, hwr, hf⟩ := hf <;>
    simp only [hww, hwr, Bool.not_false, Bool.not_true, Bool.true_and, Bool.false_and,
      Bool.false_eq_true, if_false, if_true, decide_eq_true_eq] <;>
    (try split_ifs) <;>
    refine ⟨?_, ?_, ?_, ?_, ?_, ?_, ?_, ?_⟩ <;> simp [hww, hwr] <;> omega

theorem rwLockFaster_LockFirst_inv (rw : rwLockFaster) (hinv : rw.Inv) :
    rw.LockFirst.Inv := by
  have h4 : rw.readingReaders = rw.readers := hinv.2.2.2.1
  have h5 : rw.pendingReaders = rw.rSleep2 + rw.rReady2 := hinv.2.2.2.2.1
  have hf := rwLockFaster_inv_flags _ hinv
  unfold rwLockFaster.LockFirst rwLockFaster.LockDrain rwLockFaster.LockAcquire
  rcases hf with hf | hf | hf | hf <;> obtain ⟨hww, hwr, hf⟩ := hf <;>
    simp only [hww, hwr, Bool.or_false, Bool.or_true, Bool.false_eq_true, if_false, if_true,
      Bool.or_eq_true, decide_eq_true_eq] <;>
    (try split_ifs) <;>
    refine ⟨?_, ?_, ?_, ?_, ?_, ?_, ?_, ?_⟩ <;> simp [hww, hwr] <;> omega

theorem rwLockFaster_LockWake2_inv (rw : rwLockFaster) (hinv : rw.Inv)
    (hready : rw.wReady2 > 0) :
    (({ rw with wReady2 := rw.wReady2 - 1 }).LockAcquire).Inv := by
  have h4 : rw.readingReaders = rw.readers := hinv.2.2.2.1
  have h5 : rw.pendingReaders = rw.rSleep2 + rw.rReady2 := hinv.2.2.2.2.1
  have hf := rwLockFaster_inv_flags _ hinv
  unfold rwLockFaster.LockAcquire
  rcases hf with hf | hf | hf | hf <;> obtain ⟨hww, hwr, hf⟩ := hf <;>
    refine ⟨?_, ?_, ?_, ?_, ?_, ?_, ?_, ?_⟩ <;> simp [hww, hwr] <;> omega

theorem rwLockFaster_Unlock_inv (rw : rwLockFaster) (hinv : rw.Inv)
    (hheld : rw.writers > 0) : rw.Unlock.Inv := by
  have h4 : rw.readingReaders = rw.readers := hinv.2.2.2.1
  have h5 : rw.pendingReaders = rw.rSleep2 + rw.rReady2 := hinv.2.2.2.2.1
  have hf := rwLockFaster_inv_flags _ hinv
  unfold rwLockFaster.Unlock rwLockFaster.wCondSignal rwLockFaster.rCondBroadcast
  rcases hf with hf | hf | hf | hf <;> obtain ⟨hww, hwr, hf⟩ := hf <;>
    (try split_ifs) <;>
    refine ⟨?_, ?_, ?_, ?_, ?_, ?_, ?_, ?_⟩ <;> simp [hww, hwr] <;> omega

theorem rwLockFaster_step_inv (rw rw1 : rwLockFaster) (e : rwFasterEvent)
    (hinv : rw.Inv) (hstep : rw.step e = some rw1) : rw1.Inv := by
  cases e with
  | RLock =>
    simp only [rwLockFaster.step, Option.some.injEq] at hstep
    subst hstep
    exact rwLockFaster_RLockFirst_inv rw hinv
  | RLockWake1 =>
    simp only [rwLockFaster.step] at hstep
    split_ifs at hstep with hg
    simp only [Option.some.injEq] at hstep
    subst hstep
    exact rwLockFaster_RLockFirst_inv _ hinv
  | RLockWake2 =>
    simp only [rwLockFaster.step] at hstep
    split_ifs at hstep with hg
    simp only [Option.some.injEq] at hstep
    subst hstep
    exact rwLockFaster_RLockWake2_inv rw hinv hg
  | RUnlock pick =>
    simp only [rwLockFaster.step] at hstep
    split_ifs at hstep with hg
    simp only [Option.some.injEq] at hstep
    subst hstep
    exact rwLockFaster_RUnlock_inv rw pick hinv hg
  | Lock =>
    simp only [rwLockFaster.step, Option.some.injEq] at hstep
    subst hstep
    exact rwLockFaster_LockFirst_inv rw hinv
  | LockWake1 =>
    simp only [rwLockFaster.step] at hstep
    split_ifs at hstep with hg
    simp only [Option.some.injEq] at hstep
    subst hstep
    exact rwLockFaster_LockFirst_inv _ hinv
  | LockWake2 =>
    simp only [rwLockFaster.step] at hstep
    split_ifs at hstep with hg
    simp only [Option.some.injEq] at hstep
    subst hstep
    exact rwLockFaster_LockWake2_inv rw hinv hg
  | Unlock =>
    simp only [rwLockFaster.step] at hstep
    split_ifs at hstep with hg
    simp only [Option.some.injEq] at hstep
    subst hstep
    exact rwLockFaster_Unlock_inv rw hinv hg

theorem rwLockFaster_run_inv (evs : List rwFasterEvent) :
    ∀ rw rw1 : rwLockFaster, rw.Inv → rw.run evs = some rw1 → rw1.Inv := by
  induction evs with
  | nil =>
    intro rw rw1 hinv hrun
    simp only [rwLockFaster.run, Option.some.injEq] at hrun
    subst hrun
    exact hinv
  | cons e es ih =>
    intro rw rw1 hinv hrun
    simp only [rwLockFaster.run] at hrun
    cases hstep : rw.step e with
    | none => rw [hstep] at hrun; cases hrun
    | some rw2 =>
      rw [hstep] at hrun
      exact ih rw2 rw1 (rwLockFaster_step_inv rw rw2 e hinv hstep) hrun

theorem rwLockFaster_new_inv : NewRWLockFaster.Inv := by
  simp [rwLockFaster.Inv, NewRWLockFaster]

/-- Claim C9: in every state of `rwLockFaster` reachable from `NewRWLockFaster()` by atomic
segments of `RLock`, `RUnlock`/`RUnlockSlow`, `Lock` and `Unlock` (no spurious wake-ups, `Signal`
wakes one sleeper, every release is made by a thread that holds the lock), at most one thread
holds the lock exclusively, `writerWriting` is set exactly when one does, and then
`readingReaders` is zero and no thread holds the lock in shared mode. -/
theorem rwLockFaster_mutual_exclusion (evs : List rwFasterEvent) (rw : rwLockFaster)
    (hrun : NewRWLockFaster.run evs = some rw) :
    rw.writers ≤ 1 ∧ (rw.writerWriting = true ↔ rw.writers = 1) ∧
    (rw.writers = 1 → rw.readingReaders = 0 ∧ rw.readers = 0) := by
  have hinv := rwLockFaster_run_inv evs NewRWLockFaster rw rwLockFaster_new_inv hrun
  have h4 : rw.readingReaders = rw.readers := hinv.2.2.2.1
  rcases rwLockFaster_inv_flags rw hinv with hf | hf | hf | hf <;>
    obtain ⟨hww, hwr, hf⟩ := hf <;> simp [hwr] <;> omega

/-- Claim C9 at a concrete schedule: two readers enter, a writer starts to drain them, a third
reader is held back, the readers leave, the writer is woken and acquires the lock. -/
theorem rwLockFaster_mutual_exclusion_witness :
    NewRWLockFaster.run [.RLock, .RLock, .Lock, .RLock, .RUnlock .first, .RUnlock .second,
        .LockWake2] =
      some { readingReaders := 0, pendingReaders := 0, writerWaiting := false,
             writerWriting := true, waitForReaders := 1,
             rSleep1 := 0, rReady1 := 1, rSleep2 := 0, rReady2 := 0, readers := 0,
             wSleep1 := 0, wReady1 := 0, wSleep2 := 0, wReady2 := 0, writers := 1 } ∧
    ((1 : Nat) ≤ 1 ∧ (true = true ↔ (1 : Nat) = 1) ∧
      ((1 : Nat) = 1 → (0 : Int) = 0 ∧ (0 : Nat) = 0)) :=
  ⟨by decide, rwLockFaster_mutual_exclusion
    [.RLock, .RLock, .Lock, .RLock, .RUnlock .first, .RUnlock .second, .LockWake2]
    { readingReaders := 0, pendingReaders := 0, writerWaiting := false,
      writerWriting := true, waitForReaders := 1,
      rSleep1 := 0, rReady1 := 1, rSleep2 := 0, rReady2 := 0, readers := 0,
      wSleep1 := 0, wReady1 := 0, wSleep2 := 0, wReady2 := 0, writers := 1 }
    (by decide)⟩

/-! ### Request dispatcher -/

/-- Claim C10: for every feed state and every request, `execute` follows the dispatch table.
`ADD` calls `Add(body, timestamp)` and emits exactly one `Response` with `Success = true`;
`REMOVE` emits exactly one `Response` whose `Success` is the value returned by
`Remove(timestamp)`, the feed being the one `Remove` leaves; `CONTAINS` emits exactly one
`Response` whose `Success` is the value of `Contains(timestamp)`; `FEED` emits exactly one
`FeedResponse` with `Feed = ReturnFeed()`; the emitted `Id` is the request's `Id`; any other
command emits nothing and leaves the feed unchanged. -/
theorem execute_dispatch_table {T : Type} [LinearOrder T] (f : feed T) (task : Request T) :
    (task.Command = "ADD" →
      execute f task =
        (f.Add task.Body task.TimeStamp, [.response { Success := true, Id := task.Id }])) ∧
    (task.Command = "REMOVE" →
      execute f task =
        ((f.Remove task.TimeStamp).2,
          [.response { Success := (f.Remove task.TimeStamp).1, Id := task.Id }])) ∧
    (task.Command = "CONTAINS" →
      execute f task =
        (f, [.response { Success := f.Contains task.TimeStamp, Id := task.Id }])) ∧
    (task.Command = "FEED" →
      execute f task = (f, [.feedResponse { Id := task.Id, Feed := f.ReturnFeed }])) ∧
    (task.Command ≠ "ADD" → task.Command ≠ "REMOVE" → task.Command ≠ "CONTAINS" →
      task.Command ≠ "FEED" → execute f task = (f, [])) := by
  refine ⟨?_, ?_, ?_, ?_, ?_⟩
  · intro h
    simp [execute, h]
  · intro h
    simp [execute, h]
  · intro h
    simp [execute, h]
  · intro h
    simp [execute, h]
  · intro h1 h2 h3 h4
    simp [execute, h1, h2, h3, h4]

/-- Claim C10 at concrete requests: a `REMOVE` of a present timestamp on the feed `[x/1]`, and
a request with the command `"DONE"`. -/
theorem execute_dispatch_table_witness :
    (("REMOVE" : String) = "REMOVE" ∧
      execute ((NewFeed (T := ℚ)).Add "x" 1) { Command := "REMOVE", Id := 7, Body := "", TimeStamp := 1 } =
        (NewFeed, [.response { Success := true, Id := 7 }])) ∧
    (execute ((NewFeed (T := ℚ)).Add "x" 1) { Command := "DONE", Id := 8, Body := "", TimeStamp := 0 } =
        ((NewFeed (T := ℚ)).Add "x" 1, [])) :=
  ⟨⟨rfl, (execute_dispatch_table ((NewFeed (T := ℚ)).Add "x" 1)
      { Command := "REMOVE", Id := 7, Body := "", TimeStamp := 1 }).2.1 rfl⟩,
   (execute_dispatch_table ((NewFeed (T := ℚ)).Add "x" 1)
      { Command := "DONE", Id := 8, Body := "", TimeStamp := 0 }).2.2.2.2
      (by decide) (by decide) (by decide) (by decide)⟩

/-! ### Coarse feed: round trip, membership after removal, insertion at the tail -/

theorem addLoop_all_greater {T : Type} [LinearOrder T] (np : post T) (rest : List (post T)) :
    ∀ cur : post T, (∀ q ∈ rest, np.timestamp < q.timestamp) →
      addLoop np cur rest = cur :: (rest ++ [np]) := by
  induction rest with
  | nil => intro cur _; rfl
  | cons nxt rest ih =>
    intro cur h
    unfold addLoop
    rw [if_pos (h nxt (List.mem_cons_self _ _)),
      ih nxt (fun q hq => h q (List.mem_cons_of_mem _ hq))]
    rfl

theorem Add_all_greater {T : Type} [LinearOrder T] (f : feed T) (body : String) (ts : T)
    (hne : f.start ≠ []) (h : ∀ q ∈ f.start, ts < q.timestamp) :
    (f.Add body ts).start = f.start ++ [newPost body ts] := by
  unfold feed.Add
  split
  · next h0 => exact absurd h0 hne
  · next cur rest h0 =>
    rw [h0] at h
    have hcur : ¬ ts > cur.timestamp := not_lt.2 (le_of_lt (h cur (List.mem_cons_self _ _)))
    rw [if_neg hcur, h0]
    have := addLoop_all_greater (newPost body ts) rest cur
      (fun q hq => h q (List.mem_cons_of_mem _ hq))
    rw [this]
    rfl

theorem sorted_all_ge_last {T : Type} [LinearOrder T] (l : List (post T)) (x : post T)
    (hs : SortedDesc l) (hlast : l.getLast? = some x) : ∀ q ∈ l, x.timestamp ≤ q.timestamp := by
  intro q hq
  obtain ⟨pre, rfl⟩ : ∃ pre, l = pre ++ [x] := by
    have hne : l ≠ [] := by
      intro h0; rw [h0] at hlast; cases hlast
    refine ⟨l.dropLast, ?_⟩
    have h1 := List.dropLast_append_getLast hne
    rw [List.getLast?_eq_getLast l hne, Option.some.injEq] at hlast
    rw [hlast] at h1
    exact h1.symm
  rcases List.mem_append.1 hq with hq1 | hq1
  · have := List.pairwise_append.1 hs
    exact this.2.2 q hq1 x (List.mem_singleton_self x)
  · rw [List.mem_singleton.1 hq1]

theorem Add_then_Remove_start {T : Type} [LinearOrder T] (f : feed T) (b : String) (t : T)
    (hhead : ∀ h, f.start.head? = some h → h.timestamp ≠ t) :
    (f.Add b t).Remove t = (true, f) := by
  obtain ⟨pre, suf, h1, h2, h3, h4⟩ := Add_split f b t
  have hpre : ∀ q ∈ pre, ¬ (decide (q.timestamp = t) = true) := by
    intro q hq
    cases pre with
    | nil => cases hq
    | cons x xs =>
      have hx : f.start.head? = some x := by rw [h1]; rfl
      rcases List.mem_cons.1 hq with rfl | hq2
      · simpa using hhead q hx
      · have := h3 q (by simpa using hq2)
        simpa using (ne_of_gt this)
  rw [Remove_eq, h2]
  have hnp : decide ((newPost b t).timestamp = t) = true := by simp [newPost]
  have hany : (pre ++ newPost b t :: suf).any (fun q => decide (q.timestamp = t)) = true := by
    rw [List.any_eq_true]
    exact ⟨newPost b t, by simp, hnp⟩
  have hcons : (newPost b t :: suf).eraseP (fun q => decide (q.timestamp = t)) = suf := by
    simp [newPost]
  rw [hany, List.eraseP_append_right _ hpre, hcons, ← h1]

/-- Claim C11, the counterexample: on the feed `[x/1]`, `Add("y", 1.0)` followed by
`Remove(1.0)` leaves `[y/1]`, not `[x/1]`: the new post is placed behind the first post, which
has the same timestamp, and `Remove` deletes the first one. -/
theorem add_then_remove_changes_feed :
    ((NewFeed (T := ℚ)).Add "x" 1).ReturnFeed = [⟨"x", 1⟩] ∧
    ((((NewFeed (T := ℚ)).Add "x" 1).Add "y" 1).Remove 1).2.ReturnFeed = [⟨"y", 1⟩] ∧
    ((((NewFeed (T := ℚ)).Add "x" 1).Add "y" 1).Remove 1).2.ReturnFeed ≠
      ((NewFeed (T := ℚ)).Add "x" 1).ReturnFeed := by
  decide

/-- Claim C11, amended: for every state of the coarse feed whose first post does not have
timestamp `t` (the empty feed included), every body `b` and every timestamp `t`, `Add(b, t)`
followed by `Remove(t)` returns true and leaves `ReturnFeed()` equal, as a sequence of posts,
to what it was before the two calls. -/
theorem coarse_Add_then_Remove_restores {T : Type} [LinearOrder T] (f : feed T) (b : String)
    (t : T) (hhead : ∀ h, f.ReturnFeed.head? = some h → h.Timestamp ≠ t) :
    ((f.Add b t).Remove t).1 = true ∧
    ((f.Add b t).Remove t).2.ReturnFeed = f.ReturnFeed := by
  have h : (f.Add b t).Remove t = (true, f) := by
    apply Add_then_Remove_start
    intro x hx
    have := hhead x.content (by rw [ReturnFeed_eq, List.head?_map, hx]; rfl)
    simpa [post.content] using this
  rw [h]
  exact ⟨rfl, rfl⟩

/-- Claim C11 at concrete feeds: the round trip on the empty feed, and on `[a/3, x/1]` with a
new post of timestamp `1`, which is placed in front of `x/1` and removed again. -/
theorem coarse_Add_then_Remove_restores_witness :
    (((NewFeed (T := ℚ)).Add "y" 1).Remove 1).2.ReturnFeed = (NewFeed (T := ℚ)).ReturnFeed ∧
    ((((NewFeed (T := ℚ)).addAll [⟨"a", 3⟩, ⟨"x", 1⟩]).Add "y" 1).Remove 1).2.ReturnFeed =
      ((NewFeed (T := ℚ)).addAll [⟨"a", 3⟩, ⟨"x", 1⟩]).ReturnFeed :=
  ⟨(coarse_Add_then_Remove_restores (NewFeed (T := ℚ)) "y" 1 (by decide)).2,
   (coarse_Add_then_Remove_restores ((NewFeed (T := ℚ)).addAll [⟨"a", 3⟩, ⟨"x", 1⟩]) "y" 1
      (by decide)).2⟩

/-- Claim C12, the counterexample: the feed reached by `Add("x", 1.0)`, `Add("y", 1.0)` holds two
posts of timestamp `1`; `Remove(1.0)` returns true and removes one of them, and `Contains(1.0)`
executed right afterwards returns true. -/
theorem contains_after_remove_with_duplicates :
    ((((NewFeed (T := ℚ)).Add "x" 1).Add "y" 1).Remove 1).1 = true ∧
    ((((NewFeed (T := ℚ)).Add "x" 1).Add "y" 1).Remove 1).2.Contains 1 = true := by
  decide

theorem call_count_zero {T : Type} [LinearOrder T] (ts : T) (g : feed T) (c : FeedCall T)
    (hzero : g.start.countP (fun q => decide (q.timestamp = ts)) = 0)
    (hc : ∀ b, c ≠ FeedCall.add b ts) :
    (g.call c).start.countP (fun q => decide (q.timestamp = ts)) = 0 := by
  cases c with
  | add b t =>
    have hne : t ≠ ts := fun h => hc b (by rw [h])
    simp only [feed.call]
    rw [(Add_perm g b t).countP_eq, List.countP_cons, hzero]
    simp [newPost, hne]
  | remove t =>
    simp only [feed.call]
    have := (Remove_sublist g t).countP_le (fun q => decide (q.timestamp = ts))
    omega

theorem calls_count_zero {T : Type} [LinearOrder T] (ts : T) (cs : List (FeedCall T)) :
    ∀ g : feed T, g.start.countP (fun q => decide (q.timestamp = ts)) = 0 →
      (∀ b, FeedCall.add b ts ∉ cs) →
      (g.calls cs).start.countP (fun q => decide (q.timestamp = ts)) = 0 := by
  induction cs with
  | nil => intro g h _; simpa [feed.calls] using h
  | cons c cs ih =>
    intro g h hcs
    have h1 : g.calls (c :: cs) = (g.call c).calls cs := by simp [feed.calls]
    rw [h1]
    refine ih _ (call_count_zero ts g c h ?_) ?_
    · intro b hb
      exact hcs b (by rw [hb]; exact List.mem_cons_self _ _)
    · intro b hb
      exact hcs b (List.mem_cons_of_mem _ hb)

theorem Contains_false_of_count_zero {T : Type} [LinearOrder T] (ts : T) (g : feed T)
    (h : g.start.countP (fun q => decide (q.timestamp = ts)) = 0) : g.Contains ts = false := by
  cases hc : g.Contains ts with
  | false => rfl
  | true =>
    rw [feed.Contains, containsLoop_iff] at hc
    obtain ⟨q, hq, hqt⟩ := hc
    rw [List.countP_eq_zero] at h
    exact absurd (by simpa using hqt) (h q hq)

theorem Remove_count {T : Type} [LinearOrder T] (f : feed T) (ts : T)
    (hrem : (f.Remove ts).1 = true) :
    f.start.countP (fun q => decide (q.timestamp = ts)) =
      (f.Remove ts).2.start.countP (fun q => decide (q.timestamp = ts)) + 1 := by
  have hex : ∃ q ∈ f.start, q.timestamp = ts := by
    simpa [Remove_eq] using hrem
  obtain ⟨q, hq, hqt⟩ := hex
  obtain ⟨a, l₁, l₂, hl₁, ha, hsplit, herase⟩ :=
    List.exists_of_eraseP (p := fun q : post T => decide (q.timestamp = ts)) hq (by simpa using hqt)
  rw [Remove_eq]
  simp only
  rw [herase, hsplit, List.countP_append, List.countP_append, List.countP_cons, ha]
  simp only [if_true]
  omega

/-- Claim C12, amended: for every state of the coarse feed and every timestamp `ts`, if
`Remove(ts)` returns true and the feed held no second post of timestamp `ts`, then
`Contains(ts)` returns false after any further `Add` and `Remove` calls none of which adds a
post of timestamp `ts`.  A `Contains(ts)` executed right after the successful `Remove(ts)`
returns false exactly when the feed held one single post of timestamp `ts`; with two or more
such posts it returns true. -/
theorem coarse_Contains_after_Remove {T : Type} [LinearOrder T] (f : feed T) (ts : T)
    (hrem : (f.Remove ts).1 = true) :
    (f.ReturnFeed.countP (fun p => decide (p.Timestamp = ts)) ≤ 1 →
      ∀ cs : List (FeedCall T), (∀ b, FeedCall.add b ts ∉ cs) →
        ((f.Remove ts).2.calls cs).Contains ts = false) ∧
    ((f.Remove ts).2.Contains ts = false ↔
      f.ReturnFeed.countP (fun p => decide (p.Timestamp = ts)) = 1) := by
  have hsnap : f.ReturnFeed.countP (fun p => decide (p.Timestamp = ts)) =
      f.start.countP (fun q => decide (q.timestamp = ts)) := by
    rw [ReturnFeed_eq, List.countP_map]
    rfl
  have hcount := Remove_count f ts hrem
  rw [hsnap]
  refine ⟨?_, ?_⟩
  · intro hle cs hcs
    exact Contains_false_of_count_zero ts _
      (calls_count_zero ts cs _ (by omega) hcs)
  · constructor
    · intro hfalse
      have : (f.Remove ts).2.start.countP (fun q => decide (q.timestamp = ts)) = 0 := by
        rw [List.countP_eq_zero]
        intro x hx hp
        have hc : (f.Remove ts).2.Contains ts = true := by
          rw [feed.Contains, containsLoop_iff]
          exact ⟨x, hx, by simpa using hp⟩
        rw [hfalse] at hc
        cases hc
      omega
    · intro hone
      exact Contains_false_of_count_zero ts _ (by omega)

/-- Claim C12 at a concrete feed: after `Add("a", 3.0)`, `Add("x", 1.0)` the call `Remove(1.0)`
returns true; after a further `Add("b", 2.0)` and `Remove(3.0)`, `Contains(1.0)` returns
false. -/
theorem coarse_Contains_after_Remove_witness :
    (((NewFeed (T := ℚ)).addAll [⟨"a", 3⟩, ⟨"x", 1⟩]).Remove 1).1 = true ∧
    ((((NewFeed (T := ℚ)).addAll [⟨"a", 3⟩, ⟨"x", 1⟩]).Remove 1).2.calls
      [.add "b" 2, .remove 3]).Contains 1 = false :=
  ⟨by decide,
   (coarse_Contains_after_Remove ((NewFeed (T := ℚ)).addAll [⟨"a", 3⟩, ⟨"x", 1⟩]) 1
      (by decide)).1 (by decide) [.add "b" 2, .remove 3] (by intro b; simp)⟩

/-- Claim C13, the counterexample: on the feed `[a/2, x/1]`, `Add("y", 1.0)` has a timestamp
equal to that of the last post and yields `[a/2, y/1, x/1]`: the new post is placed in front of
the last post, it is not the last element. -/
theorem add_equal_to_tail_not_last :
    ((NewFeed (T := ℚ)).addAll [⟨"a", 2⟩, ⟨"x", 1⟩]).ReturnFeed = [⟨"a", 2⟩, ⟨"x", 1⟩] ∧
    (((NewFeed (T := ℚ)).addAll [⟨"a", 2⟩, ⟨"x", 1⟩]).Add "y" 1).ReturnFeed =
      [⟨"a", 2⟩, ⟨"y", 1⟩, ⟨"x", 1⟩] ∧
    (((NewFeed (T := ℚ)).addAll [⟨"a", 2⟩, ⟨"x", 1⟩]).Add "y" 1).ReturnFeed.getLast? ≠
      some ⟨"y", 1⟩ := by
  decide

/-- Claim C13, amended: for every non-empty coarse feed reached by `Add` and `Remove` calls from
`NewFeed()` and every `(body, ts)` with `ts` strictly less than the timestamp of the feed's last
post, or less than or equal to it when the feed holds a single post, after `Add(body, ts)` the
snapshot is the old snapshot followed by the new post, so the new post is its last element. -/
theorem coarse_Add_below_tail_appends {T : Type} [LinearOrder T] (cs : List (FeedCall T))
    (body : String) (ts : T) (l : Post T)
    (hlast : (NewFeed.calls cs).ReturnFeed.getLast? = some l)
    (hts : ts < l.Timestamp ∨ (ts ≤ l.Timestamp ∧ (NewFeed.calls cs).ReturnFeed.length = 1)) :
    ((NewFeed.calls cs).Add body ts).ReturnFeed = (NewFeed.calls cs).ReturnFeed ++ [⟨body, ts⟩] ∧
    ((NewFeed.calls cs).Add body ts).ReturnFeed.getLast? = some ⟨body, ts⟩ := by
  have hs : SortedDesc (NewFeed.calls cs).start :=
    calls_sorted cs NewFeed (by simp [SortedDesc, NewFeed])
  generalize NewFeed.calls cs = f at hlast hts hs ⊢
  rw [ReturnFeed_eq] at hlast hts
  have key : (f.Add body ts).start = f.start ++ [newPost body ts] := by
    rcases hts with hlt | ⟨hle, hlen⟩
    · have hne : f.start ≠ [] := by
        intro h0; rw [h0] at hlast; cases hlast
      rw [List.getLast?_map] at hlast
      cases hl : f.start.getLast? with
      | none => rw [hl] at hlast; cases hlast
      | some x =>
        rw [hl] at hlast
        simp only [Option.map_some', Option.some.injEq] at hlast
        have hx : ts < x.timestamp := by rw [← hlast] at hlt; exact hlt
        exact Add_all_greater f body ts hne
          (fun q hq => lt_of_lt_of_le hx (sorted_all_ge_last f.start x hs hl q hq))
    · rw [List.length_map] at hlen
      obtain ⟨x, hx⟩ := List.length_eq_one.1 hlen
      rw [hx] at hlast
      simp only [List.map_cons, List.map_nil, List.getLast?_singleton, Option.some.injEq] at hlast
      have hle2 : ¬ ts > x.timestamp := by
        rw [← hlast] at hle
        exact not_lt.2 hle
      unfold feed.Add
      rw [hx]
      simp only [hle2, if_false]
      rfl
  rw [ReturnFeed_eq, ReturnFeed_eq, key]
  simp [newPost, post.content]

/-- Claim C13 at a concrete feed: `Add("z", 0.0)` on `[a/2, x/1]` gives `[a/2, x/1, z/0]`. -/
theorem coarse_Add_below_tail_appends_witness :
    (NewFeed.calls [.add "a" 2, .add "x" (1 : ℚ)]).ReturnFeed.getLast? = some ⟨"x", 1⟩ ∧
    ((NewFeed.calls [.add "a" 2, .add "x" (1 : ℚ)]).Add "z" 0).ReturnFeed =
      [⟨"a", 2⟩, ⟨"x", 1⟩, ⟨"z", 0⟩] :=
  ⟨by decide,
   (coarse_Add_below_tail_appends [.add "a" 2, .add "x" (1 : ℚ)] "z" 0 ⟨"x", 1⟩
      (by decide) (Or.inl (by decide))).1⟩

/-! ### Optimistic feed: reading methods -/

theorem optReturnFeedLoop_chain {T : Type} (f : optFeed T) (l : List (optPost T)) :
    ∀ (fuel : Nat) (acc : List (Post T)) (p : Ptr), optChain f.heap p l → l.length ≤ fuel →
      optReturnFeedLoop f fuel acc p = .ok (acc ++ l.map optPost.content) := by
  induction l with
  | nil =>
    intro fuel acc p hch _
    simp only [optChain] at hch
    subst hch
    cases fuel <;> simp [optReturnFeedLoop]
  | cons n l ih =>
    intro fuel acc p hch hlen
    obtain ⟨a, rfl, ha, hrest⟩ := hch
    cases fuel with
    | zero => simp at hlen
    | succ fuel =>
      simp only [optReturnFeedLoop, optFeed.deref, ha]
      rw [ih fuel _ _ hrest (by simpa using hlen)]
      simp

theorem optContainsLoop_chain {T : Type} [LinearOrder T] (f : optFeed T) (ts : T)
    (l : List (optPost T)) :
    ∀ (fuel : Nat) (p : Ptr), optChain f.heap p l → l.length ≤ fuel →
      optContainsLoop f ts fuel p = .ok (l.any (fun n => decide (n.timestamp = ts))) := by
  induction l with
  | nil =>
    intro fuel p hch _
    simp only [optChain] at hch
    subst hch
    cases fuel <;> simp [optContainsLoop]
  | cons n l ih =>
    intro fuel p hch hlen
    obtain ⟨a, rfl, ha, hrest⟩ := hch
    cases fuel with
    | zero => simp at hlen
    | succ fuel =>
      simp only [optContainsLoop, optFeed.deref, ha]
      by_cases hts : n.timestamp = ts
      · simp [hts]
      · rw [if_neg hts, ih fuel _ hrest (by simpa using hlen)]
        simp [hts]

theorem optFeed_ReturnFeed_chain {T : Type} (f : optFeed T) (s : optPost T)
    (l : List (optPost T)) (fuel : Nat) (hch : optChain f.heap f.start (s :: l))
    (hlen : l.length ≤ fuel) : f.ReturnFeed fuel = .ok (l.map optPost.content) := by
  obtain ⟨a, ha, hs, hrest⟩ := hch
  simp only [optFeed.ReturnFeed, optFeed.deref, ha, hs]
  rw [optReturnFeedLoop_chain f l fuel [] _ hrest hlen]
  simp

theorem optFeed_Contains_chain {T : Type} [LinearOrder T] (f : optFeed T) (ts : T)
    (s : optPost T) (l : List (optPost T)) (fuel : Nat)
    (hch : optChain f.heap f.start (s :: l)) (hlen : l.length < fuel) :
    f.Contains fuel ts = .ok ((s :: l).any (fun n => decide (n.timestamp = ts))) :=
  optContainsLoop_chain f ts (s :: l) fuel f.start hch (by simpa using hlen)

theorem optChain_new {T : Type} [Neg T] [One T] :
    optChain (NewOptFeed (T := T)).heap (NewOptFeed (T := T)).start
      [{ body := "", timestamp := -1, next := none, removed := false }] :=
  ⟨0, rfl, rfl, rfl⟩

/-- Claim C14, the failing input: on the freshly created optimistic feed `ReturnFeed()` is empty
but `Contains(-1)` returns true, because the loop of `optFeed.Contains` starts at `f.start`, the
sentinel of timestamp `-1`, while `ReturnFeed` starts at `f.start.next`.  The same happens after
`Add("a", 3.0)`: the snapshot is `[a/3]` and `Contains(-1)` is true.  On the empty coarse feed
`Contains(-1)` is false. -/
theorem optFeed_Contains_counts_sentinel :
    (NewOptFeed (T := ℚ)).ReturnFeed 2 = .ok [] ∧
    (NewOptFeed (T := ℚ)).Contains 2 (-1) = .ok true ∧
    ((NewOptFeed (T := ℚ)).Add 2 "a" 3 >>= fun f => f.ReturnFeed 2) = .ok [⟨"a", 3⟩] ∧
    ((NewOptFeed (T := ℚ)).Add 2 "a" 3 >>= fun f => f.Contains 2 (-1)) = .ok true ∧
    (NewFeed (T := ℚ)).Contains (-1) = false :=
  ⟨rfl, rfl, rfl, rfl, rfl⟩

/-- Claim C17: `ReturnFeed()` and `Contains(ts)` leave the feed as it is, on the coarse feed and
on the optimistic feed (whenever the call returns), so a `ReturnFeed()` that follows a
`ReturnFeed()` returns the identical sequence of posts.  On every optimistic feed whose nodes
form a nil-terminated chain behind the sentinel both calls do return: `ReturnFeed()` gives the
posts of the chain.  On the empty feeds `ReturnFeed()` gives the empty sequence. -/
theorem read_methods_leave_feed_unchanged {T : Type} [LinearOrder T] [Neg T] [One T] :
    (∀ (f : feed T) (m : FeedMethod T), m.readOnly = true → (f.invoke m).2 = f) ∧
    (∀ f : feed T,
      ((f.invoke .ReturnFeed).2.invoke .ReturnFeed).1 = (f.invoke .ReturnFeed).1) ∧
    (NewFeed (T := T)).invoke .ReturnFeed = (.posts [], NewFeed) ∧
    (∀ (f f1 : optFeed T) (fuel : Nat) (m : FeedMethod T) (r : FeedReturn T),
      m.readOnly = true → f.invoke fuel m = .ok (r, f1) → f1 = f) ∧
    (∀ (f f1 : optFeed T) (fuel : Nat) (r : FeedReturn T),
      f.invoke fuel .ReturnFeed = .ok (r, f1) → f1.invoke fuel .ReturnFeed = .ok (r, f1)) ∧
    (∀ (f : optFeed T) (s : optPost T) (l : List (optPost T)) (fuel : Nat) (ts : T),
      optChain f.heap f.start (s :: l) → l.length < fuel →
      f.invoke fuel .ReturnFeed = .ok (.posts (l.map optPost.content), f) ∧
      ∃ b, f.invoke fuel (.Contains ts) = .ok (.bool b, f)) ∧
    (∀ fuel : Nat,
      (NewOptFeed (T := T)).invoke fuel .ReturnFeed = .ok (.posts [], NewOptFeed)) := by
  have hopt : ∀ (f f1 : optFeed T) (fuel : Nat) (m : FeedMethod T) (r : FeedReturn T),
      m.readOnly = true → f.invoke fuel m = .ok (r, f1) → f1 = f := by
    intro f f1 fuel m r hm h
    cases m with
    | Add body ts => cases hm
    | Remove ts => cases hm
    | Contains ts =>
      simp only [optFeed.invoke] at h
      cases hc : f.Contains fuel ts with
      | error e => rw [hc] at h; cases h
      | ok b =>
        rw [hc] at h
        simp only [Except.ok.injEq, Prod.mk.injEq] at h
        exact h.2.symm
    | ReturnFeed =>
      simp only [optFeed.invoke] at h
      cases hc : f.ReturnFeed fuel with
      | error e => rw [hc] at h; cases h
      | ok ps =>
        rw [hc] at h
        simp only [Except.ok.injEq, Prod.mk.injEq] at h
        exact h.2.symm
  refine ⟨?_, ?_, ?_, hopt, ?_, ?_, ?_⟩
  · intro f m hm
    cases m with
    | Add body ts => cases hm
    | Remove ts => cases hm
    | Contains ts => rfl
    | ReturnFeed => rfl
  · intro f
    rfl
  · rfl
  · intro f f1 fuel r h
    have := hopt f f1 fuel .ReturnFeed r rfl h
    subst this
    exact h
  · intro f s l fuel ts hch hlen
    refine ⟨?_, ?_⟩
    · simp only [optFeed.invoke, optFeed_ReturnFeed_chain f s l fuel hch (le_of_lt hlen)]
    · exact ⟨(s :: l).any (fun n => decide (n.timestamp = ts)),
        by simp only [optFeed.invoke, optFeed_Contains_chain f ts s l fuel hch hlen]⟩
  · intro fuel
    have := optFeed_ReturnFeed_chain (NewOptFeed (T := T)) _ [] fuel optChain_new (Nat.zero_le _)
    simp only [optFeed.invoke, this]
    rfl

/-- Claim C17 at a concrete feed: the optimistic feed after `Add("a", 3.0)`. -/
theorem read_methods_leave_feed_unchanged_witness :
    ((NewOptFeed (T := ℚ)).invoke 3 (.Add "a" 3) >>= fun r =>
      r.2.invoke 3 .ReturnFeed >>= fun r1 =>
      r1.2.invoke 3 (.Contains 3) >>= fun r2 =>
      r2.2.invoke 3 .ReturnFeed >>= fun r3 => pure (r1.1, r2.1, r3.1)) =
    .ok (.posts [⟨"a", 3⟩], .bool true, .posts [⟨"a", 3⟩]) ∧
    (NewFeed (T := ℚ)).invoke .ReturnFeed = (.posts [], NewFeed) :=
  ⟨rfl, (read_methods_leave_feed_unchanged (T := ℚ)).2.2.1⟩

/-! ### Producer and consumers -/

theorem sum_map_set {α M : Type} [AddCommMonoid M] (w : α → M) (l : List α) :
    ∀ (i : Nat) (x c : α), l[i]? = some c →
      ((l.set i x).map w).sum + w c = (l.map w).sum + w x := by
  induction l with
  | nil => intro i x c h; simp at h
  | cons a l ih =>
    intro i x c h
    cases i with
    | zero =>
      simp only [List.getElem?_cons_zero, Option.some.injEq] at h
      subst h
      simp only [List.set_cons_zero, List.map_cons, List.sum_cons]
      abel
    | succ i =>
      simp only [List.getElem?_cons_succ] at h
      simp only [List.set_cons_succ, List.map_cons, List.sum_cons]
      rw [add_assoc, ih i x c h]
      abel

theorem map_wake_executing {T : Type} (l : List (consumerPc T)) :
    (l.map consumerPc.wake).map consumerPc.executing = l.map consumerPc.executing := by
  rw [List.map_map]
  apply List.map_congr_left
  intro c _
  cases c <;> rfl

theorem map_wake_finishing {T : Type} (l : List (consumerPc T)) :
    (l.map consumerPc.wake).map consumerPc.finishing = l.map consumerPc.finishing := by
  rw [List.map_map]
  apply List.map_congr_left
  intro c _
  cases c <;> rfl

theorem map_wake_held {T : Type} (l : List (consumerPc T)) :
    (l.map consumerPc.wake).map consumerPc.held = l.map consumerPc.held := by
  rw [List.map_map]
  apply List.map_congr_left
  intro c _
  cases c <;> rfl

theorem executeAll_append {T : Type} [LinearOrder T] (tasks : List (Request T)) :
    ∀ (f : feed T) (enc : List (Encoded T)) (task : Request T),
      executeAll f enc (tasks ++ [task]) =
        ((execute (executeAll f enc tasks).1 task).1,
          (executeAll f enc tasks).2 ++ (execute (executeAll f enc tasks).1 task).2) := by
  induction tasks with
  | nil => intro f enc task; rfl
  | cons t tasks ih =>
    intro f enc task
    simp only [List.cons_append, executeAll]
    exact ih _ _ _

theorem Server_init_inv {T : Type} [LinearOrder T] [Zero T] (input : List (Option (Record T)))
    (n : Nat) : (Server.init input n).Inv input := by
  have h1 : ((List.replicate n (consumerPc.dequeue (T := T))).map consumerPc.executing).sum = 0 := by
    induction n with
    | zero => rfl
    | succ n _ => simp [List.replicate_succ, consumerPc.executing]
  have h2 : ((List.replicate n (consumerPc.dequeue (T := T))).map consumerPc.finishing).sum = 0 := by
    induction n with
    | zero => rfl
    | succ n _ => simp [List.replicate_succ, consumerPc.finishing]
  have h3 : ((List.replicate n (consumerPc.dequeue (T := T))).map consumerPc.held).sum = 0 := by
    induction n with
    | zero => rfl
    | succ n _ => simp [List.replicate_succ, consumerPc.held]
  refine ⟨?_, ?_, ?_, ?_, ?_, ?_⟩
  · simp only [Server.init, producerPc.pending, h1, h2]
    simp
  · simp only [Server.init, producerPc.pending, h1]
    simp
  · simp only [Server.init, h2]
    simp
  · simp only [Server.init, producerPc.held, h3]
    simp
  · rfl
  · simp [Server.init]

theorem Server_producerStep_inv {T : Type} [LinearOrder T] [Zero T]
    (input : List (Option (Record T))) (s s1 : Server T) (hinv : s.Inv input)
    (hstep : s.producerStep = some s1) : s1.Inv input := by
  obtain ⟨h1, h2, h3, h4, h5, h6⟩ := hinv
  unfold Server.producerStep at hstep
  cases hp : s.producer with
  | decode =>
    rw [hp] at hstep h1 h2 h4 h6
    simp only [producerPc.pending, producerPc.held] at h1 h2 h4 h6
    cases hd : s.dec with
    | nil =>
      rw [hd] at hstep h6
      simp only [Option.some.injEq] at hstep
      subst hstep
      refine ⟨?_, ?_, ?_, ?_, ?_, ?_⟩
      · simpa [producerPc.pending] using h1
      · simpa [producerPc.pending] using h2
      · exact h3
      · simpa [producerPc.held] using h4
      · exact h5
      · simpa [acceptedOf] using h6
    | cons r dec =>
      rw [hd] at hstep h6
      cases r with
      | none =>
        simp only [Option.some.injEq] at hstep
        subst hstep
        refine ⟨?_, ?_, ?_, ?_, ?_, ?_⟩
        · simpa [producerPc.pending] using h1
        · simpa [producerPc.pending] using h2
        · exact h3
        · simpa [producerPc.held] using h4
        · exact h5
        · simpa [acceptedOf] using h6
      | some r =>
        simp only at hstep
        by_cases hdone : (Request.zero.decode r).Command = "DONE"
        · rw [if_pos hdone, Option.some.injEq] at hstep
          subst hstep
          refine ⟨?_, ?_, ?_, ?_, ?_, ?_⟩
          · simpa [producerPc.pending] using h1
          · simpa [producerPc.pending] using h2
          · exact h3
          · simpa [producerPc.held] using h4
          · exact h5
          · simpa [acceptedOf, hdone] using h6
        · rw [if_neg hdone, Option.some.injEq] at hstep
          subst hstep
          refine ⟨?_, ?_, ?_, ?_, ?_, ?_⟩
          · simp only [producerPc.pending]
            rw [h1]; push_cast; ring
          · simp only [producerPc.pending, List.length_append, List.length_singleton]
            omega
          · exact h3
          · simp only [producerPc.held]
            rw [← Multiset.coe_add, h4]
            simp only [Multiset.coe_singleton]
            abel
          · exact h5
          · simpa [acceptedOf, hdone] using h6
  | enqueue request =>
    rw [hp] at hstep h1 h2 h4 h6
    simp only [producerPc.pending, producerPc.held] at h1 h2 h4 h6
    simp only [Option.some.injEq] at hstep
    subst hstep
    refine ⟨?_, ?_, ?_, ?_, ?_, ?_⟩
    · simp only [producerPc.pending, List.length_append, List.length_singleton]
      rw [h1]; push_cast; ring
    · simp only [producerPc.pending, List.length_append, List.length_singleton]
      omega
    · exact h3
    · simp only [producerPc.held]
      rw [h4, ← Multiset.coe_add]
      simp only [Multiset.coe_singleton]
      abel
    · exact h5
    · exact h6
  | broadcast =>
    rw [hp] at hstep h1 h2 h4 h6
    simp only [producerPc.pending, producerPc.held] at h1 h2 h4 h6
    simp only [Option.some.injEq] at hstep
    subst hstep
    refine ⟨?_, ?_, ?_, ?_, ?_, ?_⟩
    · simp only [producerPc.pending]
      rw [map_wake_executing, map_wake_finishing]
      simpa using h1
    · simp only [producerPc.pending]
      rw [map_wake_executing]
      simpa using h2
    · simp only
      rw [map_wake_finishing]
      exact h3
    · simp only [producerPc.held]
      rw [map_wake_held]
      simpa using h4
    · exact h5
    · exact h6
  | wait =>
    rw [hp] at hstep h1 h2 h4 h6
    simp only [producerPc.pending, producerPc.held] at h1 h2 h4 h6
    by_cases hwg : s.wg = 0
    · rw [if_pos hwg, Option.some.injEq] at hstep
      subst hstep
      refine ⟨?_, ?_, ?_, ?_, ?_, ?_⟩
      · simpa [producerPc.pending] using h1
      · simpa [producerPc.pending] using h2
      · exact h3
      · simpa [producerPc.held] using h4
      · exact h5
      · exact h6
    · rw [if_neg hwg] at hstep
      cases hstep
  | returned =>
    rw [hp] at hstep
    cases hstep

theorem Server_consumerStep_inv {T : Type} [LinearOrder T] [Zero T]
    (input : List (Option (Record T))) (s s1 : Server T) (i : Nat) (hinv : s.Inv input)
    (hstep : s.consumerStep i = some s1) : s1.Inv input := by
  obtain ⟨h1, h2, h3, h4, h5, h6⟩ := hinv
  unfold Server.consumerStep at hstep
  cases hc : s.consumers[i]? with
  | none => rw [hc] at hstep; cases hstep
  | some c =>
    rw [hc] at hstep
    have hex := fun x => sum_map_set consumerPc.executing s.consumers i x c hc
    have hfi := fun x => sum_map_set consumerPc.finishing s.consumers i x c hc
    have hhe := fun x => sum_map_set (consumerPc.held (T := T)) s.consumers i x c hc
    cases c with
    | dequeue =>
      simp only at hstep
      cases hq : s.q with
      | nil =>
        rw [hq] at hstep h1 h2 h4
        simp only [Option.some.injEq] at hstep
        subst hstep
        have e1 := hex .nilTask
        have e2 := hfi .nilTask
        have e3 := hhe .nilTask
        simp only [consumerPc.executing, consumerPc.finishing, consumerPc.held, add_zero]
          at e1 e2 e3
        refine ⟨?_, ?_, ?_, ?_, h5, h6⟩
        · simp only [e1, e2]; exact h1
        · simp only [e1]; exact h2
        · simp only [e2]; exact h3
        · simp only [e3]; exact h4
      | cons task q =>
        rw [hq] at hstep h1 h2 h4
        simp only [Option.some.injEq] at hstep
        subst hstep
        have e1 := hex (.execute task)
        have e2 := hfi (.execute task)
        have e3 := hhe (.execute task)
        simp only [consumerPc.executing, consumerPc.finishing, consumerPc.held, add_zero]
          at e1 e2 e3
        refine ⟨?_, ?_, ?_, ?_, h5, h6⟩
        · simp only [e1, e2]
          rw [h1]
          simp only [List.length_cons]
          push_cast
          ring
        · simp only [e1]
          rw [h2]
          simp only [List.length_cons]
          omega
        · simp only [e2]; exact h3
        · simp only [e3]
          rw [h4, ← Multiset.cons_coe, ← Multiset.singleton_add]
          abel
    | nilTask =>
      simp only [Option.some.injEq] at hstep
      subst hstep
      have e1 := hex .waiting
      have e2 := hfi .waiting
      have e3 := hhe .waiting
      simp only [consumerPc.executing, consumerPc.finishing, consumerPc.held, add_zero]
        at e1 e2 e3
      refine ⟨?_, ?_, ?_, ?_, h5, h6⟩
      · simp only [e1, e2]; exact h1
      · simp only [e1]; exact h2
      · simp only [e2]; exact h3
      · simp only [e3]; exact h4
    | waiting => cases hstep
    | execute task =>
      simp only [Option.some.injEq] at hstep
      subst hstep
      have e1 := hex .done
      have e2 := hfi .done
      have e3 := hhe .done
      simp only [consumerPc.executing, consumerPc.finishing, consumerPc.held, add_zero]
        at e1 e2 e3
      refine ⟨?_, ?_, ?_, ?_, ?_, h6⟩
      · simp only
        rw [h1]
        have : ((s.consumers.set i .done).map consumerPc.executing).sum +
            ((s.consumers.set i .done).map consumerPc.finishing).sum =
            (s.consumers.map consumerPc.executing).sum +
            (s.consumers.map consumerPc.finishing).sum := by omega
        have hz : (((s.consumers.set i .done).map consumerPc.executing).sum : Int) +
            ((s.consumers.set i .done).map consumerPc.finishing).sum =
            (s.consumers.map consumerPc.executing).sum +
            (s.consumers.map consumerPc.finishing).sum := by exact_mod_cast this
        linarith
      · simp only [List.length_append, List.length_singleton]
        omega
      · simp only [List.length_append, List.length_singleton]
        omega
      · simp only
        rw [h4, ← Multiset.coe_add, Multiset.coe_singleton, ← e3]
        abel
      · simp only
        rw [executeAll_append, ← h5]
    | done =>
      simp only [Option.some.injEq] at hstep
      subst hstep
      have e1 := hex .dequeue
      have e2 := hfi .dequeue
      have e3 := hhe .dequeue
      simp only [consumerPc.executing, consumerPc.finishing, consumerPc.held, add_zero]
        at e1 e2 e3
      refine ⟨?_, ?_, ?_, ?_, h5, h6⟩
      · simp only [e1]
        rw [h1]
        have hz : (((s.consumers.set i .dequeue).map consumerPc.finishing).sum : Int) + 1 =
            (s.consumers.map consumerPc.finishing).sum := by exact_mod_cast e2
        linarith
      · simp only [e1]; exact h2
      · simp only
        omega
      · simp only [e3]; exact h4

theorem Server_run_inv {T : Type} [LinearOrder T] [Zero T] (input : List (Option (Record T)))
    (evs : List ServerEvent) :
    ∀ s s1 : Server T, s.Inv input → s.run evs = some s1 → s1.Inv input := by
  induction evs with
  | nil =>
    intro s s1 hinv hrun
    simp only [Server.run, Option.some.injEq] at hrun
    subst hrun
    exact hinv
  | cons e es ih =>
    intro s s1 hinv hrun
    simp only [Server.run] at hrun
    cases hstep : s.step e with
    | none => rw [hstep] at hrun; cases hrun
    | some s2 =>
      rw [hstep] at hrun
      refine ih s2 s1 ?_ hrun
      cases e with
      | producer => exact Server_producerStep_inv input s s2 hinv hstep
      | consumer i => exact Server_consumerStep_inv input s s2 i hinv hstep

theorem Server_step_inOrder {T : Type} [LinearOrder T] [Zero T] (s s1 : Server T)
    (e : ServerEvent) (hinv : s.InOrder) (hstep : s.step e = some s1) : s1.InOrder := by
  obtain ⟨c, hc, hacc⟩ := hinv
  cases e with
  | producer =>
    simp only [Server.step, Server.producerStep] at hstep
    cases hp : s.producer with
    | decode =>
      rw [hp] at hstep hacc
      simp only [producerPc.heldList, List.append_nil] at hacc
      cases hd : s.dec with
      | nil =>
        rw [hd] at hstep
        simp only [Option.some.injEq] at hstep
        subst hstep
        exact ⟨c, hc, by simpa [producerPc.heldList] using hacc⟩
      | cons r dec =>
        rw [hd] at hstep
        cases r with
        | none =>
          simp only [Option.some.injEq] at hstep
          subst hstep
          exact ⟨c, hc, by simpa [producerPc.heldList] using hacc⟩
        | some r =>
          simp only at hstep
          by_cases hdone : (Request.zero.decode r).Command = "DONE"
          · rw [if_pos hdone, Option.some.injEq] at hstep
            subst hstep
            exact ⟨c, hc, by simpa [producerPc.heldList] using hacc⟩
          · rw [if_neg hdone, Option.some.injEq] at hstep
            subst hstep
            exact ⟨c, hc, by simp only [producerPc.heldList]; rw [hacc]⟩
    | enqueue request =>
      rw [hp] at hstep hacc
      simp only [Option.some.injEq] at hstep
      subst hstep
      exact ⟨c, hc, by simpa [producerPc.heldList] using hacc⟩
    | broadcast =>
      rw [hp] at hstep hacc
      simp only [Option.some.injEq] at hstep
      subst hstep
      refine ⟨c.wake, by simp [hc], ?_⟩
      have : c.wake.heldList = c.heldList := by cases c <;> rfl
      simpa [producerPc.heldList, this] using hacc
    | wait =>
      rw [hp] at hstep hacc
      by_cases hwg : s.wg = 0
      · simp only [if_pos hwg, Option.some.injEq] at hstep
        subst hstep
        exact ⟨c, hc, by simpa [producerPc.heldList] using hacc⟩
      · simp only [if_neg hwg] at hstep
        cases hstep
    | returned =>
      rw [hp] at hstep
      cases hstep
  | consumer i =>
    simp only [Server.step, Server.consumerStep] at hstep
    cases i with
    | succ i =>
      rw [hc] at hstep
      simp at hstep
    | zero =>
      rw [hc] at hstep
      simp only [List.getElem?_cons_zero, List.set_cons_zero] at hstep
      cases c with
      | dequeue =>
        simp only [consumerPc.heldList, List.append_nil] at hacc
        simp only at hstep
        cases hq : s.q with
        | nil =>
          rw [hq] at hstep hacc
          simp only [Option.some.injEq] at hstep
          subst hstep
          exact ⟨_, rfl, by simpa [consumerPc.heldList] using hacc⟩
        | cons task q =>
          rw [hq] at hstep hacc
          simp only [Option.some.injEq] at hstep
          subst hstep
          exact ⟨_, rfl, by simpa [consumerPc.heldList] using hacc⟩
      | nilTask =>
        simp only [Option.some.injEq] at hstep
        subst hstep
        exact ⟨_, rfl, by simpa [consumerPc.heldList] using hacc⟩
      | waiting => cases hstep
      | execute task =>
        simp only [Option.some.injEq] at hstep
        subst hstep
        exact ⟨_, rfl, by simpa [consumerPc.heldList] using hacc⟩
      | done =>
        simp only [Option.some.injEq] at hstep
        subst hstep
        exact ⟨_, rfl, by simpa [consumerPc.heldList] using hacc⟩

theorem Server_run_inOrder {T : Type} [LinearOrder T] [Zero T] (evs : List ServerEvent) :
    ∀ s s1 : Server T, s.InOrder → s.run evs = some s1 → s1.InOrder := by
  induction evs with
  | nil =>
    intro s s1 hinv hrun
    simp only [Server.run, Option.some.injEq] at hrun
    subst hrun
    exact hinv
  | cons e es ih =>
    intro s s1 hinv hrun
    simp only [Server.run] at hrun
    cases hstep : s.step e with
    | none => rw [hstep] at hrun; cases hrun
    | some s2 =>
      rw [hstep] at hrun
      exact ih s2 s1 (Server_step_inOrder s s2 e hinv hstep) hrun

theorem RunSequentialLoop_full {T : Type} [LinearOrder T] [Zero T] (rs : List (Request T)) :
    ∀ (f : feed T) (enc : List (Encoded T)) (request : Request T),
      RunSequentialLoop f enc request (rs.map (fun r => some (Record.ofRequest r))) =
        executeAll f enc (acceptedOf (rs.map (fun r => some (Record.ofRequest r)))) := by
  induction rs with
  | nil => intro f enc request; rfl
  | cons r rs ih =>
    intro f enc request
    have h1 : request.decode (Record.ofRequest r) = r := rfl
    have h2 : (Request.zero (T := T)).decode (Record.ofRequest r) = r := rfl
    simp only [List.map_cons, RunSequentialLoop, acceptedOf, h1, h2]
    by_cases hdone : r.Command = "DONE"
    · simp only [if_pos hdone, executeAll]
    · simp only [if_neg hdone, executeAll]
      exact ih _ _ _

/-- With exactly one consumer and an input whose records carry all their fields, whenever the
producer stands in the `wg.Wait()` of `DONE` with the counter at zero, that is whenever the
parallel mode can return, the feed and the encoded responses are those of `RunSequential` on
the same input. -/
theorem single_consumer_agrees_when_wait_returns {T : Type} [LinearOrder T] [Zero T]
    (rs : List (Request T)) (evs : List ServerEvent) (s : Server T)
    (hrun : (Server.init (rs.map (fun r => some (Record.ofRequest r))) 1).run evs = some s)
    (hp : s.producer = .wait) (hwg : s.wg = 0) :
    (s.f, s.enc) = RunSequential NewFeed (rs.map (fun r => some (Record.ofRequest r))) := by
  obtain ⟨h1, h2, h3, h4, h5, h6⟩ :=
    Server_run_inv _ evs _ s (Server_init_inv _ 1) hrun
  obtain ⟨c, hc, hacc⟩ := Server_run_inOrder evs _ s ⟨.dequeue, rfl, rfl⟩ hrun
  rw [hp] at h1 h6 hacc
  simp only [producerPc.pending, producerPc.heldList, List.append_nil] at h1 h6 hacc
  have hq : s.q = [] := List.length_eq_zero.1 (by omega)
  have hex : (s.consumers.map consumerPc.executing).sum = 0 := by omega
  have hheld : c.heldList = [] := by
    rw [hc] at hex
    cases c <;> simp_all [consumerPc.executing, consumerPc.heldList]
  rw [hq, hheld] at hacc
  simp only [List.append_nil] at hacc
  rw [RunSequential, RunSequentialLoop_full, h6, hacc]
  exact h5

theorem held_sum_zero {T : Type} (l : List (consumerPc T))
    (h : (l.map consumerPc.executing).sum = 0) : (l.map consumerPc.held).sum = 0 := by
  induction l with
  | nil => rfl
  | cons c l ih =>
    simp only [List.map_cons, List.sum_cons] at h ⊢
    have hc : c.executing = 0 := by omega
    have hl : (l.map consumerPc.executing).sum = 0 := by omega
    rw [ih hl]
    cases c <;> simp_all [consumerPc.executing, consumerPc.held]

/-- Claim C15, the failing schedule.  Input: one `ADD` record followed by `DONE`; one consumer.
The consumer calls `Dequeue` on the still empty queue and gets nil.  Before it enters
`cond.Wait()`, the producer decodes the `ADD` record, calls `wg.Add(1)`, `Enqueue` and
`Broadcast`, which finds no sleeping consumer.  The consumer then goes to sleep in `cond.Wait()`
and the producer, after decoding `DONE`, blocks in `wg.Wait()` with the counter at `1`.  No
thread can take a step any more and nothing was encoded, while `RunSequential` on the same
input encodes `Response{Success: true, Id: 0}` and returns. -/
theorem parallel_mode_lost_wakeup :
    (Server.init (T := ℚ)
        [some (Record.ofRequest ⟨"ADD", 0, "a", 1⟩), some (Record.ofRequest ⟨"DONE", 1, "", 0⟩)]
        1).run
      [.consumer 0, .producer, .producer, .producer, .consumer 0, .producer] =
      some { f := NewFeed, enc := [], dec := [], q := [⟨"ADD", 0, "a", 1⟩], wg := 1,
             producer := .wait, consumers := [.waiting],
             accepted := [⟨"ADD", 0, "a", 1⟩], executed := [], dones := 0 } ∧
    (∀ e : ServerEvent,
      ({ f := NewFeed, enc := [], dec := [], q := [⟨"ADD", 0, "a", 1⟩], wg := 1,
         producer := .wait, consumers := [.waiting],
         accepted := [⟨"ADD", 0, "a", 1⟩], executed := [], dones := 0 } : Server ℚ).step e =
        none) ∧
    RunSequential (NewFeed (T := ℚ))
        [some (Record.ofRequest ⟨"ADD", 0, "a", 1⟩), some (Record.ofRequest ⟨"DONE", 1, "", 0⟩)] =
      ((NewFeed (T := ℚ)).Add "a" 1, [.response ⟨true, 0⟩]) := by
  refine ⟨by decide, ?_, by decide⟩
  intro e
  cases e with
  | producer => decide
  | consumer i =>
    cases i with
    | zero => decide
    | succ i => rfl

/-- Claim C16, the counterexample: after the producer has accepted and enqueued one `ADD`
record and the only consumer has dequeued and executed it, the response is encoded and no
accepted record is left unexecuted, but the consumer has not yet called `wg.Done()`: the
counter is `1`, not `0`. -/
theorem outstanding_counter_after_execute :
    (Server.init (T := ℚ) [some (Record.ofRequest ⟨"ADD", 0, "a", 1⟩)] 1).run
      [.producer, .producer, .consumer 0, .consumer 0] =
      some { f := (NewFeed (T := ℚ)).Add "a" 1, enc := [.response ⟨true, 0⟩], dec := [], q := [],
             wg := 1, producer := .broadcast, consumers := [.done],
             accepted := [⟨"ADD", 0, "a", 1⟩], executed := [⟨"ADD", 0, "a", 1⟩], dones := 0 } := by
  decide

/-- Claim C16, amended: in every state of the producer/consumer step model reachable from the
start of `Run`, with any input and any number of consumers, the outstanding counter is never
negative and equals the number of accepted records for which no consumer has called
`wg.Done()` yet, that is the number of accepted records not yet executed plus the number of
consumers that stand between `execute` and `wg.Done()`.  Hence whenever the counter is zero
while the producer is in the `wg.Wait()` of `DONE`, the accepted records are exactly the
records read before `DONE`, every one of them has been executed, and the feed and the encoded
responses are those of these executions. -/
theorem outstanding_counter_accounting {T : Type} [LinearOrder T] [Zero T]
    (input : List (Option (Record T))) (ConsumersCount : Nat) (evs : List ServerEvent)
    (s : Server T) (hrun : (Server.init input ConsumersCount).run evs = some s) :
    0 ≤ s.wg ∧
    s.wg = (s.accepted.length : Int) - s.dones ∧
    s.executed.length ≤ s.accepted.length ∧
    s.wg = ((s.accepted.length - s.executed.length : Nat) : Int) +
      (s.consumers.map consumerPc.finishing).sum ∧
    (s.producer = .wait → s.wg = 0 →
      s.accepted = acceptedOf input ∧ s.executed.Perm s.accepted ∧
      (s.f, s.enc) = executeAll NewFeed [] s.executed) := by
  obtain ⟨h1, h2, h3, h4, h5, h6⟩ :=
    Server_run_inv input evs _ s (Server_init_inv input ConsumersCount) hrun
  refine ⟨by omega, by omega, by omega, by omega, ?_⟩
  intro hp hwg
  rw [hp] at h1 h2 h4 h6
  simp only [producerPc.pending, producerPc.held] at h1 h2 h4 h6
  have hq : s.q = [] := List.length_eq_zero.1 (by omega)
  have hex : (s.consumers.map consumerPc.executing).sum = 0 := by omega
  rw [hq, held_sum_zero s.consumers hex] at h4
  refine ⟨by simpa using h6.symm, ?_, h5⟩
  have h7 : (s.executed : Multiset (Request T)) = (s.accepted : Multiset (Request T)) := by
    rw [h4]
    simp
  exact Multiset.coe_eq_coe.1 h7

/-- Claim C16 at a concrete run: one `ADD` record and `DONE`, one consumer, and a schedule in
which the consumer finds the request; the producer reaches `wg.Wait()` with the counter at
zero. -/
theorem outstanding_counter_accounting_witness :
    (Server.init (T := ℚ)
        [some (Record.ofRequest ⟨"ADD", 0, "a", 1⟩), some (Record.ofRequest ⟨"DONE", 1, "", 0⟩)]
        1).run
      [.producer, .producer, .producer, .consumer 0, .consumer 0, .consumer 0, .producer] =
      some { f := (NewFeed (T := ℚ)).Add "a" 1, enc := [.response ⟨true, 0⟩], dec := [], q := [],
             wg := 0, producer := .wait, consumers := [.dequeue],
             accepted := [⟨"ADD", 0, "a", 1⟩], executed := [⟨"ADD", 0, "a", 1⟩], dones := 1 } ∧
    ([⟨"ADD", 0, "a", 1⟩] : List (Request ℚ)) =
      acceptedOf [some (Record.ofRequest ⟨"ADD", 0, "a", 1⟩),
        some (Record.ofRequest ⟨"DONE", 1, "", 0⟩)] :=
  ⟨by decide,
   ((outstanding_counter_accounting
      [some (Record.ofRequest ⟨"ADD", 0, "a", 1⟩), some (Record.ofRequest ⟨"DONE", 1, "", 0⟩)]
      1 [.producer, .producer, .producer, .consumer 0, .consumer 0, .consumer 0, .producer]
      { f := (NewFeed (T := ℚ)).Add "a" 1, enc := [.response ⟨true, 0⟩], dec := [], q := [],
        wg := 0, producer := .wait, consumers := [.dequeue],
        accepted := [⟨"ADD", 0, "a", 1⟩], executed := [⟨"ADD", 0, "a", 1⟩], dones := 1 }
      (by decide)).2.2.2.2 rfl rfl).1⟩

/-! ### Lock-free queue and sequential queue -/

theorem SeqRep_new {T : Type} : SeqRep (NewSeqQueue (T := T)) [none] 0 := by
  refine ⟨rfl, rfl, rfl, by simp, ?_⟩
  intro i
  by_cases hi : i = 0
  · subst hi; simp [NewSeqQueue]
  · have : ([none] : List (Option (Request T)))[i]? = none := by
      simp; omega
    simp [NewSeqQueue, hi, this]

theorem SeqRep_heap_lt {T : Type} {q : SeqQueue T} {rs : List (Option (Request T))}
    {h : Nat} (hrep : SeqRep q rs h) {i : Nat} (hi : i < rs.length) :
    q.heap i = some { request := rs[i], next := if i + 1 < rs.length then some (i + 1) else none } := by
  rw [hrep.2.2.2.2 i, List.getElem?_eq_getElem hi]
  rfl

theorem SeqQueue_Enqueue_rep {T : Type} {q : SeqQueue T} {rs : List (Option (Request T))}
    {h : Nat} (hrep : SeqRep q rs h) (task : Option (Request T)) :
    ∃ q2, q.Enqueue task = .ok q2 ∧ SeqRep q2 (rs ++ [task]) h := by
  have hrep2 := hrep
  obtain ⟨hfresh, hhead, htail, hh, hheap⟩ := hrep2
  have hn : rs.length - 1 < rs.length := by omega
  have hlast : q.heap (rs.length - 1) = some { request := rs[rs.length - 1], next := none } := by
    rw [SeqRep_heap_lt hrep hn]
    have : ¬ (rs.length - 1 + 1 < rs.length) := by omega
    simp [this]
  have hrun : q.Enqueue task =
      .ok { heap := fun a =>
              if a = rs.length - 1 then some { request := rs[rs.length - 1], next := some rs.length }
              else if a = rs.length then some { request := task, next := none }
              else q.heap a
            fresh := rs.length + 1
            head := q.head
            tail := some rs.length } := by
    simp [SeqQueue.Enqueue, SeqQueue.deref, htail, hlast, hfresh]
  refine ⟨_, hrun, ?_⟩
  refine ⟨by simp, hhead, by simp, by simp; omega, ?_⟩
  intro i
  simp only [List.length_append, List.length_singleton]
  by_cases h1 : i = rs.length - 1
  · have h2 : (rs ++ [task])[i]? = some rs[rs.length - 1] := by
      rw [h1, List.getElem?_append_left hn, List.getElem?_eq_getElem hn]
    have h3 : i + 1 < rs.length + 1 := by omega
    have h4 : i + 1 = rs.length := by omega
    rw [if_pos h1, h2, if_pos h3, h4]
    rfl
  · rw [if_neg h1]
    by_cases h5 : i = rs.length
    · have h6 : (rs ++ [task])[i]? = some task := by
        rw [h5]; simp
      have h7 : ¬ (i + 1 < rs.length + 1) := by omega
      rw [if_pos h5, h6, if_neg h7]
      rfl
    · rw [if_neg h5, hheap i]
      by_cases h8 : i < rs.length
      · have h9 : i + 1 < rs.length := by omega
        have h10 : i + 1 < rs.length + 1 := by omega
        rw [List.getElem?_append_left h8, if_pos h9, if_pos h10]
      · rw [List.getElem?_eq_none (by omega),
          List.getElem?_eq_none (by simp; omega)]
        rfl

theorem SeqQueue_Dequeue_rep_empty {T : Type} {q : SeqQueue T}
    {rs : List (Option (Request T))} {h : Nat} (hrep : SeqRep q rs h)
    (hempty : h + 1 = rs.length) : q.Dequeue = .ok (none, q) := by
  have hrep2 := hrep
  obtain ⟨hfresh, hhead, htail, hh, hheap⟩ := hrep2
  have hnode : q.heap h = some { request := rs[h], next := none } := by
    rw [SeqRep_heap_lt hrep hh]
    have : ¬ (h + 1 < rs.length) := by omega
    simp [this]
  have hth : rs.length - 1 = h := by omega
  simp [SeqQueue.Dequeue, SeqQueue.deref, hhead, htail, hth, hnode]

theorem SeqQueue_Dequeue_rep_nonempty {T : Type} {q : SeqQueue T}
    {rs : List (Option (Request T))} {h : Nat} (hrep : SeqRep q rs h)
    (hne : h + 1 < rs.length) :
    ∃ q2, q.Dequeue = .ok (rs[h + 1]?.join, q2) ∧ SeqRep q2 rs (h + 1) := by
  have hrep2 := hrep
  obtain ⟨hfresh, hhead, htail, hh, hheap⟩ := hrep2
  have hnode : q.heap h = some { request := rs[h], next := some (h + 1) } := by
    rw [SeqRep_heap_lt hrep hh]
    simp [hne]
  have hnext := SeqRep_heap_lt hrep hne
  have hth : ¬ (h = rs.length - 1) := by omega
  refine ⟨{ q with head := some (h + 1) }, ?_, hfresh, rfl, htail, hne, hheap⟩
  simp [SeqQueue.Dequeue, SeqQueue.deref, hhead, htail, hth, hnode, hnext,
    List.getElem?_eq_getElem hne]

/-- Both queues, started on representations of the same list of nodes with `head` at the same
node, return the same values, and the lock-free queue ends in a represented state. -/
theorem runOps_agree {T : Type} (fuel : Nat) (ops : List (QueueOp T)) :
    ∀ (q : LockFreeQueue T) (sq : SeqQueue T) (rs : List (Option (Request T))) (h t : Nat),
      QueueRep q rs h t → SeqRep sq rs h →
      ∃ res q2 sq2 rs2 h2 t2, q.runOps (fuel + 2) ops = .ok (res, q2) ∧
        sq.runOps ops = .ok (res, sq2) ∧ QueueRep q2 rs2 h2 t2 ∧ SeqRep sq2 rs2 h2 := by
  induction ops with
  | nil => intro q sq rs h t h1 h2; exact ⟨[], q, sq, rs, h, t, rfl, rfl, h1, h2⟩
  | cons c ops ih =>
    intro q sq rs h t hrep hseq
    cases c with
    | Enqueue task =>
      obtain ⟨q1, h1, h2⟩ := Enqueue_rep hrep task fuel
      obtain ⟨sq1, h3, h4⟩ := SeqQueue_Enqueue_rep hseq task
      obtain ⟨res, q2, sq2, rs2, h2', t2, h5, h6, h7, h8⟩ := ih q1 sq1 _ _ _ h2 h4
      exact ⟨res, q2, sq2, rs2, h2', t2, by simp only [LockFreeQueue.runOps, h1, h5],
        by simp only [SeqQueue.runOps, h3, h6], h7, h8⟩
    | Dequeue =>
      by_cases hlen : h + 1 = rs.length
      · have h1 := Dequeue_rep_empty hrep hlen (fuel + 1)
        have h3 := SeqQueue_Dequeue_rep_empty hseq hlen
        obtain ⟨res, q2, sq2, rs2, h2', t2, h5, h6, h7, h8⟩ := ih q sq _ _ _ hrep hseq
        exact ⟨none :: res, q2, sq2, rs2, h2', t2, by simp only [LockFreeQueue.runOps, h1, h5],
          by simp only [SeqQueue.runOps, h3, h6], h7, h8⟩
      · have hlt : h + 1 < rs.length := by
          have := hseq.2.2.2.1
          omega
        obtain ⟨q1, t1, h1, h2⟩ := Dequeue_rep_nonempty hrep hlt fuel
        obtain ⟨sq1, h3, h4⟩ := SeqQueue_Dequeue_rep_nonempty hseq hlt
        obtain ⟨res, q2, sq2, rs2, h2', t2, h5, h6, h7, h8⟩ := ih q1 sq1 _ _ _ h2 h4
        exact ⟨rs[h + 1]?.join :: res, q2, sq2, rs2, h2', t2,
          by simp only [LockFreeQueue.runOps, h1, h5],
          by simp only [SeqQueue.runOps, h3, h6], h7, h8⟩

theorem QueueRep_path {T : Type} {q : LockFreeQueue T} {rs : List (Option (Request T))}
    {h t : Nat} (hrep : QueueRep q rs h t) :
    ∀ (n i : Nat), i + n = rs.length →
      queuePath q.heap (if i < rs.length then some i else none) (List.range' i n) := by
  intro n
  induction n with
  | zero => intro i hi; simp [queuePath]; omega
  | succ n ih =>
    intro i hi
    have hlt : i < rs.length := by omega
    rw [List.range'_succ, if_pos hlt]
    refine ⟨rfl, _, QueueRep_heap_lt hrep hlt, ?_⟩
    exact ih (i + 1) (by omega)

/-- Claim C27: `Enqueue` returns right after the compare-and-swap that links the new node and
does not touch `queue.tail`.  On a fresh queue the call returns within one iteration with the
new node linked behind the dummy node at address `0` and `tail` still pointing to the dummy; in
general, on every queue whose `tail` points to the last node, `tail` is unchanged when `Enqueue`
returns, while the last node is now the new one. -/
theorem Enqueue_leaves_tail_behind {T : Type} (fuel : Nat) (task : Option (Request T)) :
    (∃ q1, (NewLockFreeQueue (T := T)).Enqueue (fuel + 1) task = .ok q1 ∧
      q1.tail = some 0 ∧ q1.tail = (NewLockFreeQueue (T := T)).tail ∧
      q1.heap 0 = some { request := none, next := some 1 } ∧
      q1.heap 1 = some { request := task, next := none }) ∧
    (∀ (q : LockFreeQueue T) (rs : List (Option (Request T))) (h t : Nat),
      QueueRep q rs h t → t + 1 = rs.length →
      ∃ q1, q.Enqueue (fuel + 1) task = .ok q1 ∧ q1.tail = q.tail ∧
        q1.heap t = some { request := rs[t]?.join, next := some rs.length } ∧
        q1.heap rs.length = some { request := task, next := none }) := by
  have hgen : ∀ (q : LockFreeQueue T) (rs : List (Option (Request T))) (h t : Nat),
      QueueRep q rs h t → t + 1 = rs.length →
      ∃ q1, q.Enqueue (fuel + 1) task = .ok q1 ∧ q1.tail = q.tail ∧
        q1.heap t = some { request := rs[t]?.join, next := some rs.length } ∧
        q1.heap rs.length = some { request := task, next := none } := by
    intro q rs h t hrep hlast
    have ht : t = rs.length - 1 := by omega
    have h1 : (q.alloc task).2 = { (q.alloc task).2 with tail := some (rs.length - 1) } := by
      simp [LockFreeQueue.alloc, hrep.2.2.1, ht]
    have h2 : (q.alloc task).1 = rs.length := by simp [LockFreeQueue.alloc, hrep.1]
    obtain ⟨q1, h3, h4⟩ := enqueueLoop_tail_last hrep task _ rfl fuel
    refine ⟨q1, ?_, ?_, ?_, ?_⟩
    · unfold LockFreeQueue.Enqueue
      rw [h1, h2]
      exact h3
    · rw [h4.2.2.1, hrep.2.2.1, ht]
    · have hlt : t < (rs ++ [task]).length := by simp; omega
      rw [QueueRep_heap_lt h4 hlt]
      have h5 : t + 1 < (rs ++ [task]).length := by simp; omega
      have h6 : t < rs.length := by omega
      simp [h5, hlast, List.getElem_append_left h6, List.getElem?_eq_getElem h6]
    · have hlt : rs.length < (rs ++ [task]).length := by simp
      rw [QueueRep_heap_lt h4 hlt]
      simp
  refine ⟨?_, hgen⟩
  obtain ⟨q1, h1, h2, h3, h4⟩ := hgen NewLockFreeQueue [none] 0 0 QueueRep_new rfl
  exact ⟨q1, h1, h2, h2, by simpa using h3, by simpa using h4⟩

/-- Claim C28: after every sequence of `Enqueue` and `Dequeue` calls executed one at a time on
a queue created by `NewLockFreeQueue()` (every call returns within two loop iterations), the
nodes linked from `head` form a finite, nil-terminated list without repetition, `tail` points to
a node of that list, and `tail.next` is nil or `tail.next.next` is nil. -/
theorem lockfree_queue_shape_invariant {T : Type} (fuel : Nat) (ops : List (QueueOp T)) :
    ∃ res q, (NewLockFreeQueue (T := T)).runOps (fuel + 2) ops = .ok (res, q) ∧
      ∃ path t, queuePath q.heap q.head path ∧ path.Nodup ∧
        q.tail = some t ∧ t ∈ path ∧
        ∃ tailNode, q.heap t = some tailNode ∧
          (tailNode.next = none ∨
            ∃ u last, tailNode.next = some u ∧ u ∈ path ∧ q.heap u = some last ∧
              last.next = none) := by
  obtain ⟨res, q, sq, rs, h, t, h1, -, hrep, -⟩ :=
    runOps_agree fuel ops NewLockFreeQueue NewSeqQueue [none] 0 0 QueueRep_new SeqRep_new
  refine ⟨res, q, h1, List.range' h (rs.length - h), t, ?_, List.nodup_range' _ _, hrep.2.2.1, ?_, ?_⟩
  · have hp := QueueRep_path hrep (rs.length - h) h (by have := hrep.2.2.2.1; have := hrep.2.2.2.2.1; omega)
    rw [if_pos (by have := hrep.2.2.2.1; have := hrep.2.2.2.2.1; omega)] at hp
    rw [hrep.2.1]
    exact hp
  · have h3 := hrep.2.2.2.1
    have h4 := hrep.2.2.2.2.1
    rw [List.mem_range'_1]
    omega
  · have h3 := hrep.2.2.2.1
    have h4 := hrep.2.2.2.2.1
    have h5 := hrep.2.2.2.2.2.1
    refine ⟨_, QueueRep_heap_lt hrep h4, ?_⟩
    by_cases h6 : t + 1 < rs.length
    · right
      refine ⟨t + 1, _, by simp [h6], ?_, QueueRep_heap_lt hrep h6, ?_⟩
      · rw [List.mem_range'_1]; omega
      · have : ¬ (t + 1 + 1 < rs.length) := by omega
        simp [this]
    · left
      simp [h6]

/-- Claim C29: for every sequence of `Enqueue` and `Dequeue` calls (the enqueued pointer may be
nil), executed one at a time on a queue from `NewSeqQueue()` and on one from
`NewLockFreeQueue()`, every call returns on both without dereferencing an invalid pointer (the
loops of the lock-free queue within two iterations) and the `Dequeue` calls return the same
values on both. -/
theorem SeqQueue_LockFreeQueue_agree {T : Type} (fuel : Nat) (ops : List (QueueOp T)) :
    ∃ res q sq, (NewLockFreeQueue (T := T)).runOps (fuel + 2) ops = .ok (res, q) ∧
      (NewSeqQueue (T := T)).runOps ops = .ok (res, sq) := by
  obtain ⟨res, q, sq, -, -, -, h1, h2, -, -⟩ :=
    runOps_agree fuel ops NewLockFreeQueue NewSeqQueue [none] 0 0 QueueRep_new SeqRep_new
  exact ⟨res, q, sq, h1, h2⟩

/-! ### Optimistic feed: retry loop of Add, re-validation of Remove -/

/-- A feed whose second post has the timestamp to be added, the first post not being older:
the traversal of `Add` stops at the first post, the re-validation `timestamp >
curPost.next.timestamp` fails, the feed is left as it was, and the next iteration does the
same. -/
theorem optAddRetry_tie_behind_first {T : Type} [LinearOrder T] (f : optFeed T) (ts : T)
    (s0 first nx : Nat) (s p q : optPost T)
    (hstart : f.start = some s0) (hs : f.heap s0 = some s) (hsn : s.next = some first)
    (hp : f.heap first = some p) (hpr : p.removed = false) (hpt : ¬ ts > p.timestamp)
    (hpn : p.next = some nx) (hq : f.heap nx = some q) (hqt : q.timestamp = ts)
    (np fuel : Nat) :
    ∀ tries, optAddRetry np ts fuel tries f = .error .outOfFuel := by
  intro tries
  induction tries with
  | zero => rfl
  | succ k ih =>
    rw [optAddRetry]
    cases fuel with
    | zero =>
      simp [optFeed.AddLocate, optFeed.nextNilOrSmaller, optFeed.deref, hstart, hs, hsn, hp,
        hpt, optAddLoop]
    | succ m =>
      simp [optFeed.AddLocate, optFeed.nextNilOrSmaller, optFeed.deref, hstart, hs, hsn, hp,
        hpt, optAddLoop, hpn, hq, hqt, optFeed.AddCommit, hpr]
      exact ih

/-- Claim C21: for every timestamp `ts`, two calls `Add(a, ts)`, `Add(b, ts)` on a new
optimistic feed return and leave the feed `[a/ts, b/ts]`; a third call `Add(c, ts)` in
single-threaded use does not return: whatever number of iterations the retry loop and the
traversal are given, the loop is still retrying when they are used up. -/
theorem optFeed_Add_tie_never_returns {T : Type} [LinearOrder T] [Neg T] [One T]
    (a b c : String) (ts : T) (n : Nat) :
    ∃ f1 f2, (NewOptFeed (T := T)).Add (n + 1) a ts = .ok f1 ∧
      f1.Add (n + 1) b ts = .ok f2 ∧
      f2.ReturnFeed (n + 2) = .ok [⟨a, ts⟩, ⟨b, ts⟩] ∧
      ∀ fuel, f2.Add fuel c ts = .error .outOfFuel := by
  refine ⟨(((NewOptFeed (T := T)).newPost a ts).2.setNext 1 none).setNext 0 (some 1),
    ((((((NewOptFeed (T := T)).newPost a ts).2.setNext 1 none).setNext 0 (some 1)).newPost b ts).2.setNext
      2 none).setNext 1 (some 2), ?_, ?_, ?_, ?_⟩
  · simp [optFeed.Add, optAddRetry, optFeed.AddLocate, optFeed.nextNilOrSmaller, optFeed.deref,
      NewOptFeed, optFeed.newPost, optFeed.AddCommit, optFeed.spliceAfter]
  · simp [optFeed.Add, optAddRetry, optFeed.AddLocate, optFeed.nextNilOrSmaller, optFeed.deref,
      NewOptFeed, optFeed.newPost, optFeed.AddCommit, optFeed.spliceAfter, optFeed.setNext,
      optAddLoop]
  · simp [optFeed.ReturnFeed, optReturnFeedLoop, optFeed.deref,
      NewOptFeed, optFeed.newPost, optFeed.setNext, optPost.content]
  · intro fuel
    exact optAddRetry_tie_behind_first _ ts 0 1 2
      { body := "", timestamp := -1, next := some 1, removed := false }
      { body := a, timestamp := ts, next := some 2, removed := false }
      { body := b, timestamp := ts, next := none, removed := false }
      (by simp [optFeed.newPost, optFeed.setNext, NewOptFeed])
      (by simp [optFeed.newPost, optFeed.setNext, NewOptFeed])
      rfl
      (by simp [optFeed.newPost, optFeed.setNext, NewOptFeed])
      rfl (lt_irrefl ts) rfl
      (by simp [optFeed.newPost, optFeed.setNext, NewOptFeed])
      rfl _ fuel fuel
/-- Claim C22: the re-validation of the head removal evaluates `f.start.next.timestamp` without
testing `f.start.next` for nil.  On every feed whose sentinel has no successor it dereferences
nil instead of retrying.  Such a state is met under the write lock: on the feed `[a/ts]` a
first thread finds the site `head` under the read lock, a second thread removes the only post,
and the first thread then runs the re-validation on the emptied feed. -/
theorem optFeed_Remove_head_revalidation_faults {T : Type} [LinearOrder T] [Neg T] [One T]
    (a : String) (ts : T) (n : Nat) :
    (∀ (f : optFeed T) (s : optPost T), f.deref f.start = .ok s → s.next = none →
      f.RemoveCommit ts .head = .error .invalidPointer) ∧
    (NewOptFeed (T := T)).RemoveCommit ts .head = .error .invalidPointer ∧
    ∃ f1 f2, (NewOptFeed (T := T)).Add (n + 1) a ts = .ok f1 ∧
      f1.RemoveLocate ts (n + 1) = .ok .head ∧
      f1.Remove (n + 1) ts = .ok (true, f2) ∧
      f2.ReturnFeed (n + 1) = .ok [] ∧
      f2.RemoveCommit ts .head = .error .invalidPointer := by
  refine ⟨?_, ?_, (((NewOptFeed (T := T)).newPost a ts).2.setNext 1 none).setNext 0 (some 1),
    (((((NewOptFeed (T := T)).newPost a ts).2.setNext 1 none).setNext 0 (some 1)).setRemoved
      1).setNext 0 none, ?_, ?_, ?_, ?_, ?_⟩
  · intro f s hs hn
    simp only [optFeed.RemoveCommit, hs, hn]
    rfl
  · simp [optFeed.RemoveCommit, optFeed.deref, NewOptFeed]
  · simp [optFeed.Add, optAddRetry, optFeed.AddLocate, optFeed.nextNilOrSmaller, optFeed.deref,
      NewOptFeed, optFeed.newPost, optFeed.AddCommit, optFeed.spliceAfter]
  · simp [optFeed.RemoveLocate, optFeed.deref, NewOptFeed, optFeed.newPost, optFeed.setNext]
  · simp [optFeed.Remove, optRemoveRetry, optFeed.RemoveLocate, optFeed.RemoveCommit,
      optFeed.unlinkAfter, optFeed.deref, NewOptFeed, optFeed.newPost, optFeed.setNext]
  · simp [optFeed.ReturnFeed, optReturnFeedLoop, optFeed.deref, NewOptFeed, optFeed.newPost,
      optFeed.setNext, optFeed.setRemoved]
  · simp [optFeed.RemoveCommit, optFeed.deref, NewOptFeed, optFeed.newPost,
      optFeed.setNext, optFeed.setRemoved]
/-! ### Optimistic feed: the linked list in memory -/

theorem optSeg_append {T : Type} (heap : Nat → Option (optPost T))
    (l1 l2 : List (Nat × optPost T)) (q : Ptr) :
    ∀ p, optSeg heap p (l1 ++ l2) q ↔ ∃ r, optSeg heap p l1 r ∧ optSeg heap r l2 q := by
  induction l1 with
  | nil =>
    intro p
    constructor
    · intro h; exact ⟨p, rfl, h⟩
    · rintro ⟨r, h1, h2⟩
      have h3 : p = r := h1
      rw [h3]; exact h2
  | cons x l1 ih =>
    intro p
    constructor
    · rintro ⟨h1, h2, h3⟩
      obtain ⟨r, h4, h5⟩ := (ih _).1 h3
      exact ⟨r, ⟨h1, h2, h4⟩, h5⟩
    · rintro ⟨r, ⟨h1, h2, h4⟩, h5⟩
      exact ⟨h1, h2, (ih _).2 ⟨r, h4, h5⟩⟩

theorem optSeg_congr {T : Type} {heap heap1 : Nat → Option (optPost T)}
    (l : List (Nat × optPost T)) (q : Ptr) :
    ∀ p, (∀ x ∈ l, heap1 x.1 = heap x.1) → optSeg heap p l q → optSeg heap1 p l q := by
  induction l with
  | nil => intro p _ h; exact h
  | cons x l ih =>
    rintro p hx ⟨h1, h2, h3⟩
    refine ⟨h1, ?_, ih _ (fun y hy => hx y (List.mem_cons_of_mem _ hy)) h3⟩
    rw [hx x (List.mem_cons_self _ _), h2]

theorem optSeg_mem_heap {T : Type} {heap : Nat → Option (optPost T)}
    (l : List (Nat × optPost T)) (q : Ptr) :
    ∀ p, optSeg heap p l q → ∀ x ∈ l, heap x.1 = some x.2 := by
  induction l with
  | nil => intro p _ x hx; cases hx
  | cons y l ih =>
    rintro p ⟨-, h2, h3⟩ x hx
    rcases List.mem_cons.1 hx with rfl | hx
    · exact h2
    · exact ih _ h3 x hx

theorem optSeg_det {T : Type} {heap : Nat → Option (optPost T)}
    (l1 : List (Nat × optPost T)) :
    ∀ (l2 : List (Nat × optPost T)) (p : Ptr),
      optSeg heap p l1 none → optSeg heap p l2 none → l1 = l2 := by
  induction l1 with
  | nil =>
    intro l2 p h1 h2
    cases l2 with
    | nil => rfl
    | cons y l2 =>
      have h3 : p = none := h1
      rw [h3] at h2
      cases h2.1
  | cons x l1 ih =>
    intro l2 p h1 h2
    cases l2 with
    | nil =>
      have h3 : p = none := h2
      rw [h3] at h1
      cases h1.1
    | cons y l2 =>
      obtain ⟨h3, h4, h5⟩ := h1
      obtain ⟨h6, h7, h8⟩ := h2
      have h9 : x.1 = y.1 := by rw [h3] at h6; exact Option.some.inj h6
      have h10 : x.2 = y.2 := by rw [h9, h7] at h4; exact (Option.some.inj h4).symm
      have h11 : x = y := Prod.ext h9 h10
      rw [h11] at h5 ⊢
      rw [ih l2 _ h5 h8]

theorem optSeg_nodup {T : Type} {heap : Nat → Option (optPost T)}
    (l : List (Nat × optPost T)) :
    ∀ p, optSeg heap p l none → (l.map Prod.fst).Nodup := by
  induction l with
  | nil => intro p _; exact List.nodup_nil
  | cons x l ih =>
    intro p h
    have h0 := h
    obtain ⟨h1, h2, h3⟩ := h0
    rw [List.map_cons, List.nodup_cons]
    refine ⟨?_, ih _ h3⟩
    intro hmem
    obtain ⟨y, hy, hxy⟩ := List.mem_map.1 hmem
    obtain ⟨l1, l2, hl⟩ := List.append_of_mem hy
    rw [hl] at h3
    obtain ⟨r, h4, h5⟩ := (optSeg_append heap l1 (y :: l2) none _).1 h3
    have h6 := h5
    obtain ⟨h7, h8, -⟩ := h6
    have h9 : y = x := by
      apply Prod.ext hxy
      rw [hxy, h2] at h8
      exact (Option.some.inj h8).symm
    rw [h9] at h5 h7
    rw [h1, ← h7] at h
    have h10 := optSeg_det _ _ _ h h5
    have h11 := congrArg List.length h10
    rw [hl] at h11
    simp at h11
    omega

theorem optSeg_chain {T : Type} {heap : Nat → Option (optPost T)}
    (l : List (Nat × optPost T)) :
    ∀ p, optSeg heap p l none → optChain heap p (l.map Prod.snd) := by
  induction l with
  | nil => intro p h; exact h
  | cons x l ih =>
    rintro p ⟨h1, h2, h3⟩
    exact ⟨x.1, h1, h2, ih _ h3⟩

/-- The successor of a node of the list is the next node of the list, or nil at its end. -/
theorem optSeg_split_next {T : Type} {heap : Nat → Option (optPost T)}
    {p : Ptr} {pre suf : List (Nat × optPost T)} {x : Nat × optPost T}
    (h : optSeg heap p (pre ++ x :: suf) none) :
    heap x.1 = some x.2 ∧ optSeg heap x.2.next suf none ∧ optSeg heap p pre (some x.1) := by
  obtain ⟨r, h1, h2, h3, h4⟩ := (optSeg_append heap pre (x :: suf) none _).1 h
  rw [h2] at h1
  exact ⟨h3, h4, h1⟩

/-- The splice of `Add` behind a node of the list: the new node becomes its successor and
nothing else changes. -/
theorem spliceAfter_seg {T : Type} (f : optFeed T) (p : Ptr)
    (pre suf : List (Nat × optPost T)) (x : Nat × optPost T) (np : Nat) (n0 : optPost T)
    (h : optSeg f.heap p (pre ++ x :: suf) none)
    (hnp : np ∉ (pre ++ x :: suf).map Prod.fst) (hn0 : f.heap np = some n0) :
    ∃ f1, f.spliceAfter x.1 np = .ok f1 ∧ f1.start = f.start ∧ f1.fresh = f.fresh ∧
      optSeg f1.heap p
        (pre ++ (x.1, { x.2 with next := some np }) :: (np, { n0 with next := x.2.next }) :: suf)
        none ∧
      ∀ a, a ≠ x.1 → a ≠ np → f1.heap a = f.heap a := by
  obtain ⟨hx, hsuf, hpre⟩ := optSeg_split_next h
  have hnd := optSeg_nodup _ _ h
  rw [List.map_append, List.map_cons] at hnd hnp
  have hne : x.1 ≠ np := by
    intro he; apply hnp; rw [← he]; simp
  have hframe : ∀ a, a ≠ x.1 → a ≠ np →
      ((f.setNext np x.2.next).setNext x.1 (some np)).heap a = f.heap a := by
    intro a h1 h2
    simp [optFeed.setNext, h1, h2]
  refine ⟨(f.setNext np x.2.next).setNext x.1 (some np), ?_, rfl, rfl, ?_, hframe⟩
  · simp [optFeed.spliceAfter, optFeed.deref, hx]
  · rw [optSeg_append]
    refine ⟨some x.1, ?_, rfl, ?_, rfl, ?_, ?_⟩
    · refine optSeg_congr _ _ _ (fun y hy => hframe _ ?_ ?_) hpre
      · intro he
        have h1 : y.1 ∈ pre.map Prod.fst := List.mem_map_of_mem _ hy
        rw [he] at h1
        exact (List.nodup_append.1 hnd).2.2 h1 (List.mem_cons_self _ _)
      · intro he
        apply hnp
        rw [← he]
        exact List.mem_append_left _ (List.mem_map_of_mem _ hy)
    · simp [optFeed.setNext, hx, hne]
    · simp [optFeed.setNext, hn0, hne.symm]
    · refine optSeg_congr _ _ _ (fun y hy => hframe _ ?_ ?_) hsuf
      · intro he
        have h1 : y.1 ∈ suf.map Prod.fst := List.mem_map_of_mem _ hy
        rw [he] at h1
        exact (List.nodup_cons.1 (List.nodup_append.1 hnd).2.1).1 h1
      · intro he
        apply hnp
        rw [← he]
        exact List.mem_append_right _ (List.mem_cons_of_mem _ (List.mem_map_of_mem _ hy))

/-- The unlink of `Remove` behind a node of the list: its successor is marked removed and
leaves the list, and nothing else changes. -/
theorem unlinkAfter_seg {T : Type} (f : optFeed T) (p : Ptr)
    (pre suf : List (Nat × optPost T)) (x y : Nat × optPost T)
    (h : optSeg f.heap p (pre ++ x :: y :: suf) none) :
    ∃ f1, f.unlinkAfter x.1 y.1 = .ok f1 ∧ f1.start = f.start ∧ f1.fresh = f.fresh ∧
      optSeg f1.heap p (pre ++ (x.1, { x.2 with next := y.2.next }) :: suf) none ∧
      f1.heap y.1 = some { y.2 with removed := true } ∧
      ∀ a, a ≠ x.1 → a ≠ y.1 → f1.heap a = f.heap a := by
  obtain ⟨hx, hsuf, hpre⟩ := optSeg_split_next h
  obtain ⟨hxn, hy, hsuf2⟩ := hsuf
  have hnd := optSeg_nodup _ _ h
  rw [List.map_append, List.map_cons, List.map_cons] at hnd
  obtain ⟨hnd1, hnd2, hnd3⟩ := List.nodup_append.1 hnd
  have hne : x.1 ≠ y.1 := by
    intro he
    have := (List.nodup_cons.1 hnd2).1
    apply this; rw [he]; simp
  have hframe : ∀ a, a ≠ x.1 → a ≠ y.1 →
      ((f.setRemoved y.1).setNext x.1 y.2.next).heap a = f.heap a := by
    intro a h1 h2
    simp [optFeed.setNext, optFeed.setRemoved, h1, h2]
  refine ⟨(f.setRemoved y.1).setNext x.1 y.2.next, ?_, rfl, rfl, ?_, ?_, hframe⟩
  · simp [optFeed.unlinkAfter, optFeed.deref, hy]
  · rw [optSeg_append]
    refine ⟨some x.1, ?_, rfl, ?_, ?_⟩
    · refine optSeg_congr _ _ _ (fun z hz => hframe _ ?_ ?_) hpre
      · intro he
        have h1 : z.1 ∈ pre.map Prod.fst := List.mem_map_of_mem _ hz
        rw [he] at h1
        exact hnd3 h1 (List.mem_cons_self _ _)
      · intro he
        have h1 : z.1 ∈ pre.map Prod.fst := List.mem_map_of_mem _ hz
        rw [he] at h1
        exact hnd3 h1 (List.mem_cons_of_mem _ (List.mem_cons_self _ _))
    · simp [optFeed.setNext, optFeed.setRemoved, hx, hne]
    · refine optSeg_congr _ _ _ (fun z hz => hframe _ ?_ ?_) hsuf2
      · intro he
        have h1 : z.1 ∈ suf.map Prod.fst := List.mem_map_of_mem _ hz
        rw [he] at h1
        exact (List.nodup_cons.1 hnd2).1 (List.mem_cons_of_mem _ h1)
      · intro he
        have h1 : z.1 ∈ suf.map Prod.fst := List.mem_map_of_mem _ hz
        rw [he] at h1
        exact (List.nodup_cons.1 (List.nodup_cons.1 hnd2).2).1 h1
  · simp [optFeed.setNext, optFeed.setRemoved, hy, hne.symm]

/-! ### Optimistic feed: the part of Add and Remove run under the write lock -/

theorem nextNilOrSmaller_seg {T : Type} [LinearOrder T] (f : optFeed T)
    (x : Nat × optPost T) (suf : List (Nat × optPost T)) (ts : T)
    (hx : f.heap x.1 = some x.2) (hsuf : optSeg f.heap x.2.next suf none) :
    f.nextNilOrSmaller (some x.1) ts =
      .ok (suf.head?.all (fun y => decide (ts > y.2.timestamp))) := by
  cases suf with
  | nil =>
    have h1 : x.2.next = none := hsuf
    simp [optFeed.nextNilOrSmaller, optFeed.deref, hx, h1]
  | cons y suf =>
    obtain ⟨h1, h2, -⟩ := hsuf
    simp [optFeed.nextNilOrSmaller, optFeed.deref, hx, h1, h2]

/-- The write-locked part of `Add` at a site whose node `x` is in the list: it retries, leaving
the feed as it was, when the successor of `x` is not older than the new post, and otherwise
splices the new node in behind `x`. -/
theorem AddCommit_seg {T : Type} [LinearOrder T] (f : optFeed T)
    (pre suf : List (Nat × optPost T)) (x : Nat × optPost T) (np : Nat) (n0 : optPost T)
    (ts : T) (site : AddSite)
    (h : optSeg f.heap f.start (pre ++ x :: suf) none)
    (hnp : np ∉ (pre ++ x :: suf).map Prod.fst) (hn0 : f.heap np = some n0)
    (hsite : (site = .head ∧ pre = []) ∨ (site = .after x.1 ∧ x.2.removed = false)) :
    (suf.head?.all (fun y => decide (ts > y.2.timestamp)) = false ∧
      f.AddCommit np ts site = .ok (false, f)) ∨
    (suf.head?.all (fun y => decide (ts > y.2.timestamp)) = true ∧
      ∃ f1, f.AddCommit np ts site = .ok (true, f1) ∧ f1.start = f.start ∧
        f1.fresh = f.fresh ∧
        optSeg f1.heap f1.start
          (pre ++ (x.1, { x.2 with next := some np }) :: (np, { n0 with next := x.2.next }) :: suf)
          none ∧
        ∀ a, a ≠ x.1 → a ≠ np → f1.heap a = f.heap a) := by
  obtain ⟨hx, hsuf, hpre⟩ := optSeg_split_next h
  have hnil := nextNilOrSmaller_seg f x suf ts hx hsuf
  obtain ⟨f1, h1, h2, h3, h4, h5⟩ := spliceAfter_seg f f.start pre suf x np n0 h hnp hn0
  rw [← h2] at h4
  rcases hsite with ⟨rfl, rfl⟩ | ⟨rfl, hrem⟩
  · have hstart : f.start = some x.1 := hpre
    cases hb : suf.head?.all (fun y => decide (ts > y.2.timestamp)) with
    | false =>
      left
      rw [hb] at hnil
      refine ⟨rfl, ?_⟩
      simp only [optFeed.AddCommit, hstart, hnil]
    | true =>
      right
      rw [hb] at hnil
      refine ⟨rfl, f1, ?_, h2, h3, h4, h5⟩
      simp only [optFeed.AddCommit, hstart, hnil, h1]
  · cases hb : suf.head?.all (fun y => decide (ts > y.2.timestamp)) with
    | false =>
      left
      rw [hb] at hnil
      refine ⟨rfl, ?_⟩
      simp [optFeed.AddCommit, optFeed.deref, hx, hrem, hnil]
    | true =>
      right
      rw [hb] at hnil
      refine ⟨rfl, f1, ?_, h2, h3, h4, h5⟩
      simp [optFeed.AddCommit, optFeed.deref, hx, hrem, hnil, h1]

theorem AddCommit_removed {T : Type} [LinearOrder T] (f : optFeed T) (np : Nat) (ts : T)
    (curPost : Nat) (cur : optPost T) (hcur : f.heap curPost = some cur)
    (hrem : cur.removed = true) : f.AddCommit np ts (.after curPost) = .ok (false, f) := by
  simp [optFeed.AddCommit, optFeed.deref, hcur, hrem]

/-- The write-locked part of `Remove` at a site whose node `x` is in the list (for the site
`head`, with a first post behind the sentinel): it reports failure at the end of the list,
retries when the successor of `x` has another timestamp, and otherwise unlinks the successor. -/
theorem RemoveCommit_seg {T : Type} [LinearOrder T] (f : optFeed T)
    (pre suf : List (Nat × optPost T)) (x : Nat × optPost T) (ts : T) (site : RemoveSite)
    (h : optSeg f.heap f.start (pre ++ x :: suf) none)
    (hsite : (site = .head ∧ pre = [] ∧ suf ≠ []) ∨ (site = .after x.1 ∧ x.2.removed = false)) :
    (suf = [] ∧ f.RemoveCommit ts site = .ok (some false, f)) ∨
    (∃ y suf1, suf = y :: suf1 ∧ ts ≠ y.2.timestamp ∧ f.RemoveCommit ts site = .ok (none, f)) ∨
    (∃ y suf1, suf = y :: suf1 ∧ ts = y.2.timestamp ∧
      ∃ f1, f.RemoveCommit ts site = .ok (some true, f1) ∧ f1.start = f.start ∧
        f1.fresh = f.fresh ∧
        optSeg f1.heap f1.start (pre ++ (x.1, { x.2 with next := y.2.next }) :: suf1) none ∧
        f1.heap y.1 = some { y.2 with removed := true } ∧
        ∀ a, a ≠ x.1 → a ≠ y.1 → f1.heap a = f.heap a) := by
  obtain ⟨hx, hsuf, hpre⟩ := optSeg_split_next h
  cases suf with
  | nil =>
    left
    have hn : x.2.next = none := hsuf
    rcases hsite with ⟨-, -, hne⟩ | ⟨rfl, hrem⟩
    · exact absurd rfl hne
    · refine ⟨rfl, ?_⟩
      simp [optFeed.RemoveCommit, optFeed.deref, hx, hrem, hn]
  | cons y suf1 =>
    right
    obtain ⟨hn, hy, -⟩ := hsuf
    obtain ⟨f1, h1, h2, h3, h4, h5, h6⟩ := unlinkAfter_seg f f.start pre suf1 x y h
    rw [← h2] at h4
    by_cases hts : ts = y.2.timestamp
    · right
      refine ⟨y, suf1, rfl, hts, f1, ?_, h2, h3, h4, h5, h6⟩
      rcases hsite with ⟨rfl, rfl, -⟩ | ⟨rfl, hrem⟩
      · have hstart : f.start = some x.1 := hpre
        simp [optFeed.RemoveCommit, optFeed.deref, hstart, hx, hn, hy, hts, h1]
      · simp [optFeed.RemoveCommit, optFeed.deref, hx, hrem, hn, hy, hts, h1]
    · left
      refine ⟨y, suf1, rfl, hts, ?_⟩
      rcases hsite with ⟨rfl, rfl, -⟩ | ⟨rfl, hrem⟩
      · have hstart : f.start = some x.1 := hpre
        simp [optFeed.RemoveCommit, optFeed.deref, hstart, hx, hn, hy, hts]
      · simp [optFeed.RemoveCommit, optFeed.deref, hx, hrem, hn, hy, hts]

theorem RemoveCommit_removed {T : Type} [LinearOrder T] (f : optFeed T) (ts : T)
    (curPost : Nat) (cur : optPost T) (hcur : f.heap curPost = some cur)
    (hrem : cur.removed = true) : f.RemoveCommit ts (.after curPost) = .ok (none, f) := by
  simp [optFeed.RemoveCommit, optFeed.deref, hcur, hrem]

theorem pairwise_insert_desc {T : Type} [LinearOrder T] (A B : List T) (t : T)
    (h : (A ++ B).Pairwise (· ≥ ·)) (hA : ∀ a ∈ A, a ≥ t)
    (hB : ∀ b, B.head? = some b → t ≥ b) : (A ++ t :: B).Pairwise (· ≥ ·) := by
  rw [List.pairwise_append] at h ⊢
  obtain ⟨h1, h2, h3⟩ := h
  have hB2 : ∀ b ∈ B, t ≥ b := by
    intro b hb
    cases B with
    | nil => cases hb
    | cons b0 B1 =>
      have h4 : t ≥ b0 := hB b0 rfl
      rcases List.mem_cons.1 hb with rfl | hb1
      · exact h4
      · exact le_trans ((List.pairwise_cons.1 h2).1 b hb1) h4
  refine ⟨h1, List.pairwise_cons.2 ⟨hB2, h2⟩, ?_⟩
  intro a ha b hb
  rcases List.mem_cons.1 hb with rfl | hb1
  · exact hA a ha
  · exact h3 a ha b hb1

/-- The list after a validated splice behind the node `x`, read from the first post on. -/
theorem splice_sorted {T : Type} [LinearOrder T] (s : Nat × optPost T)
    (l pre0 suf : List (Nat × optPost T)) (x : Nat × optPost T) (np : Nat) (n0 : optPost T)
    (ts : T) (hL : s :: l = pre0 ++ x :: suf)
    (hsorted : (l.map fun y => y.2.timestamp).Pairwise (· ≥ ·))
    (hn0 : n0.timestamp = ts) (hts : pre0 ≠ [] → ts ≤ x.2.timestamp)
    (hhead : suf.head?.all (fun y => decide (ts > y.2.timestamp)) = true) :
    ∃ s1 l1,
      pre0 ++ (x.1, { x.2 with next := some np }) :: (np, { n0 with next := x.2.next }) :: suf =
        s1 :: l1 ∧
      (l1.map fun y => y.2.timestamp).Pairwise (· ≥ ·) ∧
      ∃ pre suf2, l = pre ++ suf2 ∧
        l1.map (fun y => y.2.content) =
          pre.map (fun y => y.2.content) ++ n0.content :: suf2.map (fun y => y.2.content) := by
  have hB : ∀ b, (suf.map fun y => y.2.timestamp).head? = some b → ts ≥ b := by
    intro b hb
    cases suf with
    | nil => cases hb
    | cons y suf1 =>
      simp at hb hhead
      rw [← hb]
      exact le_of_lt hhead
  cases pre0 with
  | nil =>
    simp only [List.nil_append, List.cons.injEq] at hL
    obtain ⟨rfl, rfl⟩ := hL
    refine ⟨_, _, rfl, ?_, [], l, rfl, ?_⟩
    · have := pairwise_insert_desc [] (l.map fun y => y.2.timestamp) ts (by simpa using hsorted)
        (by simp) hB
      simpa [hn0] using this
    · simp [optPost.content]
  | cons s0 pre1 =>
    simp only [List.cons_append, List.cons.injEq] at hL
    obtain ⟨rfl, rfl⟩ := hL
    have hx := hts (by simp)
    refine ⟨_, _, rfl, ?_, pre1 ++ [x], suf, by simp, ?_⟩
    · have h1 : ((pre1 ++ [x]).map (fun y => y.2.timestamp) ++
          suf.map (fun y => y.2.timestamp)).Pairwise (· ≥ ·) := by
        simpa using hsorted
      have hA : ∀ a ∈ (pre1 ++ [x]).map (fun y => y.2.timestamp), a ≥ ts := by
        intro a ha
        rw [List.map_append, List.mem_append] at ha
        rcases ha with ha | ha
        · have h2 : (pre1.map (fun y => y.2.timestamp) ++
              (x :: suf).map (fun y => y.2.timestamp)).Pairwise (· ≥ ·) := by
            simpa using hsorted
          exact le_trans hx
            ((List.pairwise_append.1 h2).2.2 a ha x.2.timestamp (by simp))
        · simp at ha
          rw [ha]; exact hx
      have := pairwise_insert_desc _ _ ts h1 hA hB
      simpa [hn0] using this
    · simp [optPost.content]

/-- The list after an unlink behind the node `x`, read from the first post on. -/
theorem unlink_sorted {T : Type} [LinearOrder T] (s : Nat × optPost T)
    (l pre0 suf1 : List (Nat × optPost T)) (x y : Nat × optPost T)
    (hL : s :: l = pre0 ++ x :: y :: suf1)
    (hsorted : (l.map fun z => z.2.timestamp).Pairwise (· ≥ ·)) :
    ∃ s1 l1,
      pre0 ++ (x.1, { x.2 with next := y.2.next }) :: suf1 = s1 :: l1 ∧
      (l1.map fun z => z.2.timestamp).Pairwise (· ≥ ·) ∧
      ∃ pre suf, l = pre ++ y :: suf ∧
        l1.map (fun z => z.2.content) = (pre ++ suf).map (fun z => z.2.content) := by
  cases pre0 with
  | nil =>
    simp only [List.nil_append, List.cons.injEq] at hL
    obtain ⟨rfl, rfl⟩ := hL
    refine ⟨_, _, rfl, ?_, [], suf1, rfl, by simp⟩
    rw [List.map_cons] at hsorted
    exact (List.pairwise_cons.1 hsorted).2
  | cons s0 pre1 =>
    simp only [List.cons_append, List.cons.injEq] at hL
    obtain ⟨rfl, rfl⟩ := hL
    refine ⟨_, _, rfl, ?_, pre1 ++ [x], suf1, by simp, by simp [optPost.content]⟩
    have hsub : (pre1 ++ x :: suf1).Sublist (pre1 ++ x :: y :: suf1) :=
      List.Sublist.append_left (List.Sublist.cons₂ _ (List.sublist_cons_self _ _)) _
    have h1 := hsorted.sublist (hsub.map _)
    simpa using h1

/-- Claim C23: the part of `Add` and of `Remove` run under the write lock, on any feed whose
posts behind the sentinel are sorted by non-increasing timestamp, with a new node that is not
linked, and with a located node `curPost` that is in the list unless it is marked removed.
`AddCommit` (at the head, or behind `curPost` when `curPost` is not older than the new post) and
`RemoveCommit` (on the empty site, at the head of a non-empty feed, or behind `curPost`) return
without fault; when the validation fails the feed is returned unchanged; when it passes, the
list is the old one with the new post inserted, respectively with one post of the given
timestamp taken out, and it is again sorted by non-increasing timestamp. -/
theorem optFeed_commit_keeps_sorted {T : Type} [LinearOrder T] (f : optFeed T)
    (s : Nat × optPost T) (l : List (Nat × optPost T)) (np : Nat) (n0 : optPost T) (ts : T)
    (curPost : Nat) (cur : optPost T)
    (hlist : optSeg f.heap f.start (s :: l) none)
    (hsorted : (l.map fun y => y.2.timestamp).Pairwise (· ≥ ·))
    (hnp : f.heap np = some n0) (hnew : np ∉ (s :: l).map Prod.fst) (hn0 : n0.timestamp = ts)
    (hcur : f.heap curPost = some cur)
    (hremoved : cur.removed = false → curPost ∈ (s :: l).map Prod.fst) :
    (∀ site : AddSite, (site = .head ∨ (site = .after curPost ∧ ts ≤ cur.timestamp)) →
      ∃ b f1, f.AddCommit np ts site = .ok (b, f1) ∧ (b = false → f1 = f) ∧
        (b = true → ∃ s1 l1, optSeg f1.heap f1.start (s1 :: l1) none ∧
          (l1.map fun y => y.2.timestamp).Pairwise (· ≥ ·) ∧
          ∃ pre suf, l = pre ++ suf ∧
            l1.map (fun y => y.2.content) =
              pre.map (fun y => y.2.content) ++ n0.content :: suf.map (fun y => y.2.content))) ∧
    (∀ site : RemoveSite,
      (site = .empty ∨ (site = .head ∧ l ≠ []) ∨ site = .after curPost) →
      ∃ r f1, f.RemoveCommit ts site = .ok (r, f1) ∧ (r ≠ some true → f1 = f) ∧
        (r = some true → ∃ s1 l1, optSeg f1.heap f1.start (s1 :: l1) none ∧
          (l1.map fun y => y.2.timestamp).Pairwise (· ≥ ·) ∧
          ∃ pre y suf, l = pre ++ y :: suf ∧ y.2.timestamp = ts ∧
            l1.map (fun z => z.2.content) = (pre ++ suf).map (fun z => z.2.content))) := by
  -- the located node, when it is not marked removed, splits the list
  have hsplit : cur.removed = false →
      ∃ pre0 x suf, s :: l = pre0 ++ x :: suf ∧ x.1 = curPost ∧ x.2 = cur := by
    intro hrem
    obtain ⟨x, hx, hxc⟩ := List.mem_map.1 (hremoved hrem)
    obtain ⟨pre0, suf, hL⟩ := List.append_of_mem hx
    refine ⟨pre0, x, suf, hL, hxc, ?_⟩
    have h1 := optSeg_mem_heap _ _ _ hlist x hx
    rw [hxc, hcur] at h1
    exact (Option.some.inj h1).symm
  have hadd : ∀ (site : AddSite) (pre0 suf : List (Nat × optPost T)) (x : Nat × optPost T),
      s :: l = pre0 ++ x :: suf → (pre0 ≠ [] → ts ≤ x.2.timestamp) →
      ((site = .head ∧ pre0 = []) ∨ (site = .after x.1 ∧ x.2.removed = false)) →
      ∃ b f1, f.AddCommit np ts site = .ok (b, f1) ∧ (b = false → f1 = f) ∧
        (b = true → ∃ s1 l1, optSeg f1.heap f1.start (s1 :: l1) none ∧
          (l1.map fun y => y.2.timestamp).Pairwise (· ≥ ·) ∧
          ∃ pre suf, l = pre ++ suf ∧
            l1.map (fun y => y.2.content) =
              pre.map (fun y => y.2.content) ++ n0.content :: suf.map (fun y => y.2.content)) := by
    intro site pre0 suf x hL hts hsite
    rw [hL] at hlist hnew
    rcases AddCommit_seg f pre0 suf x np n0 ts site hlist hnew hnp hsite with
      ⟨-, h2⟩ | ⟨h1, f1, h2, -, -, h3, -⟩
    · exact ⟨false, f, h2, fun _ => rfl, (fun h => by cases h)⟩
    · obtain ⟨s1, l1, h4, h5, h6⟩ := splice_sorted s l pre0 suf x np n0 ts hL hsorted hn0 hts h1
      rw [h4] at h3
      exact ⟨true, f1, h2, (fun h => by cases h), fun _ => ⟨s1, l1, h3, h5, h6⟩⟩
  have hrem : ∀ (site : RemoveSite) (pre0 suf : List (Nat × optPost T)) (x : Nat × optPost T),
      s :: l = pre0 ++ x :: suf →
      ((site = .head ∧ pre0 = [] ∧ suf ≠ []) ∨ (site = .after x.1 ∧ x.2.removed = false)) →
      ∃ r f1, f.RemoveCommit ts site = .ok (r, f1) ∧ (r ≠ some true → f1 = f) ∧
        (r = some true → ∃ s1 l1, optSeg f1.heap f1.start (s1 :: l1) none ∧
          (l1.map fun y => y.2.timestamp).Pairwise (· ≥ ·) ∧
          ∃ pre y suf, l = pre ++ y :: suf ∧ y.2.timestamp = ts ∧
            l1.map (fun z => z.2.content) = (pre ++ suf).map (fun z => z.2.content)) := by
    intro site pre0 suf x hL hsite
    rw [hL] at hlist
    rcases RemoveCommit_seg f pre0 suf x ts site hlist hsite with
      ⟨-, h2⟩ | ⟨y, suf1, -, -, h2⟩ | ⟨y, suf1, rfl, h1, f1, h2, -, -, h3, -, -⟩
    · exact ⟨some false, f, h2, fun _ => rfl, (fun h => by cases h)⟩
    · exact ⟨none, f, h2, fun _ => rfl, (fun h => by cases h)⟩
    · obtain ⟨s1, l1, h4, h5, pre, suf, h6, h7⟩ := unlink_sorted s l pre0 suf1 x y hL hsorted
      rw [h4] at h3
      exact ⟨some true, f1, h2, fun h => absurd rfl h,
        fun _ => ⟨s1, l1, h3, h5, pre, y, suf, h6, h1.symm, h7⟩⟩
  constructor
  · rintro site (rfl | ⟨rfl, hts⟩)
    · exact hadd .head [] l s rfl (fun h => absurd rfl h) (Or.inl ⟨rfl, rfl⟩)
    · cases hr : cur.removed with
      | true =>
        exact ⟨false, f, AddCommit_removed f np ts curPost cur hcur hr, fun _ => rfl,
          (fun h => by cases h)⟩
      | false =>
        obtain ⟨pre0, x, suf, hL, rfl, rfl⟩ := hsplit hr
        exact hadd _ pre0 suf x hL (fun _ => hts) (Or.inr ⟨rfl, hr⟩)
  · rintro site (rfl | ⟨rfl, hne⟩ | rfl)
    · exact ⟨some false, f, rfl, fun _ => rfl, (fun h => by cases h)⟩
    · exact hrem .head [] l s rfl (Or.inl ⟨rfl, rfl, hne⟩)
    · cases hr : cur.removed with
      | true =>
        exact ⟨none, f, RemoveCommit_removed f ts curPost cur hcur hr, fun _ => rfl,
          (fun h => by cases h)⟩
      | false =>
        obtain ⟨pre0, x, suf, hL, rfl, rfl⟩ := hsplit hr
        exact hrem _ pre0 suf x hL (Or.inr ⟨rfl, hr⟩)

/-- Claim C23 at a concrete feed: the feed `[a/5]` with the unlinked new node `c/4` at address
`2`; the site located is behind the post `a/5` at address `1`. -/
theorem optFeed_commit_keeps_sorted_witness :
    ∃ b f1,
      ((((NewOptFeed (T := ℚ)).newPost "a" 5).2.setNext 0 (some 1)).newPost "c" 4).2.AddCommit
        2 4 (.after 1) = .ok (b, f1) ∧
      (b = true → ∃ s1 l1, optSeg f1.heap f1.start (s1 :: l1) none ∧
        (l1.map fun y => y.2.timestamp).Pairwise (· ≥ ·)) :=
  let ⟨b, f1, h1, _, h3⟩ :=
    (optFeed_commit_keeps_sorted
      ((((NewOptFeed (T := ℚ)).newPost "a" 5).2.setNext 0 (some 1)).newPost "c" 4).2
      (0, { body := "", timestamp := -1, next := some 1, removed := false })
      [(1, { body := "a", timestamp := 5, next := none, removed := false })]
      2 { body := "c", timestamp := 4, next := none, removed := false } 4
      1 { body := "a", timestamp := 5, next := none, removed := false }
      ⟨rfl, rfl, rfl, rfl, rfl⟩ (by simp) rfl (by decide) rfl rfl (fun _ => by decide)).1
      (.after 1) (Or.inr ⟨rfl, by norm_num⟩)
  ⟨b, f1, h1, fun hb => let ⟨s1, l1, h4, h5, _⟩ := h3 hb; ⟨s1, l1, h4, h5⟩⟩

/-- Claim C24: on any feed with a new node that is not linked and a located node `curPost` that
is in the list unless it is marked removed, whenever the write-locked part of `Add` validates
its site and splices the new node in, the site is not behind a removed node, every node of the
list is still in the list, the new node is in the list, and the next `ReturnFeed()` returns
(within as many iterations as the list has posts) a snapshot that holds the new post. -/
theorem optFeed_Add_no_lost_insert {T : Type} [LinearOrder T] (f : optFeed T)
    (l : List (Nat × optPost T)) (np : Nat) (n0 : optPost T) (ts : T)
    (curPost : Nat) (cur : optPost T) (site : AddSite) (f1 : optFeed T)
    (hlist : optSeg f.heap f.start l none)
    (hnp : f.heap np = some n0) (hnew : np ∉ l.map Prod.fst)
    (hcur : f.heap curPost = some cur)
    (hremoved : cur.removed = false → curPost ∈ l.map Prod.fst)
    (hsite : site = .head ∨ site = .after curPost)
    (hcommit : f.AddCommit np ts site = .ok (true, f1)) :
    (site = .after curPost → cur.removed = false ∧ curPost ∈ l.map Prod.fst) ∧
    ∃ l1, optSeg f1.heap f1.start l1 none ∧ np ∈ l1.map Prod.fst ∧
      (∀ a ∈ l.map Prod.fst, a ∈ l1.map Prod.fst) ∧
      ∀ fuel, l1.length ≤ fuel + 1 →
        ∃ ps, f1.ReturnFeed fuel = .ok ps ∧ n0.content ∈ ps := by
  have hkey : ∀ (pre0 suf : List (Nat × optPost T)) (x : Nat × optPost T),
      l = pre0 ++ x :: suf →
      ((site = .head ∧ pre0 = []) ∨ (site = .after x.1 ∧ x.2.removed = false)) →
      ∃ l1, optSeg f1.heap f1.start l1 none ∧ np ∈ l1.map Prod.fst ∧
        (∀ a ∈ l.map Prod.fst, a ∈ l1.map Prod.fst) ∧
        ∀ fuel, l1.length ≤ fuel + 1 →
          ∃ ps, f1.ReturnFeed fuel = .ok ps ∧ n0.content ∈ ps := by
    intro pre0 suf x hL hs
    rw [hL] at hlist hnew
    rcases AddCommit_seg f pre0 suf x np n0 ts site hlist hnew hnp hs with
      ⟨-, h2⟩ | ⟨-, f2, h2, -, -, h3, -⟩
    · rw [h2] at hcommit; cases hcommit
    · rw [h2] at hcommit
      cases hcommit
      refine ⟨_, h3, by simp, ?_, ?_⟩
      · intro a ha
        rw [hL] at ha
        simp only [List.map_append, List.map_cons, List.mem_append, List.mem_cons] at ha ⊢
        tauto
      · intro fuel hlen
        have hch := optSeg_chain _ _ h3
        cases pre0 with
        | nil =>
          rw [List.nil_append, List.map_cons] at hch
          refine ⟨_, optFeed_ReturnFeed_chain f1 _ _ fuel hch (by simpa using hlen), ?_⟩
          simp [optPost.content]
        | cons s0 pre1 =>
          rw [List.cons_append, List.map_cons] at hch
          refine ⟨_, optFeed_ReturnFeed_chain f1 _ _ fuel hch (by simpa using hlen), ?_⟩
          simp [optPost.content]
  have hnotrem : site = .after curPost → cur.removed = false := by
    intro hs
    cases hr : cur.removed with
    | false => rfl
    | true =>
      rw [hs, AddCommit_removed f np ts curPost cur hcur hr] at hcommit
      cases hcommit
  refine ⟨fun hs => ⟨hnotrem hs, hremoved (hnotrem hs)⟩, ?_⟩
  rcases hsite with rfl | rfl
  · cases l with
    | nil =>
      have h1 : f.start = none := hlist
      simp [optFeed.AddCommit, optFeed.nextNilOrSmaller, optFeed.deref, h1] at hcommit
    | cons s l0 => exact hkey [] l0 s rfl (Or.inl ⟨rfl, rfl⟩)
  · have hr := hnotrem rfl
    obtain ⟨x, hx, hxc⟩ := List.mem_map.1 (hremoved hr)
    obtain ⟨pre0, suf, hL⟩ := List.append_of_mem hx
    have h1 := optSeg_mem_heap _ _ _ hlist x hx
    rw [hxc, hcur] at h1
    have h2 : x.2 = cur := (Option.some.inj h1).symm
    subst hxc
    exact hkey pre0 suf x hL (Or.inr ⟨rfl, by rw [h2]; exact hr⟩)

/-- Claim C24 at a concrete feed: the feed `[a/5]` with the unlinked new node `c/4` at address
`2`, spliced in behind the post `a/5`. -/
theorem optFeed_Add_no_lost_insert_witness :
    ((((NewOptFeed (T := ℚ)).newPost "a" 5).2.setNext 0 (some 1)).newPost "c" 4).2.AddCommit
        2 4 (.after 1) =
      .ok (true, ((((((NewOptFeed (T := ℚ)).newPost "a" 5).2.setNext 0 (some 1)).newPost
        "c" 4).2.setNext 2 none).setNext 1 (some 2))) ∧
    ∃ l1, optSeg ((((((NewOptFeed (T := ℚ)).newPost "a" 5).2.setNext 0 (some 1)).newPost
          "c" 4).2.setNext 2 none).setNext 1 (some 2)).heap (some 0) l1 none ∧
      2 ∈ l1.map Prod.fst :=
  ⟨rfl,
   let ⟨l1, h1, h2, _⟩ :=
    (optFeed_Add_no_lost_insert
      ((((NewOptFeed (T := ℚ)).newPost "a" 5).2.setNext 0 (some 1)).newPost "c" 4).2
      [(0, { body := "", timestamp := -1, next := some 1, removed := false }),
       (1, { body := "a", timestamp := 5, next := none, removed := false })]
      2 { body := "c", timestamp := 4, next := none, removed := false } 4
      1 { body := "a", timestamp := 5, next := none, removed := false } (.after 1)
      ((((((NewOptFeed (T := ℚ)).newPost "a" 5).2.setNext 0 (some 1)).newPost
        "c" 4).2.setNext 2 none).setNext 1 (some 2))
      ⟨rfl, rfl, rfl, rfl, rfl⟩ rfl (by decide) rfl (fun _ => by decide) (Or.inr rfl) rfl).2
   ⟨l1, h1, h2⟩⟩

/-! ### Optimistic feed shared by threads -/

theorem optSeg_next_mem {T : Type} {heap : Nat → Option (optPost T)} {p : Ptr}
    {l : List (Nat × optPost T)} (h : optSeg heap p l none) {a nx : Nat} {n : optPost T}
    (ha : a ∈ l.map Prod.fst) (hn : heap a = some n) (hnx : n.next = some nx) :
    nx ∈ l.map Prod.fst ∧ ∃ m, heap nx = some m := by
  obtain ⟨x, hx, rfl⟩ := List.mem_map.1 ha
  obtain ⟨pre, suf, rfl⟩ := List.append_of_mem hx
  obtain ⟨h1, h2, -⟩ := optSeg_split_next h
  rw [hn] at h1
  cases Option.some.inj h1
  rw [hnx] at h2
  cases suf with
  | nil => cases h2
  | cons y suf =>
    obtain ⟨h3, h4, -⟩ := h2
    cases Option.some.inj h3
    exact ⟨by simp, _, h4⟩

theorem optAddLoop_mem {T : Type} [LinearOrder T] (f : optFeed T) (ts : T) {p : Ptr}
    {l : List (Nat × optPost T)} (h : optSeg f.heap p l none) :
    ∀ (fuel a c : Nat), a ∈ l.map Prod.fst → optAddLoop f ts fuel a = .ok c →
      c ∈ l.map Prod.fst := by
  intro fuel
  induction fuel with
  | zero => intro a c _ hc; cases hc
  | succ fuel ih =>
    intro a c ha hc
    obtain ⟨x, hx, rfl⟩ := List.mem_map.1 ha
    have hxa := optSeg_mem_heap _ _ _ h x hx
    simp only [optAddLoop, optFeed.deref, hxa] at hc
    cases hn : x.2.next with
    | none =>
      simp only [hn] at hc
      cases hc
      exact ha
    | some nx =>
      obtain ⟨h1, m, h2⟩ := optSeg_next_mem h ha hxa hn
      simp only [hn, h2] at hc
      split at hc
      · exact ih nx c h1 hc
      · cases hc
        exact ha

theorem optRemoveLoop_mem {T : Type} [LinearOrder T] (f : optFeed T) (ts : T) {p : Ptr}
    {l : List (Nat × optPost T)} (h : optSeg f.heap p l none) :
    ∀ (fuel a c : Nat), a ∈ l.map Prod.fst → optRemoveLoop f ts fuel a = .ok c →
      c ∈ l.map Prod.fst := by
  intro fuel
  induction fuel with
  | zero => intro a c _ hc; cases hc
  | succ fuel ih =>
    intro a c ha hc
    obtain ⟨x, hx, rfl⟩ := List.mem_map.1 ha
    have hxa := optSeg_mem_heap _ _ _ h x hx
    simp only [optRemoveLoop, optFeed.deref, hxa] at hc
    cases hn : x.2.next with
    | none =>
      simp only [hn] at hc
      cases hc
      exact ha
    | some nx =>
      obtain ⟨h1, m, h2⟩ := optSeg_next_mem h ha hxa hn
      simp only [hn, h2] at hc
      split at hc
      · exact ih nx c h1 hc
      · cases hc
        exact ha

/-- The node found by the traversal of `Add` is a node of the list. -/
theorem AddLocate_mem {T : Type} [LinearOrder T] (f : optFeed T) (ts : T) (fuel c : Nat)
    {l : List (Nat × optPost T)} (h : optSeg f.heap f.start l none)
    (hc : f.AddLocate ts fuel = .ok (.after c)) : c ∈ l.map Prod.fst := by
  cases l with
  | nil =>
    have h1 : f.start = none := h
    simp [optFeed.AddLocate, optFeed.nextNilOrSmaller, optFeed.deref, h1] at hc
  | cons x l0 =>
    have h0 := h
    obtain ⟨h1, h2, h3⟩ := h0
    cases hn : x.2.next with
    | none =>
      simp [optFeed.AddLocate, optFeed.nextNilOrSmaller, optFeed.deref, h1, h2, hn] at hc
    | some first =>
      obtain ⟨h4, m, h5⟩ := optSeg_next_mem h (List.mem_map_of_mem _ (List.mem_cons_self _ _)) h2 hn
      simp only [optFeed.AddLocate, optFeed.nextNilOrSmaller, optFeed.deref, h1, h2, hn, h5] at hc
      split at hc
      · cases hc
      · cases hc
      · split at hc
        · cases hc
        · cases hc
          rename_i hloop
          exact optAddLoop_mem f ts h fuel first _ h4 hloop

/-- The node found by the traversal of `Remove` is a node of the list. -/
theorem RemoveLocate_mem {T : Type} [LinearOrder T] (f : optFeed T) (ts : T) (fuel c : Nat)
    {l : List (Nat × optPost T)} (h : optSeg f.heap f.start l none)
    (hc : f.RemoveLocate ts fuel = .ok (.after c)) : c ∈ l.map Prod.fst := by
  cases l with
  | nil =>
    have h1 : f.start = none := h
    simp [optFeed.RemoveLocate, optFeed.deref, h1] at hc
  | cons x l0 =>
    have h0 := h
    obtain ⟨h1, h2, h3⟩ := h0
    cases hn : x.2.next with
    | none =>
      simp [optFeed.RemoveLocate, optFeed.deref, h1, h2, hn] at hc
    | some first =>
      obtain ⟨h4, m, h5⟩ := optSeg_next_mem h (List.mem_map_of_mem _ (List.mem_cons_self _ _)) h2 hn
      simp only [optFeed.RemoveLocate, optFeed.deref, h1, h2, hn, h5] at hc
      split at hc
      · cases hc
      · split at hc
        · cases hc
        · cases hc
          rename_i hloop
          exact optRemoveLoop_mem f ts h fuel first _ h4 hloop

theorem AddCommit_false {T : Type} [LinearOrder T] (f f1 : optFeed T) (np : Nat) (ts : T)
    (site : AddSite) (h : f.AddCommit np ts site = .ok (false, f1)) : f1 = f := by
  cases site with
  | head =>
    simp only [optFeed.AddCommit] at h
    split at h
    · cases h
    · cases h; rfl
    · split at h
      · cases h
      · split at h <;> cases h
  | after c =>
    simp only [optFeed.AddCommit] at h
    split at h
    · cases h
    · split at h
      · cases h; rfl
      · split at h
        · cases h
        · cases h; rfl
        · split at h <;> cases h

theorem RemoveCommit_not_true {T : Type} [LinearOrder T] (f f1 : optFeed T) (ts : T)
    (site : RemoveSite) (r : Option Bool) (h : f.RemoveCommit ts site = .ok (r, f1))
    (hr : r ≠ some true) : f1 = f := by
  cases site with
  | empty => cases h; rfl
  | head =>
    simp only [optFeed.RemoveCommit] at h
    split at h
    · cases h
    · split at h
      · cases h
      · split at h
        · split at h
          · split at h
            · cases h
            · cases h; exact absurd rfl hr
          · cases h
        · cases h; rfl
  | after c =>
    simp only [optFeed.RemoveCommit] at h
    split at h
    · cases h
    · split at h
      · cases h; rfl
      · split at h
        · cases h; rfl
        · split at h
          · cases h
          · split at h
            · split at h
              · cases h
              · cases h; exact absurd rfl hr
            · cases h; rfl

theorem Inv_allocated_lt {T : Type} [Neg T] [One T] {s : optShared T}
    {l : List (Nat × optPost T)} (hinv : s.Inv l) {a : Nat} {n : optPost T}
    (ha : s.f.heap a = some n) : a < s.f.fresh := by
  by_contra hlt
  have := hinv.2.2.2.2.1 a (by omega)
  rw [this] at ha
  cases ha

/-- A move of thread `i` that leaves the feed as it is. -/
theorem Inv_setOp_same_feed {T : Type} [Neg T] [One T] {s : optShared T}
    {l : List (Nat × optPost T)} (hinv : s.Inv l) (i : Nat) (op1 : Option (optOp T))
    (hN : ∀ o np, op1 = some o → o.newNode = some np →
      ∃ o0, s.ops i = some o0 ∧ o0.newNode = some np)
    (hL : ∀ o c, op1 = some o → o.located = some c →
      ∃ n, s.f.heap c = some n ∧ (n.removed = false → c ∈ l.map Prod.fst)) :
    (s.setOp s.f i op1).Inv l := by
  obtain ⟨h1, h2, h3, h4, h5, h6, h7⟩ := hinv
  refine ⟨h1, h2, h3, h4, h5, ?_, ?_⟩
  · intro j op np hj hnp
    simp only [optShared.setOp] at hj
    have hold : ∃ j0 o0, s.ops j0 = some o0 ∧ o0.newNode = some np ∧ (j = i → j0 = i) ∧
        (j ≠ i → j0 = j) := by
      by_cases hji : j = i
      · rw [if_pos hji] at hj
        obtain ⟨o0, h8, h9⟩ := hN op np hj hnp
        exact ⟨i, o0, h8, h9, fun _ => rfl, fun h => absurd hji h⟩
      · rw [if_neg hji] at hj
        exact ⟨j, op, hj, hnp, fun h => absurd h hji, fun _ => rfl⟩
    obtain ⟨j0, o0, h8, h9, h10, h11⟩ := hold
    obtain ⟨h12, h13, h14⟩ := h6 j0 o0 np h8 h9
    refine ⟨h12, h13, ?_⟩
    intro k opk hk hknp
    simp only [optShared.setOp] at hk
    by_cases hki : k = i
    · rw [if_pos hki] at hk
      obtain ⟨ok, h15, h16⟩ := hN opk np hk hknp
      have h17 := h14 i ok h15 h16
      by_cases hji : j = i
      · rw [hki, hji]
      · rw [h11 hji] at h17
        exact absurd h17.symm hji
    · rw [if_neg hki] at hk
      have h17 := h14 k opk hk hknp
      by_cases hji : j = i
      · rw [h10 hji] at h17
        exact absurd h17 hki
      · rw [h11 hji] at h17
        exact h17
  · intro j op c hj hc
    simp only [optShared.setOp] at hj
    by_cases hji : j = i
    · rw [if_pos hji] at hj
      exact hL op c hj hc
    · rw [if_neg hji] at hj
      exact h7 j op c hj hc

/-- A move of thread `i` that ends its call and changes the memory, given what the change
keeps. -/
theorem Inv_setOp_none {T : Type} [Neg T] [One T] {s : optShared T}
    {l : List (Nat × optPost T)} (hinv : s.Inv l) (i : Nat) (f1 : optFeed T)
    (l1 : List (Nat × optPost T))
    (hstart : f1.start = s.f.start) (hfresh : f1.fresh = s.f.fresh)
    (hseg : optSeg f1.heap f1.start l1 none)
    (hsent : ∃ sent l0, l1 = (0, sent) :: l0 ∧ sent.body = "" ∧ sent.timestamp = -1)
    (hrem : ∀ x ∈ l1, x.2.removed = false)
    (hnone : ∀ a, s.f.heap a = none → f1.heap a = none)
    (hpend : ∀ j op np, j ≠ i → s.ops j = some op → op.newNode = some np →
      np ∉ l1.map Prod.fst ∧ ∃ n, f1.heap np = some n ∧ n.removed = false)
    (hloc : ∀ j op c, j ≠ i → s.ops j = some op → op.located = some c →
      ∃ n, f1.heap c = some n ∧ (n.removed = false → c ∈ l1.map Prod.fst)) :
    (s.setOp f1 i none).Inv l1 := by
  obtain ⟨h1, h2, h3, h4, h5, h6, h7⟩ := hinv
  refine ⟨hstart.trans h1, ?_, hsent, hrem, ?_, ?_, ?_⟩
  · have := hseg
    rw [hstart, h1] at this
    exact this
  · intro a ha
    exact hnone a (h5 a (by simpa [optShared.setOp, hfresh] using ha))
  · intro j op np hj hnp
    simp only [optShared.setOp] at hj
    by_cases hji : j = i
    · rw [if_pos hji] at hj; cases hj
    · rw [if_neg hji] at hj
      obtain ⟨h8, h9⟩ := hpend j op np hji hj hnp
      refine ⟨h8, h9, ?_⟩
      intro k opk hk hknp
      simp only [optShared.setOp] at hk
      by_cases hki : k = i
      · rw [if_pos hki] at hk; cases hk
      · rw [if_neg hki] at hk
        exact (h6 j op np hj hnp).2.2 k opk hk hknp
  · intro j op c hj hc
    simp only [optShared.setOp] at hj
    by_cases hji : j = i
    · rw [if_pos hji] at hj; cases hj
    · rw [if_neg hji] at hj
      exact hloc j op c hji hj hc

/-- The call `Add` of thread `i`: `newPost` allocates the new node. -/
theorem Inv_callAdd {T : Type} [Neg T] [One T] {s : optShared T}
    {l : List (Nat × optPost T)} (hinv : s.Inv l) (i : Nat) (body : String) (ts : T) :
    (s.setOp (s.f.newPost body ts).2 i (some (.add (s.f.newPost body ts).1 ts none))).Inv l ∧
    ∀ a n, s.f.heap a = some n → (s.f.newPost body ts).2.heap a = some n := by
  have hframe : ∀ a n, s.f.heap a = some n → (s.f.newPost body ts).2.heap a = some n := by
    intro a n ha
    have := Inv_allocated_lt hinv ha
    have hne : a ≠ s.f.fresh := by omega
    simp [optFeed.newPost, hne, ha]
  refine ⟨?_, hframe⟩
  obtain ⟨h1, h2, h3, h4, h5, h6, h7⟩ := hinv
  have hlt : ∀ a ∈ l.map Prod.fst, a < s.f.fresh := by
    intro a ha
    obtain ⟨x, hx, rfl⟩ := List.mem_map.1 ha
    exact Inv_allocated_lt ⟨h1, h2, h3, h4, h5, h6, h7⟩ (optSeg_mem_heap _ _ _ h2 x hx)
  refine ⟨h1, ?_, h3, h4, ?_, ?_, ?_⟩
  · refine optSeg_congr _ _ _ (fun x hx => ?_) h2
    have h8 := optSeg_mem_heap _ _ _ h2 x hx
    show (s.f.newPost body ts).2.heap x.1 = s.f.heap x.1
    rw [hframe _ _ h8, h8]
  · intro a ha
    have h8 : s.f.fresh + 1 ≤ a := ha
    have hne : a ≠ s.f.fresh := by omega
    have h9 := h5 a (by omega)
    simp [optShared.setOp, optFeed.newPost, hne, h9]
  · intro j op np hj hnp
    simp only [optShared.setOp] at hj
    by_cases hji : j = i
    · rw [if_pos hji] at hj
      cases hj
      cases hnp
      refine ⟨fun h => absurd (hlt _ h) (lt_irrefl _),
        ⟨{ body := body, timestamp := ts, next := none, removed := false },
          by simp [optShared.setOp, optFeed.newPost], rfl⟩, ?_⟩
      intro k opk hk hknp
      simp only [optShared.setOp] at hk
      by_cases hki : k = i
      · rw [hki, hji]
      · rw [if_neg hki] at hk
        obtain ⟨-, ⟨n, h8, -⟩, -⟩ := h6 k opk _ hk hknp
        have := Inv_allocated_lt ⟨h1, h2, h3, h4, h5, h6, h7⟩ h8
        simp [optFeed.newPost] at this
    · rw [if_neg hji] at hj
      obtain ⟨h8, ⟨n, h9, h10⟩, h11⟩ := h6 j op np hj hnp
      refine ⟨h8, ⟨n, hframe _ _ h9, h10⟩, ?_⟩
      intro k opk hk hknp
      simp only [optShared.setOp] at hk
      by_cases hki : k = i
      · rw [if_pos hki] at hk
        cases hk
        cases hknp
        have := Inv_allocated_lt ⟨h1, h2, h3, h4, h5, h6, h7⟩ h9
        simp [optFeed.newPost] at this
      · rw [if_neg hki] at hk
        exact h11 k opk hk hknp
  · intro j op c hj hc
    simp only [optShared.setOp] at hj
    by_cases hji : j = i
    · rw [if_pos hji] at hj
      cases hj
      cases hc
    · rw [if_neg hji] at hj
      obtain ⟨n, h8, h9⟩ := h7 j op c hj hc
      exact ⟨n, hframe _ _ h8, h9⟩

/-- A validated splice by thread `i`. -/
theorem Inv_splice {T : Type} [Neg T] [One T] {s : optShared T}
    {pre suf : List (Nat × optPost T)} {x : Nat × optPost T}
    (hinv : s.Inv (pre ++ x :: suf)) (i np : Nat) (o : optOp T) (n0 : optPost T)
    (f1 : optFeed T) (hi : s.ops i = some o) (ho : o.newNode = some np)
    (hn0 : s.f.heap np = some n0)
    (hstart : f1.start = s.f.start) (hfresh : f1.fresh = s.f.fresh)
    (hseg : optSeg f1.heap f1.start
      (pre ++ (x.1, { x.2 with next := some np }) :: (np, { n0 with next := x.2.next }) :: suf)
      none)
    (hframe : ∀ a, a ≠ x.1 → a ≠ np → f1.heap a = s.f.heap a) :
    (s.setOp f1 i none).Inv
      (pre ++ (x.1, { x.2 with next := some np }) :: (np, { n0 with next := x.2.next }) :: suf) ∧
    (∀ a n, s.f.heap a = some n → n.removed = true →
      ∃ n1, f1.heap a = some n1 ∧ n1.removed = true) := by
  have hinv0 := hinv
  obtain ⟨h1, h2, h3, h4, h5, h6, h7⟩ := hinv0
  obtain ⟨hnp1, ⟨n, hnp2, hnp3⟩, hnp4⟩ := h6 i o np hi ho
  rw [hn0] at hnp2
  cases Option.some.inj hnp2
  have hx : s.f.heap x.1 = some x.2 := optSeg_mem_heap _ _ _ h2 x (by simp)
  have hxr : x.2.removed = false := h4 x (by simp)
  have hx1 : f1.heap x.1 = some { x.2 with next := some np } :=
    optSeg_mem_heap _ _ _ hseg (x.1, { x.2 with next := some np }) (by simp)
  have hnp5 : f1.heap np = some { n0 with next := x.2.next } :=
    optSeg_mem_heap _ _ _ hseg (np, { n0 with next := x.2.next }) (by simp)
  have hsub : ∀ a ∈ (pre ++ x :: suf).map Prod.fst, a ∈ (pre ++
      (x.1, { x.2 with next := some np }) :: (np, { n0 with next := x.2.next }) :: suf).map
        Prod.fst := by
    intro a ha
    simp only [List.map_append, List.map_cons, List.mem_append, List.mem_cons] at ha ⊢
    tauto
  have hkeep : ∀ a m, s.f.heap a = some m → ∃ m1, f1.heap a = some m1 ∧
      m1.removed = m.removed := by
    intro a m ha
    by_cases hax : a = x.1
    · subst hax
      rw [hx] at ha
      cases Option.some.inj ha
      exact ⟨{ x.2 with next := some np }, hx1, rfl⟩
    · by_cases hanp : a = np
      · subst hanp
        rw [hn0] at ha
        cases Option.some.inj ha
        exact ⟨{ n0 with next := x.2.next }, hnp5, rfl⟩
      · exact ⟨m, by rw [hframe a hax hanp, ha], rfl⟩
  constructor
  · refine Inv_setOp_none hinv i f1 _ hstart hfresh hseg ?_ ?_ ?_ ?_ ?_
    · obtain ⟨sent, l0, h8, h9, h10⟩ := h3
      cases pre with
      | nil =>
        simp only [List.nil_append, List.cons.injEq] at h8
        obtain ⟨rfl, rfl⟩ := h8
        exact ⟨_, _, rfl, h9, h10⟩
      | cons y pre1 =>
        simp only [List.cons_append, List.cons.injEq] at h8
        obtain ⟨rfl, rfl⟩ := h8
        exact ⟨_, _, rfl, h9, h10⟩
    · intro y hy
      simp only [List.mem_append, List.mem_cons] at hy
      rcases hy with hy | rfl | rfl | hy
      · exact h4 y (by simp [hy])
      · exact hxr
      · exact hnp3
      · exact h4 y (by simp [hy])
    · intro a ha
      have hax : a ≠ x.1 := by
        intro he; rw [he, hx] at ha; cases ha
      have hanp : a ≠ np := by
        intro he; rw [he, hn0] at ha; cases ha
      rw [hframe a hax hanp, ha]
    · intro j op np1 hji hj hnp
      obtain ⟨h8, ⟨m, h9, h10⟩, h11⟩ := h6 j op np1 hj hnp
      have hne : np1 ≠ np := by
        intro he
        rw [he] at hnp
        exact hji (hnp4 j op hj hnp)
      obtain ⟨m1, h12, h13⟩ := hkeep np1 m h9
      refine ⟨?_, m1, h12, by rw [h13, h10]⟩
      intro hmem
      simp only [List.map_append, List.map_cons, List.mem_append, List.mem_cons] at hmem h8
      rcases hmem with hm | hm | hm | hm
      · exact h8 (Or.inl hm)
      · exact h8 (Or.inr (Or.inl hm))
      · exact hne hm
      · exact h8 (Or.inr (Or.inr hm))
    · intro j op c _ hj hc
      obtain ⟨m, h8, h9⟩ := h7 j op c hj hc
      obtain ⟨m1, h12, h13⟩ := hkeep c m h8
      exact ⟨m1, h12, fun h => hsub c (h9 (by rw [← h13, h]))⟩
  · intro a m ha hm
    obtain ⟨m1, h12, h13⟩ := hkeep a m ha
    exact ⟨m1, h12, by rw [h13, hm]⟩

/-- A validated unlink by thread `i`. -/
theorem Inv_unlink {T : Type} [Neg T] [One T] {s : optShared T}
    {pre suf : List (Nat × optPost T)} {x y : Nat × optPost T}
    (hinv : s.Inv (pre ++ x :: y :: suf)) (i : Nat) (f1 : optFeed T)
    (hstart : f1.start = s.f.start) (hfresh : f1.fresh = s.f.fresh)
    (hseg : optSeg f1.heap f1.start (pre ++ (x.1, { x.2 with next := y.2.next }) :: suf) none)
    (hy1 : f1.heap y.1 = some { y.2 with removed := true })
    (hframe : ∀ a, a ≠ x.1 → a ≠ y.1 → f1.heap a = s.f.heap a) :
    (s.setOp f1 i none).Inv (pre ++ (x.1, { x.2 with next := y.2.next }) :: suf) ∧
    (∀ z ∈ pre ++ x :: y :: suf,
      z.1 ∉ (pre ++ (x.1, { x.2 with next := y.2.next }) :: suf).map Prod.fst →
      ∃ n, f1.heap z.1 = some n ∧ n.removed = true) ∧
    (∀ a n, s.f.heap a = some n → n.removed = true →
      ∃ n1, f1.heap a = some n1 ∧ n1.removed = true) := by
  have hinv0 := hinv
  obtain ⟨h1, h2, h3, h4, h5, h6, h7⟩ := hinv0
  have hx : s.f.heap x.1 = some x.2 := optSeg_mem_heap _ _ _ h2 x (by simp)
  have hy : s.f.heap y.1 = some y.2 := optSeg_mem_heap _ _ _ h2 y (by simp)
  have hxr : x.2.removed = false := h4 x (by simp)
  have hx1 : f1.heap x.1 = some { x.2 with next := y.2.next } :=
    optSeg_mem_heap _ _ _ hseg (x.1, { x.2 with next := y.2.next }) (by simp)
  have hkeep : ∀ a m, s.f.heap a = some m → ∃ m1, f1.heap a = some m1 ∧
      (m.removed = true → m1.removed = true) ∧ (a ≠ y.1 → m1.removed = m.removed) := by
    intro a m ha
    by_cases hay : a = y.1
    · subst hay
      rw [hy] at ha
      cases Option.some.inj ha
      exact ⟨{ y.2 with removed := true }, hy1, fun _ => rfl, fun h => absurd rfl h⟩
    · by_cases hax : a = x.1
      · subst hax
        rw [hx] at ha
        cases Option.some.inj ha
        exact ⟨{ x.2 with next := y.2.next }, hx1, fun h => h, fun _ => rfl⟩
      · exact ⟨m, by rw [hframe a hax hay, ha], fun h => h, fun _ => rfl⟩
  refine ⟨?_, ?_, ?_⟩
  · refine Inv_setOp_none hinv i f1 _ hstart hfresh hseg ?_ ?_ ?_ ?_ ?_
    · obtain ⟨sent, l0, h8, h9, h10⟩ := h3
      cases pre with
      | nil =>
        simp only [List.nil_append, List.cons.injEq] at h8
        obtain ⟨rfl, rfl⟩ := h8
        exact ⟨_, _, rfl, h9, h10⟩
      | cons z pre1 =>
        simp only [List.cons_append, List.cons.injEq] at h8
        obtain ⟨rfl, rfl⟩ := h8
        exact ⟨_, _, rfl, h9, h10⟩
    · intro z hz
      simp only [List.mem_append, List.mem_cons] at hz
      rcases hz with hz | rfl | hz
      · exact h4 z (by simp [hz])
      · exact hxr
      · exact h4 z (by simp [hz])
    · intro a ha
      have hax : a ≠ x.1 := by
        intro he; rw [he, hx] at ha; cases ha
      have hay : a ≠ y.1 := by
        intro he; rw [he, hy] at ha; cases ha
      rw [hframe a hax hay, ha]
    · intro j op np1 _ hj hnp
      obtain ⟨h8, ⟨m, h9, h10⟩, h11⟩ := h6 j op np1 hj hnp
      obtain ⟨m1, h12, -, h13⟩ := hkeep np1 m h9
      have hne : np1 ≠ y.1 := by
        intro he; apply h8; rw [he]; simp
      refine ⟨?_, m1, h12, by rw [h13 hne, h10]⟩
      intro hmem
      simp only [List.map_append, List.map_cons, List.mem_append, List.mem_cons] at hmem h8
      tauto
    · intro j op c _ hj hc
      obtain ⟨m, h8, h9⟩ := h7 j op c hj hc
      obtain ⟨m1, h12, -, h13⟩ := hkeep c m h8
      refine ⟨m1, h12, fun h => ?_⟩
      by_cases hcy : c = y.1
      · rw [hcy, hy1] at h12
        cases Option.some.inj h12
        cases h
      · have h14 := h9 (by rw [← h13 hcy, h])
        simp only [List.map_append, List.map_cons, List.mem_append, List.mem_cons] at h14 ⊢
        tauto
  · intro z hz hzn
    simp only [List.mem_append, List.mem_cons] at hz
    simp only [List.map_append, List.map_cons, List.mem_append, List.mem_cons, not_or] at hzn
    rcases hz with hz | rfl | rfl | hz
    · exact absurd (List.mem_map_of_mem _ hz) hzn.1
    · exact absurd rfl hzn.2.1
    · exact ⟨_, hy1, rfl⟩
    · exact absurd (List.mem_map_of_mem _ hz) hzn.2.2
  · intro a m ha hm
    obtain ⟨m1, h12, h13, -⟩ := hkeep a m ha
    exact ⟨m1, h12, h13 hm⟩

theorem AddCommit_true_split {T : Type} [LinearOrder T] [Neg T] [One T] {s : optShared T}
    {l : List (Nat × optPost T)} (hinv : s.Inv l) (i np : Nat) (ts : T) (site : AddSite)
    (f1 : optFeed T) (hi : s.ops i = some (.add np ts (some site)))
    (hc : s.f.AddCommit np ts site = .ok (true, f1)) :
    ∃ pre x suf n0, l = pre ++ x :: suf ∧ s.f.heap np = some n0 ∧ f1.start = s.f.start ∧
      f1.fresh = s.f.fresh ∧
      optSeg f1.heap f1.start
        (pre ++ (x.1, { x.2 with next := some np }) :: (np, { n0 with next := x.2.next }) :: suf)
        none ∧
      ∀ a, a ≠ x.1 → a ≠ np → f1.heap a = s.f.heap a := by
  obtain ⟨h1, h2, h3, h4, h5, h6, h7⟩ := hinv
  obtain ⟨hnp1, ⟨n0, hnp2, -⟩, -⟩ := h6 i _ np hi rfl
  rw [← h1] at h2
  have hkey : ∀ (pre suf : List (Nat × optPost T)) (x : Nat × optPost T),
      l = pre ++ x :: suf →
      ((site = .head ∧ pre = []) ∨ (site = .after x.1 ∧ x.2.removed = false)) →
      ∃ pre x suf n0, l = pre ++ x :: suf ∧ s.f.heap np = some n0 ∧ f1.start = s.f.start ∧
        f1.fresh = s.f.fresh ∧
        optSeg f1.heap f1.start
          (pre ++ (x.1, { x.2 with next := some np }) :: (np, { n0 with next := x.2.next }) :: suf)
          none ∧
        ∀ a, a ≠ x.1 → a ≠ np → f1.heap a = s.f.heap a := by
    intro pre suf x hL hs
    rw [hL] at h2 hnp1
    rcases AddCommit_seg s.f pre suf x np n0 ts site h2 hnp1 hnp2 hs with
      ⟨-, h8⟩ | ⟨-, f2, h8, h9, h10, h11, h12⟩
    · rw [h8] at hc; cases hc
    · rw [h8] at hc
      cases hc
      exact ⟨pre, x, suf, n0, hL, hnp2, h9, h10, h11, h12⟩
  cases site with
  | head =>
    obtain ⟨sent, l0, rfl, -, -⟩ := h3
    exact hkey [] l0 (0, sent) rfl (Or.inl ⟨rfl, rfl⟩)
  | after c =>
    obtain ⟨n, h8, h9⟩ := h7 i _ c hi rfl
    cases hr : n.removed with
    | true =>
      rw [AddCommit_removed s.f np ts c n h8 hr] at hc
      cases hc
    | false =>
      obtain ⟨x, hx, rfl⟩ := List.mem_map.1 (h9 hr)
      obtain ⟨pre, suf, hL⟩ := List.append_of_mem hx
      have h10 := optSeg_mem_heap _ _ _ h2 x hx
      rw [h8] at h10
      cases Option.some.inj h10
      exact hkey pre suf x hL (Or.inr ⟨rfl, hr⟩)

theorem RemoveCommit_true_split {T : Type} [LinearOrder T] [Neg T] [One T] {s : optShared T}
    {l : List (Nat × optPost T)} (hinv : s.Inv l) (i : Nat) (ts : T) (site : RemoveSite)
    (f1 : optFeed T) (hi : s.ops i = some (.remove ts (some site)))
    (hc : s.f.RemoveCommit ts site = .ok (some true, f1)) :
    ∃ pre x y suf, l = pre ++ x :: y :: suf ∧ f1.start = s.f.start ∧
      f1.fresh = s.f.fresh ∧
      optSeg f1.heap f1.start (pre ++ (x.1, { x.2 with next := y.2.next }) :: suf) none ∧
      f1.heap y.1 = some { y.2 with removed := true } ∧
      ∀ a, a ≠ x.1 → a ≠ y.1 → f1.heap a = s.f.heap a := by
  obtain ⟨h1, h2, h3, h4, h5, h6, h7⟩ := hinv
  rw [← h1] at h2
  have hkey : ∀ (pre suf : List (Nat × optPost T)) (x : Nat × optPost T),
      l = pre ++ x :: suf →
      ((site = .head ∧ pre = [] ∧ suf ≠ []) ∨ (site = .after x.1 ∧ x.2.removed = false)) →
      ∃ pre x y suf, l = pre ++ x :: y :: suf ∧ f1.start = s.f.start ∧
        f1.fresh = s.f.fresh ∧
        optSeg f1.heap f1.start (pre ++ (x.1, { x.2 with next := y.2.next }) :: suf) none ∧
        f1.heap y.1 = some { y.2 with removed := true } ∧
        ∀ a, a ≠ x.1 → a ≠ y.1 → f1.heap a = s.f.heap a := by
    intro pre suf x hL hs
    rw [hL] at h2
    rcases RemoveCommit_seg s.f pre suf x ts site h2 hs with
      ⟨-, h8⟩ | ⟨y, suf1, -, -, h8⟩ | ⟨y, suf1, rfl, -, f2, h8, h9, h10, h11, h12, h13⟩
    · rw [h8] at hc; cases hc
    · rw [h8] at hc; cases hc
    · rw [h8] at hc
      cases hc
      exact ⟨pre, x, y, suf1, hL, h9, h10, h11, h12, h13⟩
  cases site with
  | empty => cases hc
  | head =>
    obtain ⟨sent, l0, rfl, -, -⟩ := h3
    cases l0 with
    | nil =>
      obtain ⟨h8, h9, h10⟩ := h2
      have h11 : sent.next = none := h10
      simp [optFeed.RemoveCommit, optFeed.deref, h8, h9, h11] at hc
    | cons y l1 => exact hkey [] (y :: l1) (0, sent) rfl (Or.inl ⟨rfl, rfl, by simp⟩)
  | after c =>
    obtain ⟨n, h8, h9⟩ := h7 i _ c hi rfl
    cases hr : n.removed with
    | true =>
      rw [RemoveCommit_removed s.f ts c n h8 hr] at hc
      cases hc
    | false =>
      obtain ⟨x, hx, rfl⟩ := List.mem_map.1 (h9 hr)
      obtain ⟨pre, suf, hL⟩ := List.append_of_mem hx
      have h10 := optSeg_mem_heap _ _ _ h2 x hx
      rw [h8] at h10
      cases Option.some.inj h10
      exact hkey pre suf x hL (Or.inr ⟨rfl, hr⟩)

/-- Every atomic segment keeps the invariant; a node that leaves the list is marked removed in
the state reached, and a node marked removed stays so. -/
theorem optShared_step_inv {T : Type} [LinearOrder T] [Neg T] [One T] {s : optShared T}
    {l : List (Nat × optPost T)} (hinv : s.Inv l) (e : optEvent T) (s1 : optShared T)
    (hstep : s.step e = some s1) :
    ∃ l1, s1.Inv l1 ∧
      (∀ z ∈ l, z.1 ∉ l1.map Prod.fst → ∃ n, s1.f.heap z.1 = some n ∧ n.removed = true) ∧
      (∀ a n, s.f.heap a = some n → n.removed = true →
        ∃ n1, s1.f.heap a = some n1 ∧ n1.removed = true) := by
  have hsame : ∀ (i : Nat) (op1 : Option (optOp T)),
      (∀ o np, op1 = some o → o.newNode = some np →
        ∃ o0, s.ops i = some o0 ∧ o0.newNode = some np) →
      (∀ o c, op1 = some o → o.located = some c →
        ∃ n, s.f.heap c = some n ∧ (n.removed = false → c ∈ l.map Prod.fst)) →
      ∃ l1, (s.setOp s.f i op1).Inv l1 ∧
        (∀ z ∈ l, z.1 ∉ l1.map Prod.fst →
          ∃ n, (s.setOp s.f i op1).f.heap z.1 = some n ∧ n.removed = true) ∧
        (∀ a n, s.f.heap a = some n → n.removed = true →
          ∃ n1, (s.setOp s.f i op1).f.heap a = some n1 ∧ n1.removed = true) := by
    intro i op1 hN hL
    exact ⟨l, Inv_setOp_same_feed hinv i op1 hN hL,
      fun z hz hzn => absurd (List.mem_map_of_mem _ hz) hzn,
      fun a n ha hn => ⟨n, ha, hn⟩⟩
  have hseg := hinv.2.1
  rw [← hinv.1] at hseg
  cases e with
  | callAdd i body ts =>
    simp only [optShared.step] at hstep
    split at hstep
    · cases hstep
      obtain ⟨h1, h2⟩ := Inv_callAdd hinv i body ts
      exact ⟨l, h1, fun z hz hzn => absurd (List.mem_map_of_mem _ hz) hzn,
        fun a n ha hn => ⟨n, h2 a n ha, hn⟩⟩
    · cases hstep
  | callRemove i ts =>
    simp only [optShared.step] at hstep
    split at hstep
    · cases hstep
      exact hsame i _ (fun o np ho hnp => by cases ho; cases hnp)
        (fun o c ho hc => by cases ho; cases hc)
    · cases hstep
  | locate i fuel =>
    simp only [optShared.step] at hstep
    split at hstep
    · rename_i np ts hi
      split at hstep
      · rename_i site hloc
        cases hstep
        refine hsame i _ (fun o np1 ho hnp => ?_) (fun o c ho hc => ?_)
        · cases ho
          exact ⟨_, hi, hnp⟩
        · cases ho
          cases site with
          | head => cases hc
          | after c1 =>
            cases hc
            have h1 := AddLocate_mem s.f ts fuel c hseg hloc
            obtain ⟨x, hx, rfl⟩ := List.mem_map.1 h1
            exact ⟨x.2, optSeg_mem_heap _ _ _ hseg x hx, fun _ => h1⟩
      · cases hstep
    · rename_i ts hi
      split at hstep
      · rename_i site hloc
        cases hstep
        refine hsame i _ (fun o np1 ho hnp => ?_) (fun o c ho hc => ?_)
        · cases ho
          cases hnp
        · cases ho
          cases site with
          | empty => cases hc
          | head => cases hc
          | after c1 =>
            cases hc
            have h1 := RemoveLocate_mem s.f ts fuel c hseg hloc
            obtain ⟨x, hx, rfl⟩ := List.mem_map.1 h1
            exact ⟨x.2, optSeg_mem_heap _ _ _ hseg x hx, fun _ => h1⟩
      · cases hstep
    · cases hstep
  | commit i =>
    simp only [optShared.step] at hstep
    split at hstep
    · rename_i np ts site hi
      split at hstep
      · rename_i f1 hc
        cases hstep
        obtain ⟨pre, x, suf, n0, rfl, h1, h2, h3, h4, h5⟩ :=
          AddCommit_true_split hinv i np ts site f1 hi hc
        obtain ⟨h6, h7⟩ := Inv_splice hinv i np _ n0 f1 hi rfl h1 h2 h3 h4 h5
        refine ⟨_, h6, fun z hz hzn => ?_, h7⟩
        exfalso
        apply hzn
        simp only [List.mem_append, List.mem_cons] at hz
        simp only [List.map_append, List.map_cons, List.mem_append, List.mem_cons]
        rcases hz with hz | rfl | hz
        · exact Or.inl (List.mem_map_of_mem _ hz)
        · exact Or.inr (Or.inl rfl)
        · exact Or.inr (Or.inr (Or.inr (List.mem_map_of_mem _ hz)))
      · rename_i f1 hc
        cases hstep
        cases AddCommit_false _ _ _ _ _ hc
        exact hsame i _ (fun o np1 ho hnp => by cases ho; exact ⟨_, hi, hnp⟩)
          (fun o c ho hc => by cases ho; cases hc)
      · cases hstep
    · rename_i ts site hi
      split at hstep
      · rename_i b f1 hc
        cases hstep
        cases b with
        | true =>
          obtain ⟨pre, x, y, suf, rfl, h2, h3, h4, h5, h6⟩ :=
            RemoveCommit_true_split hinv i ts site f1 hi hc
          obtain ⟨h7, h8, h9⟩ := Inv_unlink hinv i f1 h2 h3 h4 h5 h6
          exact ⟨_, h7, h8, h9⟩
        | false =>
          cases RemoveCommit_not_true _ _ _ _ _ hc (by simp)
          exact hsame i none (fun o np1 ho hnp => by cases ho)
            (fun o c ho hc => by cases ho)
      · rename_i f1 hc
        cases hstep
        cases RemoveCommit_not_true _ _ _ _ _ hc (by simp)
        exact hsame i _ (fun o np1 ho hnp => by cases ho; cases hnp)
          (fun o c ho hc => by cases ho; cases hc)
      · cases hstep
    · cases hstep

theorem optShared_init_inv {T : Type} [Neg T] [One T] :
    (optShared.init (T := T)).Inv
      [(0, { body := "", timestamp := -1, next := none, removed := false })] := by
  refine ⟨rfl, ⟨rfl, rfl, rfl⟩, ⟨_, _, rfl, rfl, rfl⟩, ?_, ?_, ?_, ?_⟩
  · intro x hx
    simp only [List.mem_singleton] at hx
    rw [hx]
  · intro a ha
    have h1 : 1 ≤ a := ha
    have hne : a ≠ 0 := by omega
    simp [optShared.init, NewOptFeed, hne]
  · intro i op np hi
    cases hi
  · intro i op c hi
    cases hi

theorem optShared_run_inv {T : Type} [LinearOrder T] [Neg T] [One T]
    (evs : List (optEvent T)) :
    ∀ (s s1 : optShared T) (l : List (Nat × optPost T)), s.Inv l → s.run evs = some s1 →
      ∃ l1, s1.Inv l1 ∧
        ∀ a n, s.f.heap a = some n → n.removed = true →
          ∃ n1, s1.f.heap a = some n1 ∧ n1.removed = true := by
  induction evs with
  | nil =>
    intro s s1 l hinv hrun
    cases hrun
    exact ⟨l, hinv, fun a n ha hn => ⟨n, ha, hn⟩⟩
  | cons e evs ih =>
    intro s s1 l hinv hrun
    simp only [optShared.run] at hrun
    split at hrun
    · cases hrun
    · rename_i s2 hstep
      obtain ⟨l2, h1, -, h3⟩ := optShared_step_inv hinv e s2 hstep
      obtain ⟨l1, h4, h5⟩ := ih s2 s1 l2 h1 hrun
      refine ⟨l1, h4, fun a n ha hn => ?_⟩
      obtain ⟨n2, h6, h7⟩ := h3 a n ha hn
      exact h5 a n2 h6 h7

/-- Claim C25: in every state reached from `NewOptFeed()` by the atomic segments of calls of
`Add` and `Remove` made by any number of threads, `start` points to the sentinel made at
construction (address `0`, empty body, timestamp `-1`, not marked removed) and no node of the
list hanging from it is marked removed; whatever segment is executed next, every node that is
in the list before it and no longer after it is marked removed in the state it leads to; and a
node marked removed is still marked removed in every state reached later. -/
theorem optFeed_removed_marks_unlinked {T : Type} [LinearOrder T] [Neg T] [One T]
    (evs : List (optEvent T)) (s : optShared T)
    (hrun : (optShared.init (T := T)).run evs = some s) :
    ∃ sent l,
      s.f.start = some 0 ∧ s.f.heap 0 = some sent ∧
      sent.body = "" ∧ sent.timestamp = -1 ∧ sent.removed = false ∧
      optSeg s.f.heap s.f.start ((0, sent) :: l) none ∧
      (∀ x ∈ l, x.2.removed = false) ∧
      (∀ e s1, s.step e = some s1 →
        ∃ sent1 l1, optSeg s1.f.heap s1.f.start ((0, sent1) :: l1) none ∧
          ∀ x ∈ l, x.1 ∉ l1.map Prod.fst →
            ∃ n, s1.f.heap x.1 = some n ∧ n.removed = true) ∧
      (∀ evs1 s1, s.run evs1 = some s1 →
        ∀ a n, s.f.heap a = some n → n.removed = true →
          ∃ n1, s1.f.heap a = some n1 ∧ n1.removed = true) := by
  obtain ⟨l0, hinv, -⟩ := optShared_run_inv evs _ s _ optShared_init_inv hrun
  have hinv0 := hinv
  obtain ⟨h1, h2, ⟨sent, l, rfl, h3, h4⟩, h5, -, -, -⟩ := hinv0
  have hnd := optSeg_nodup _ _ h2
  refine ⟨sent, l, h1, h2.2.1, h3, h4, h5 (0, sent) (by simp), by rw [h1]; exact h2,
    fun x hx => h5 x (by simp [hx]), ?_, ?_⟩
  · intro e s1 hstep
    obtain ⟨l1, h6, h7, -⟩ := optShared_step_inv hinv e s1 hstep
    obtain ⟨h8, h9, ⟨sent1, l2, rfl, -, -⟩, -⟩ := h6
    refine ⟨sent1, l2, by rw [h8]; exact h9, fun x hx hxn => ?_⟩
    refine h7 x (by simp [hx]) ?_
    rw [List.map_cons, List.mem_cons, not_or]
    refine ⟨?_, hxn⟩
    intro h0
    rw [List.map_cons, List.nodup_cons] at hnd
    apply hnd.1
    have h10 : x.1 = 0 := h0
    show 0 ∈ l.map Prod.fst
    rw [← h10]
    exact List.mem_map_of_mem _ hx
  · intro evs1 s1 hrun1
    obtain ⟨_, -, h6⟩ := optShared_run_inv evs1 s s1 _ hinv hrun1
    exact h6

/-- Claim C25 at a concrete run: one thread adds `a/1`, a second thread removes it. -/
theorem optFeed_removed_marks_unlinked_witness :
    ∃ s sent l,
      (optShared.init (T := ℚ)).run
        [.callAdd 0 "a" 1, .locate 0 1, .commit 0, .callRemove 1 1, .locate 1 1, .commit 1] =
        some s ∧
      s.f.start = some 0 ∧ s.f.heap 0 = some sent ∧ sent.removed = false ∧
      optSeg s.f.heap s.f.start ((0, sent) :: l) none := by
  have hsome : ((optShared.init (T := ℚ)).run
      [.callAdd 0 "a" 1, .locate 0 1, .commit 0, .callRemove 1 1, .locate 1 1,
        .commit 1]).isSome = true := rfl
  obtain ⟨s, hs⟩ := Option.isSome_iff_exists.1 hsome
  obtain ⟨sent, l, h1, h2, -, -, h5, h6, -⟩ := optFeed_removed_marks_unlinked _ s hs
  exact ⟨s, sent, l, hs, h1, h2, h5, h6⟩

theorem setOp_setOp {T : Type} (s : optShared T) (f g : optFeed T) (i : Nat)
    (a b : Option (optOp T)) : (s.setOp f i a).setOp g i b = s.setOp g i b := by
  simp only [optShared.setOp]
  congr 1
  funext j
  by_cases hj : j = i <;> simp [hj]

theorem setOp_idle {T : Type} (f g : optFeed T) (i : Nat) :
    ({ f := f, ops := fun _ => none } : optShared T).setOp g i none =
      { f := g, ops := fun _ => none } := by
  simp only [optShared.setOp]
  congr 1
  funext j
  by_cases hj : j = i <;> simp [hj]

theorem optShared_run_append {T : Type} [LinearOrder T] (evs1 evs2 : List (optEvent T)) :
    ∀ (s s1 : optShared T), s.run evs1 = some s1 → s.run (evs1 ++ evs2) = s1.run evs2 := by
  induction evs1 with
  | nil => intro s s1 h; cases h; rfl
  | cons e evs1 ih =>
    intro s s1 h
    simp only [optShared.run, List.cons_append] at h ⊢
    split at h
    · cases h
    · rename_i s2 hstep
      exact ih s2 s1 h

theorem optShared_run_cons {T : Type} [LinearOrder T] {s s1 : optShared T} {e : optEvent T}
    (es : List (optEvent T)) (h : s.step e = some s1) : s.run (e :: es) = s1.run es := by
  simp only [optShared.run, h]

theorem setOp_ops_self {T : Type} (s : optShared T) (f : optFeed T) (i : Nat)
    (a : Option (optOp T)) : (s.setOp f i a).ops i = a := by
  simp [optShared.setOp]

/-- The retry loop of `Add` run by thread `i` alone is a sequence of atomic segments. -/
theorem optAddRetry_run {T : Type} [LinearOrder T] (i np : Nat) (ts : T) (fuel : Nat) :
    ∀ (tries : Nat) (f f1 : optFeed T) (s : optShared T),
      optAddRetry np ts fuel tries f = .ok f1 →
      ∃ evs, (s.setOp f i (some (.add np ts none))).run evs = some (s.setOp f1 i none) := by
  intro tries
  induction tries with
  | zero => intro f f1 s h; cases h
  | succ tries ih =>
    intro f f1 s h
    simp only [optAddRetry] at h
    split at h
    · cases h
    · rename_i site hloc
      have h1 : (s.setOp f i (some (.add np ts none))).step (.locate i fuel) =
          some (s.setOp f i (some (.add np ts (some site)))) := by
        have hf : (s.setOp f i (some (.add np ts none))).f.AddLocate ts fuel = .ok site := hloc
        simp only [optShared.step, setOp_ops_self, hf]
        rw [setOp_setOp]
        rfl
      split at h
      · cases h
      · rename_i f2 hc
        cases h
        refine ⟨[.locate i fuel, .commit i], ?_⟩
        have hf : (s.setOp f i (some (.add np ts (some site)))).f.AddCommit np ts site =
            .ok (true, f1) := hc
        have h2 : (s.setOp f i (some (.add np ts (some site)))).step (.commit i) =
            some (s.setOp f1 i none) := by
          simp only [optShared.step, setOp_ops_self, hf]
          rw [setOp_setOp]
        rw [optShared_run_cons _ h1, optShared_run_cons _ h2]
        rfl
      · rename_i f2 hc
        obtain ⟨evs, hevs⟩ := ih f2 f1 s h
        refine ⟨.locate i fuel :: .commit i :: evs, ?_⟩
        have hf : (s.setOp f i (some (.add np ts (some site)))).f.AddCommit np ts site =
            .ok (false, f2) := hc
        have h2 : (s.setOp f i (some (.add np ts (some site)))).step (.commit i) =
            some (s.setOp f2 i (some (.add np ts none))) := by
          simp only [optShared.step, setOp_ops_self, hf]
          rw [setOp_setOp]
        rw [optShared_run_cons _ h1, optShared_run_cons _ h2]
        exact hevs

/-- The retry loop of `Remove` run by thread `i` alone is a sequence of atomic segments. -/
theorem optRemoveRetry_run {T : Type} [LinearOrder T] (i : Nat) (ts : T) (fuel : Nat) :
    ∀ (tries : Nat) (f f1 : optFeed T) (b : Bool) (s : optShared T),
      optRemoveRetry ts fuel tries f = .ok (b, f1) →
      ∃ evs, (s.setOp f i (some (.remove ts none))).run evs = some (s.setOp f1 i none) := by
  intro tries
  induction tries with
  | zero => intro f f1 b s h; cases h
  | succ tries ih =>
    intro f f1 b s h
    simp only [optRemoveRetry] at h
    split at h
    · cases h
    · rename_i site hloc
      have h1 : (s.setOp f i (some (.remove ts none))).step (.locate i fuel) =
          some (s.setOp f i (some (.remove ts (some site)))) := by
        have hf : (s.setOp f i (some (.remove ts none))).f.RemoveLocate ts fuel = .ok site :=
          hloc
        simp only [optShared.step, setOp_ops_self, hf]
        rw [setOp_setOp]
        rfl
      split at h
      · cases h
      · rename_i b1 f2 hc
        cases h
        refine ⟨[.locate i fuel, .commit i], ?_⟩
        have hf : (s.setOp f i (some (.remove ts (some site)))).f.RemoveCommit ts site =
            .ok (some b, f1) := hc
        have h2 : (s.setOp f i (some (.remove ts (some site)))).step (.commit i) =
            some (s.setOp f1 i none) := by
          simp only [optShared.step, setOp_ops_self, hf]
          rw [setOp_setOp]
        rw [optShared_run_cons _ h1, optShared_run_cons _ h2]
        rfl
      · rename_i f2 hc
        obtain ⟨evs, hevs⟩ := ih f2 f1 b s h
        refine ⟨.locate i fuel :: .commit i :: evs, ?_⟩
        have hf : (s.setOp f i (some (.remove ts (some site)))).f.RemoveCommit ts site =
            .ok (none, f2) := hc
        have h2 : (s.setOp f i (some (.remove ts (some site)))).step (.commit i) =
            some (s.setOp f2 i (some (.remove ts none))) := by
          simp only [optShared.step, setOp_ops_self, hf]
          rw [setOp_setOp]
        rw [optShared_run_cons _ h1, optShared_run_cons _ h2]
        exact hevs

/-- A method call that returns, made by one thread while no other call is in flight, is a
sequence of atomic segments of the shared feed. -/
theorem optFeed_invoke_run {T : Type} [LinearOrder T] (fuel : Nat) (f f1 : optFeed T)
    (m : FeedMethod T) (r : FeedReturn T) (h : f.invoke fuel m = .ok (r, f1)) :
    ∃ evs, ({ f := f, ops := fun _ => none } : optShared T).run evs =
      some { f := f1, ops := fun _ => none } := by
  cases m with
  | Add body ts =>
    simp only [optFeed.invoke] at h
    split at h
    · cases h
    · rename_i f2 hadd
      cases h
      obtain ⟨evs, hevs⟩ := optAddRetry_run 0 _ ts fuel fuel _ f1
        ({ f := f, ops := fun _ => none } : optShared T) hadd
      refine ⟨.callAdd 0 body ts :: evs, ?_⟩
      rw [setOp_idle] at hevs
      rw [← hevs]
      simp [optShared.run, optShared.step]
  | Remove ts =>
    simp only [optFeed.invoke] at h
    split at h
    · cases h
    · rename_i b f2 hrem
      cases h
      obtain ⟨evs, hevs⟩ := optRemoveRetry_run 0 ts fuel fuel f f1 b
        ({ f := f, ops := fun _ => none } : optShared T) hrem
      refine ⟨.callRemove 0 ts :: evs, ?_⟩
      rw [setOp_idle] at hevs
      rw [← hevs]
      simp [optShared.run, optShared.step]
  | Contains ts =>
    simp only [optFeed.invoke] at h
    split at h
    · cases h
    · cases h
      exact ⟨[], rfl⟩
  | ReturnFeed =>
    simp only [optFeed.invoke] at h
    split at h
    · cases h
    · cases h
      exact ⟨[], rfl⟩

/-- Every feed reached from `NewOptFeed()` by method calls executed one at a time is reached by
atomic segments of the shared feed, with no call in flight. -/
theorem optFeed_invokeAll_reachable {T : Type} [LinearOrder T] [Neg T] [One T] (fuel : Nat)
    (ms : List (FeedMethod T)) :
    ∀ (f f1 : optFeed T) (rs : List (FeedReturn T)),
      f.invokeAll fuel ms = .ok (rs, f1) →
      ∃ evs, ({ f := f, ops := fun _ => none } : optShared T).run evs =
        some { f := f1, ops := fun _ => none } := by
  induction ms with
  | nil =>
    intro f f1 rs h
    cases h
    exact ⟨[], rfl⟩
  | cons m ms ih =>
    intro f f1 rs h
    simp only [optFeed.invokeAll] at h
    split at h
    · cases h
    · rename_i r f2 hm
      split at h
      · cases h
      · rename_i rs2 f3 hms
        cases h
        obtain ⟨evs1, h1⟩ := optFeed_invoke_run fuel f f2 m r hm
        obtain ⟨evs2, h2⟩ := ih f2 f1 rs2 hms
        exact ⟨evs1 ++ evs2, by rw [optShared_run_append evs1 evs2 _ _ h1, h2]⟩

/-! ### Coarse feed and optimistic feed side by side -/

/-- Claim C26: two sequences of calls on which the coarse feed and the optimistic feed, each
used by one thread from its initial state, do not behave alike.  `Contains(-1)` returns false
on the coarse feed and true on the optimistic feed, whose traversal starts at the sentinel.
After `Add(a, ts)` and `Add(b, ts)` the call `Add(c, ts)` returns on the coarse feed, which is
then `[a, c, b]`, while on the optimistic feed it does not return: the sequence is still
inside that call when the iterations given to the loops are used up, however many they are. -/
theorem feeds_differ_single_threaded {T : Type} [LinearOrder T] [Neg T] [One T]
    (fuel : Nat) (a b c : String) (ts : T) :
    ((NewFeed (T := T)).invokeAll [.Contains (-1)]).1 = [.bool false] ∧
    (NewOptFeed (T := T)).invokeAll (fuel + 1) [.Contains (-1)] =
      .ok ([.bool true], NewOptFeed) ∧
    ((NewFeed (T := T)).invokeAll [.Add a ts, .Add b ts, .Add c ts, .ReturnFeed]).1 =
      [.unit, .unit, .unit, .posts [⟨a, ts⟩, ⟨c, ts⟩, ⟨b, ts⟩]] ∧
    (NewOptFeed (T := T)).invokeAll fuel [.Add a ts, .Add b ts, .Add c ts, .ReturnFeed] =
      .error .outOfFuel := by
  refine ⟨?_, ?_, ?_, ?_⟩
  · simp [feed.invokeAll, feed.invoke, feed.Contains, NewFeed, containsLoop]
  · simp [optFeed.invokeAll, optFeed.invoke, optFeed.Contains, optContainsLoop, optFeed.deref,
      NewOptFeed]
  · simp [feed.invokeAll, feed.invoke, feed.Add, NewFeed, addLoop, feed.ReturnFeed,
      returnFeedLoop, newPost, post.content]
  · cases fuel with
    | zero => rfl
    | succ n =>
      have h1 : (NewOptFeed (T := T)).Add (n + 1) a ts =
          .ok ((((NewOptFeed (T := T)).newPost a ts).2.setNext 1 none).setNext 0 (some 1)) := by
        simp [optFeed.Add, optAddRetry, optFeed.AddLocate, optFeed.nextNilOrSmaller,
          optFeed.deref, NewOptFeed, optFeed.newPost, optFeed.AddCommit, optFeed.spliceAfter]
      have h2 : ((((NewOptFeed (T := T)).newPost a ts).2.setNext 1 none).setNext 0
          (some 1)).Add (n + 1) b ts =
          .ok (((((((NewOptFeed (T := T)).newPost a ts).2.setNext 1 none).setNext 0
            (some 1)).newPost b ts).2.setNext 2 none).setNext 1 (some 2)) := by
        simp [optFeed.Add, optAddRetry, optFeed.AddLocate, optFeed.nextNilOrSmaller,
          optFeed.deref, NewOptFeed, optFeed.newPost, optFeed.AddCommit, optFeed.spliceAfter,
          optFeed.setNext, optAddLoop]
      have h3 : (((((((NewOptFeed (T := T)).newPost a ts).2.setNext 1 none).setNext 0
            (some 1)).newPost b ts).2.setNext 2 none).setNext 1 (some 2)).Add (n + 1) c ts =
          .error .outOfFuel :=
        optAddRetry_tie_behind_first _ ts 0 1 2
          { body := "", timestamp := -1, next := some 1, removed := false }
          { body := a, timestamp := ts, next := some 2, removed := false }
          { body := b, timestamp := ts, next := none, removed := false }
          (by simp [optFeed.newPost, optFeed.setNext, NewOptFeed])
          (by simp [optFeed.newPost, optFeed.setNext, NewOptFeed])
          rfl
          (by simp [optFeed.newPost, optFeed.setNext, NewOptFeed])
          rfl (lt_irrefl ts) rfl
          (by simp [optFeed.newPost, optFeed.setNext, NewOptFeed])
          rfl _ (n + 1) (n + 1)
      simp only [optFeed.invokeAll, optFeed.invoke, h1, h2, h3]

/-! ### Simple RW lock: writer preference -/

theorem writersIn_set (l : List rwPc) (i : Nat) (x c : rwPc) (h : l[i]? = some c) :
    ((l.set i x).map fun p => if p.isWriter then (1 : Int) else 0).sum =
      (l.map fun p => if p.isWriter then (1 : Int) else 0).sum
        - (if c.isWriter then 1 else 0) + (if x.isWriter then 1 else 0) := by
  have := sum_map_set (fun p : rwPc => if p.isWriter then (1 : Int) else 0) l i x c h
  simp only at this
  omega

theorem writersIn_wake (l : List rwPc) :
    ((l.map rwPc.wake).map fun p => if p.isWriter then (1 : Int) else 0).sum =
      (l.map fun p => if p.isWriter then (1 : Int) else 0).sum := by
  rw [List.map_map]
  congr 1
  apply List.map_congr_left
  intro p _
  cases p <;> rfl

/-- The field `writerCount` counts the writers queued or active. -/
theorem rwLockThreads_step_writerCount (s s1 : rwLockThreads) (e : rwThreadEvent)
    (hinv : s.writerCount = s.writersIn) (hstep : s.step e = some s1) :
    s1.writerCount = s1.writersIn := by
  unfold rwLockThreads.writersIn at hinv ⊢
  cases e with
  | RLock i =>
    simp only [rwLockThreads.step] at hstep
    split_ifs at hstep with h
    cases hstep
    simp only [rwLockThreads.RLockFirst, rwLockThreads.RLockSecond]
    split_ifs <;> (simp only []; rw [writersIn_set _ i _ _ h, hinv]; simp [rwPc.isWriter])
  | RUnlock i =>
    simp only [rwLockThreads.step] at hstep
    split_ifs at hstep with h
    cases hstep
    simp only [rwLockThreads.RUnlock, rwLockThreads.Broadcast]
    split_ifs <;> (simp only []; try rw [writersIn_wake]) <;> (rw [writersIn_set _ i _ _ h, hinv]; simp [rwPc.isWriter])
  | Lock i =>
    simp only [rwLockThreads.step] at hstep
    split_ifs at hstep with h
    cases hstep
    simp only [rwLockThreads.LockFirst, rwLockThreads.LockSecond]
    split_ifs <;> (simp only []; rw [writersIn_set _ i _ _ h, hinv]; simp [rwPc.isWriter])
  | Unlock i =>
    simp only [rwLockThreads.step] at hstep
    split_ifs at hstep with h
    cases hstep
    simp only [rwLockThreads.Unlock, rwLockThreads.Broadcast]
    rw [writersIn_wake, writersIn_set _ i _ _ h, hinv]
    simp [rwPc.isWriter]
  | wake i =>
    simp only [rwLockThreads.step] at hstep
    split at hstep
    · rename_i h
      cases hstep
      simp only [rwLockThreads.RLockFirst, rwLockThreads.RLockSecond]
      split_ifs <;> (simp only []; rw [writersIn_set _ i _ _ h, hinv]; simp [rwPc.isWriter])
    · rename_i h
      cases hstep
      simp only [rwLockThreads.RLockSecond]
      split_ifs <;> (simp only []; rw [writersIn_set _ i _ _ h, hinv]; simp [rwPc.isWriter])
    · rename_i h
      cases hstep
      simp only [rwLockThreads.LockFirst, rwLockThreads.LockSecond]
      split_ifs <;> (simp only []; rw [writersIn_set _ i _ _ h, hinv]; simp [rwPc.isWriter])
    · rename_i h
      cases hstep
      simp only [rwLockThreads.LockSecond]
      split_ifs <;> (simp only []; rw [writersIn_set _ i _ _ h, hinv]; simp [rwPc.isWriter])
    · cases hstep

theorem rwLockThreads_run_writerCount (evs : List rwThreadEvent) :
    ∀ (s s1 : rwLockThreads), s.writerCount = s.writersIn → s.run evs = some s1 →
      s1.writerCount = s1.writersIn := by
  induction evs with
  | nil => intro s s1 h hrun; cases hrun; exact h
  | cons e evs ih =>
    intro s s1 h hrun
    simp only [rwLockThreads.run] at hrun
    split at hrun
    · cases hrun
    · rename_i s2 hstep
      exact ih s2 s1 (rwLockThreads_step_writerCount s s2 e h hstep) hrun

theorem rwLockThreads_init_writerCount (n : Nat) :
    (rwLockThreads.init n).writerCount = (rwLockThreads.init n).writersIn := by
  simp [rwLockThreads.init, rwLockThreads.writersIn, rwPc.isWriter]

theorem writersIn_pos (s : rwLockThreads) (w : Nat) (p : rwPc) (hw : s.pcs[w]? = some p)
    (hp : p.isWriter = true) : 1 ≤ s.writersIn := by
  have hmem : (if p.isWriter then (1 : Int) else 0) ∈
      s.pcs.map fun p => if p.isWriter then (1 : Int) else 0 :=
    List.mem_map_of_mem _ (List.getElem?_mem hw)
  have hle := List.single_le_sum (l := s.pcs.map fun p => if p.isWriter then (1 : Int) else 0)
    (fun x hx => by
      obtain ⟨q, -, rfl⟩ := List.mem_map.1 hx
      split_ifs <;> decide) _ hmem
  rw [if_pos hp] at hle
  exact hle

/-- What an atomic segment does to the program points: the thread `i` that runs it goes from
`c` to `x`, and the other threads stay where they are or are woken. -/
theorem rwLockThreads_step_view (s s1 : rwLockThreads) (e : rwThreadEvent)
    (hstep : s.step e = some s1) :
    ∃ i c x, s.pcs[i]? = some c ∧
      (s1.pcs = s.pcs.set i x ∨ s1.pcs = (s.pcs.set i x).map rwPc.wake) ∧
      c ≠ .rSleep1 ∧ (c = .rReady1 → s.writerCount > 0 → x = .rSleep1) ∧
      (c.isWriter = true → x.isWriter = true ∨ e = .Unlock i) := by
  cases e with
  | RLock i =>
    simp only [rwLockThreads.step] at hstep
    split_ifs at hstep with h
    cases hstep
    simp only [rwLockThreads.RLockFirst, rwLockThreads.RLockSecond]
    split_ifs
    · exact ⟨i, _, .rSleep1, h, Or.inl rfl, by decide, (fun h => by cases h), (fun h => by cases h)⟩
    · exact ⟨i, _, .rSleep2, h, Or.inl rfl, by decide, (fun h => by cases h), (fun h => by cases h)⟩
    · exact ⟨i, _, .reading, h, Or.inl rfl, by decide, (fun h => by cases h), (fun h => by cases h)⟩
  | RUnlock i =>
    simp only [rwLockThreads.step] at hstep
    split_ifs at hstep with h
    cases hstep
    simp only [rwLockThreads.RUnlock, rwLockThreads.Broadcast]
    split_ifs
    · exact ⟨i, _, .idle, h, Or.inr rfl, by decide, (fun h => by cases h), (fun h => by cases h)⟩
    · exact ⟨i, _, .idle, h, Or.inl rfl, by decide, (fun h => by cases h), (fun h => by cases h)⟩
  | Lock i =>
    simp only [rwLockThreads.step] at hstep
    split_ifs at hstep with h
    cases hstep
    simp only [rwLockThreads.LockFirst, rwLockThreads.LockSecond]
    split_ifs
    · exact ⟨i, _, .wSleep1, h, Or.inl rfl, by decide, (fun h => by cases h), (fun h => by cases h)⟩
    · exact ⟨i, _, .wSleep2, h, Or.inl rfl, by decide, (fun h => by cases h), (fun h => by cases h)⟩
    · exact ⟨i, _, .writing, h, Or.inl rfl, by decide, (fun h => by cases h), (fun h => by cases h)⟩
  | Unlock i =>
    simp only [rwLockThreads.step] at hstep
    split_ifs at hstep with h
    cases hstep
    exact ⟨i, _, .idle, h, Or.inr rfl, by decide, (fun h => by cases h), fun _ => Or.inr rfl⟩
  | wake i =>
    simp only [rwLockThreads.step] at hstep
    split at hstep
    · rename_i h
      cases hstep
      simp only [rwLockThreads.RLockFirst, rwLockThreads.RLockSecond]
      split_ifs with h1 h2
      · exact ⟨i, _, .rSleep1, h, Or.inl rfl, by decide, (fun _ _ => rfl), (fun h => by cases h)⟩
      · exact ⟨i, _, .rSleep2, h, Or.inl rfl, by decide, (fun _ h3 => absurd h3 h1), (fun h => by cases h)⟩
      · exact ⟨i, _, .reading, h, Or.inl rfl, by decide, (fun _ h3 => absurd h3 h1), (fun h => by cases h)⟩
    · rename_i h
      cases hstep
      simp only [rwLockThreads.RLockSecond]
      split_ifs
      · exact ⟨i, _, .rSleep2, h, Or.inl rfl, by decide, (fun h => by cases h), (fun h => by cases h)⟩
      · exact ⟨i, _, .reading, h, Or.inl rfl, by decide, (fun h => by cases h), (fun h => by cases h)⟩
    · rename_i h
      cases hstep
      simp only [rwLockThreads.LockFirst, rwLockThreads.LockSecond]
      split_ifs
      · exact ⟨i, _, .wSleep1, h, Or.inl rfl, by decide, (fun h => by cases h), fun _ => Or.inl rfl⟩
      · exact ⟨i, _, .wSleep2, h, Or.inl rfl, by decide, (fun h => by cases h), fun _ => Or.inl rfl⟩
      · exact ⟨i, _, .writing, h, Or.inl rfl, by decide, (fun h => by cases h), fun _ => Or.inl rfl⟩
    · rename_i h
      cases hstep
      simp only [rwLockThreads.LockSecond]
      split_ifs
      · exact ⟨i, _, .wSleep2, h, Or.inl rfl, by decide, (fun h => by cases h), fun _ => Or.inl rfl⟩
      · exact ⟨i, _, .writing, h, Or.inl rfl, by decide, (fun h => by cases h), fun _ => Or.inl rfl⟩
    · cases hstep

theorem getElem?_set_or_wake (l l1 : List rwPc) (i k : Nat) (x c p : rwPc)
    (hi : l[i]? = some c) (hk : l[k]? = some p)
    (hl : l1 = l.set i x ∨ l1 = (l.set i x).map rwPc.wake) :
    (k = i ∧ p = c ∧ (l1[k]? = some x ∨ l1[k]? = some x.wake)) ∨
    (k ≠ i ∧ (l1[k]? = some p ∨ l1[k]? = some p.wake)) := by
  have hlt : i < l.length := by
    by_contra hge
    rw [List.getElem?_eq_none (by omega)] at hi
    cases hi
  by_cases hki : k = i
  · left
    subst hki
    rw [hi] at hk
    refine ⟨rfl, (Option.some.inj hk).symm, ?_⟩
    rcases hl with rfl | rfl
    · left; simp [List.getElem?_set, hlt]
    · right; simp [List.getElem?_set, hlt]
  · right
    refine ⟨hki, ?_⟩
    rcases hl with rfl | rfl
    · left; rw [List.getElem?_set_ne (Ne.symm hki), hk]
    · right; simp [List.getElem?_set_ne (Ne.symm hki), hk]

/-- A reader waiting in the first loop of `RLock` stays there as long as `writerCount` is
positive. -/
theorem rwLockThreads_reader_keeps_waiting (s s1 : rwLockThreads) (e : rwThreadEvent) (r : Nat)
    (hstep : s.step e = some s1)
    (hr : s.pcs[r]? = some .rSleep1 ∨ s.pcs[r]? = some .rReady1) (hwc : s.writerCount > 0) :
    s1.pcs[r]? = some .rSleep1 ∨ s1.pcs[r]? = some .rReady1 := by
  obtain ⟨i, c, x, h1, h2, h3, h4, -⟩ := rwLockThreads_step_view s s1 e hstep
  rcases hr with hr | hr
  · rcases getElem?_set_or_wake _ _ i r x c _ h1 hr h2 with ⟨-, h5, -⟩ | ⟨-, h6 | h6⟩
    · exact absurd h5.symm h3
    · exact Or.inl h6
    · exact Or.inr h6
  · rcases getElem?_set_or_wake _ _ i r x c _ h1 hr h2 with ⟨-, h5, h6⟩ | ⟨-, h6 | h6⟩
    · rw [h4 h5.symm hwc] at h6
      rcases h6 with h6 | h6
      · exact Or.inl h6
      · exact Or.inr h6
    · exact Or.inr h6
    · exact Or.inr h6

/-- A writer queued or active stays so until it calls `Unlock`. -/
theorem rwLockThreads_writer_stays (s s1 : rwLockThreads) (e : rwThreadEvent) (w : Nat)
    (hstep : s.step e = some s1) (hw : ∃ p, s.pcs[w]? = some p ∧ p.isWriter = true)
    (hne : e ≠ .Unlock w) : ∃ p, s1.pcs[w]? = some p ∧ p.isWriter = true := by
  obtain ⟨i, c, x, h1, h2, -, -, h5⟩ := rwLockThreads_step_view s s1 e hstep
  obtain ⟨p, hp, hpw⟩ := hw
  have hwake : ∀ q : rwPc, q.isWriter = true → q.wake.isWriter = true := by
    intro q hq
    cases q <;> first | rfl | cases hq
  rcases getElem?_set_or_wake _ _ i w x c _ h1 hp h2 with ⟨h6, h7, h8⟩ | ⟨-, h8 | h8⟩
  · rcases h5 (h7 ▸ hpw) with h9 | h9
    · rcases h8 with h8 | h8
      · exact ⟨x, h8, h9⟩
      · exact ⟨x.wake, h8, hwake x h9⟩
    · rw [← h6] at h9
      exact absurd h9 hne
  · exact ⟨p, h8, hpw⟩
  · exact ⟨p.wake, h8, hwake p hpw⟩

theorem rwLockThreads_wait_run (r w : Nat) (evs : List rwThreadEvent) :
    ∀ (s s1 : rwLockThreads), s.writerCount = s.writersIn →
      (s.pcs[r]? = some .rSleep1 ∨ s.pcs[r]? = some .rReady1) →
      (∃ p, s.pcs[w]? = some p ∧ p.isWriter = true) →
      s.run evs = some s1 →
      rwThreadEvent.Unlock w ∈ evs ∨
        (s1.pcs[r]? = some .rSleep1 ∨ s1.pcs[r]? = some .rReady1) := by
  induction evs with
  | nil =>
    intro s s1 _ hr _ hrun
    cases hrun
    exact Or.inr hr
  | cons e evs ih =>
    intro s s1 hinv hr hw hrun
    simp only [rwLockThreads.run] at hrun
    split at hrun
    · cases hrun
    · rename_i s2 hstep
      by_cases he : e = .Unlock w
      · left; rw [he]; exact List.mem_cons_self _ _
      · obtain ⟨p, hp, hpw⟩ := hw
        have hwc : s.writerCount > 0 := by
          have := writersIn_pos s w p hp hpw
          omega
        rcases ih s2 s1 (rwLockThreads_step_writerCount s s2 e hinv hstep)
          (rwLockThreads_reader_keeps_waiting s s2 e r hstep hr hwc)
          (rwLockThreads_writer_stays s s2 e w hstep ⟨p, hp, hpw⟩ he) hrun with h | h
        · exact Or.inl (List.mem_cons_of_mem _ h)
        · exact Or.inr h

/-- Claim C30: with any number of threads on a lock from `NewRWLock()`, let a reader `r` call
`RLock` in a reachable state in which `writerCount` is positive, and let `w` be a writer queued
or active in that state.  In every state reached afterwards in which `r` has been admitted
(it has incremented `readerCount` and not yet called `RUnlock`), `w` has called `Unlock` in
between. -/
theorem rwLock_reader_waits_for_queued_writers (n : Nat) (evs1 evs2 : List rwThreadEvent)
    (s0 s1 s2 : rwLockThreads) (r w : Nat)
    (hreach : (rwLockThreads.init n).run evs1 = some s0)
    (hcall : s0.step (.RLock r) = some s1)
    (hwriter : s0.writerCount > 0)
    (hw : ∃ p, s0.pcs[w]? = some p ∧ p.isWriter = true)
    (hrun : s1.run evs2 = some s2)
    (hadmitted : s2.pcs[r]? = some .reading) :
    rwThreadEvent.Unlock w ∈ evs2 := by
  have hinv0 := rwLockThreads_run_writerCount evs1 _ s0 (rwLockThreads_init_writerCount n) hreach
  have hinv1 := rwLockThreads_step_writerCount s0 s1 _ hinv0 hcall
  have hw1 := rwLockThreads_writer_stays s0 s1 _ w hcall hw (by simp)
  have hr1 : s1.pcs[r]? = some .rSleep1 := by
    simp only [rwLockThreads.step] at hcall
    split_ifs at hcall with h
    cases hcall
    have hlt : r < s0.pcs.length := by
      by_contra hge
      rw [List.getElem?_eq_none (by omega)] at h
      cases h
    simp [rwLockThreads.RLockFirst, hwriter, List.getElem?_set, hlt]
  rcases rwLockThreads_wait_run r w evs2 s1 s2 hinv1 (Or.inl hr1) hw1 hrun with h | h | h
  · exact h
  · rw [hadmitted] at h; cases h
  · rw [hadmitted] at h; cases h

/-- Claim C30 at a concrete run with two threads: writer `0` holds the lock when reader `1`
calls `RLock`; the reader is admitted after the writer's `Unlock`. -/
theorem rwLock_reader_waits_for_queued_writers_witness :
    (rwLockThreads.init 2).run [.Lock 0, .RLock 1, .Unlock 0, .wake 1] =
      some { readerCount := 1, writerCount := 0, writerWait := false,
             pcs := [.idle, .reading] } ∧
    rwThreadEvent.Unlock 0 ∈ [rwThreadEvent.Unlock 0, rwThreadEvent.wake 1] :=
  ⟨by decide,
   rwLock_reader_waits_for_queued_writers 2 [.Lock 0] [.Unlock 0, .wake 1]
    { readerCount := 0, writerCount := 1, writerWait := true, pcs := [.writing, .idle] }
    { readerCount := 0, writerCount := 1, writerWait := true, pcs := [.writing, .rSleep1] }
    { readerCount := 1, writerCount := 0, writerWait := false, pcs := [.idle, .reading] }
    1 0 (by decide) (by decide) (by decide) ⟨.writing, by decide, by decide⟩ (by decide)
    (by decide)⟩

/-! ### Releasing a lock that is not held -/

/-- Claim C31, the counterexample: no method of either lock tests whether the lock is held.  `RUnlock` on a lock
from `NewRWLock()` returns with `readerCount = -1`, `Unlock` on it returns with
`writerCount = -1`; `RUnlock` on a lock from `NewRWLockFaster()` returns with
`readingReaders = -1` and `Unlock` on it returns as well.  After the stray `RUnlock` a reader
and a writer are admitted together, on both locks. -/
theorem release_of_lock_not_held_is_not_detected :
    NewRWLock.RUnlock.readerCount = -1 ∧
    NewRWLock.Unlock.writerCount = -1 ∧
    (NewRWLockFaster.RUnlock .first).readingReaders = -1 ∧
    (NewRWLockFaster.RUnlock .second).readingReaders = -1 ∧
    NewRWLockFaster.Unlock = NewRWLockFaster ∧
    (NewRWLock.RUnlock.run [.RLock, .Lock]).map (fun rw => (rw.readerCount, rw.readers, rw.writers)) =
      some (0, 1, 1) ∧
    ((NewRWLockFaster.RUnlock .first).run [.RLock, .Lock]).map
        (fun rw => (rw.readingReaders, rw.readers, rw.writers)) =
      some (0, 1, 1) := by
  decide

/-! ### Sequential mode -/

theorem executeAll_responsesOf {T : Type} [LinearOrder T] (tasks : List (Request T)) :
    ∀ (f : feed T) (enc : List (Encoded T)),
      (executeAll f enc tasks).2 = enc ++ responsesOf f tasks := by
  induction tasks with
  | nil => intro f enc; simp [executeAll, responsesOf]
  | cons t tasks ih =>
    intro f enc
    simp only [executeAll, responsesOf, ih, List.append_assoc]

theorem RunSequentialLoop_eq {T : Type} [LinearOrder T] (dec : List (Option (Record T))) :
    ∀ (f : feed T) (enc : List (Encoded T)) (request : Request T),
      request.Command ≠ "DONE" →
      RunSequentialLoop f enc request dec =
        executeAll f enc (decodedRequests request (recordsBeforeStop dec)) := by
  induction dec with
  | nil => intro f enc request _; rfl
  | cons x dec ih =>
    intro f enc request hreq
    cases x with
    | none => rfl
    | some r =>
      cases hc : r.command with
      | none =>
        have h1 : (request.decode r).Command = request.Command := by
          simp [Request.decode, hc]
        simp only [RunSequentialLoop, recordsBeforeStop, hc, h1, if_neg hreq, decodedRequests,
          executeAll]
        simpa using ih _ _ _ (h1 ▸ hreq)
      | some c =>
        have h1 : (request.decode r).Command = c := by
          simp [Request.decode, hc]
        by_cases hd : c = "DONE"
        · simp [RunSequentialLoop, recordsBeforeStop, hc, h1, hd, decodedRequests, executeAll]
        · have hd2 : ¬ (some c = some "DONE") := by
            intro h; exact hd (Option.some.inj h)
          simp only [RunSequentialLoop, recordsBeforeStop, hc, h1, if_neg hd, if_neg hd2,
            decodedRequests, executeAll]
          exact ih _ _ _ (h1 ▸ hd)

theorem recordsBeforeStop_append {T : Type} (pre : List (Option (Record T)))
    (stop : Option (Record T)) (rest : List (Option (Record T)))
    (hpre : ∀ x ∈ pre, stopsInput x = false) (hstop : stopsInput stop = true) :
    recordsBeforeStop (pre ++ stop :: rest) = pre.filterMap id ∧
    recordsBeforeStop pre = pre.filterMap id := by
  induction pre with
  | nil =>
    cases stop with
    | none => exact ⟨rfl, rfl⟩
    | some r =>
      have h1 : r.command = some "DONE" := by simpa [stopsInput] using hstop
      exact ⟨by simp [recordsBeforeStop, h1], rfl⟩
  | cons x pre ih =>
    have hx := hpre x (List.mem_cons_self _ _)
    obtain ⟨h1, h2⟩ := ih (fun y hy => hpre y (List.mem_cons_of_mem _ hy))
    cases x with
    | none => simp [stopsInput] at hx
    | some r =>
      have h3 : ¬ (r.command = some "DONE") := by simpa [stopsInput] using hx
      simp [recordsBeforeStop, h3, h1, h2]

/-- Claim C32: for every feed and every sequence of decode results, `RunSequential` returns
the feed and the encoded values obtained by running `execute`, in input order, on the requests
decoded from the records that come before the first error, the first record whose command is
`DONE`, or the end of the input; the encoded values are the concatenation of what `execute`
emits for these requests; and what follows the stopping point has no effect. -/
theorem RunSequential_in_input_order {T : Type} [LinearOrder T] [Zero T] (f : feed T)
    (dec : List (Option (Record T))) :
    RunSequential f dec =
      executeAll f [] (decodedRequests Request.zero (recordsBeforeStop dec)) ∧
    (RunSequential f dec).2 =
      responsesOf f (decodedRequests Request.zero (recordsBeforeStop dec)) ∧
    (∀ (pre : List (Option (Record T))) (stop : Option (Record T))
        (rest : List (Option (Record T))),
      dec = pre ++ stop :: rest → (∀ x ∈ pre, stopsInput x = false) → stopsInput stop = true →
      recordsBeforeStop dec = pre.filterMap id ∧ RunSequential f dec = RunSequential f pre) := by
  have hzero : (Request.zero (T := T)).Command ≠ "DONE" := by
    simp [Request.zero]
  have h1 : ∀ d : List (Option (Record T)), RunSequential f d =
      executeAll f [] (decodedRequests Request.zero (recordsBeforeStop d)) :=
    fun d => RunSequentialLoop_eq d f [] Request.zero hzero
  refine ⟨h1 dec, ?_, ?_⟩
  · rw [h1 dec, executeAll_responsesOf]
    simp
  · intro pre stop rest hdec hpre hstop
    obtain ⟨h2, h3⟩ := recordsBeforeStop_append pre stop rest hpre hstop
    subst hdec
    refine ⟨h2, ?_⟩
    rw [h1, h1, h2, h3]

/-- Claim C33: `RunSequential` decodes every record into the one variable `request` declared
before its loop, so a field that a record omits keeps the value of an earlier record, while
`producer` decodes every record into a new zero `Request`.  On the input `ADD a/1` (id 1),
`CONTAINS` (id 2, no body, no timestamp), `DONE`, the sequential mode executes `CONTAINS` with
body `a` and timestamp `1` and answers `true`; the producer hands over `CONTAINS` with the zero
body and timestamp, and the parallel mode with one consumer answers `false`. -/
theorem RunSequential_keeps_fields_of_earlier_records :
    decodedRequests (Request.zero (T := ℚ))
        (recordsBeforeStop
          [some ⟨some "ADD", some 1, some "a", some 1⟩, some ⟨some "CONTAINS", some 2, none, none⟩,
           some ⟨some "DONE", none, none, none⟩]) =
      [⟨"ADD", 1, "a", 1⟩, ⟨"CONTAINS", 2, "a", 1⟩] ∧
    RunSequential (NewFeed (T := ℚ))
        [some ⟨some "ADD", some 1, some "a", some 1⟩, some ⟨some "CONTAINS", some 2, none, none⟩,
         some ⟨some "DONE", none, none, none⟩] =
      ((NewFeed (T := ℚ)).Add "a" 1, [.response ⟨true, 1⟩, .response ⟨true, 2⟩]) ∧
    acceptedOf (T := ℚ)
        [some ⟨some "ADD", some 1, some "a", some 1⟩, some ⟨some "CONTAINS", some 2, none, none⟩,
         some ⟨some "DONE", none, none, none⟩] =
      [⟨"ADD", 1, "a", 1⟩, ⟨"CONTAINS", 2, "", 0⟩] ∧
    (Server.init (T := ℚ)
        [some ⟨some "ADD", some 1, some "a", some 1⟩, some ⟨some "CONTAINS", some 2, none, none⟩,
         some ⟨some "DONE", none, none, none⟩] 1).run
      [.producer, .producer, .producer, .consumer 0, .consumer 0, .consumer 0,
       .producer, .producer, .producer, .consumer 0, .consumer 0, .consumer 0,
       .producer, .producer] =
      some { f := (NewFeed (T := ℚ)).Add "a" 1,
             enc := [.response ⟨true, 1⟩, .response ⟨false, 2⟩], dec := [], q := [], wg := 0,
             producer := .returned, consumers := [.dequeue],
             accepted := [⟨"ADD", 1, "a", 1⟩, ⟨"CONTAINS", 2, "", 0⟩],
             executed := [⟨"ADD", 1, "a", 1⟩, ⟨"CONTAINS", 2, "", 0⟩], dones := 2 } := by
  refine ⟨by decide, by decide, by decide, by decide⟩

/-! ### Releases by holders only -/

/-- In the counting model of `rwLock`, where `RUnlock` is run only by a thread that holds the
lock in shared mode and `Unlock` only by one that holds it exclusively, every atomic segment
keeps `readerCount` equal to the number of shared holders and `writerCount` equal to the number
of writers queued or active. -/
theorem rwLock_step_counts (rw rw1 : rwLock) (e : rwEvent)
    (hr : rw.readerCount = rw.readers)
    (hw : rw.writerCount = rw.wSleep1 + rw.wReady1 + rw.wSleep2 + rw.wReady2 + rw.writers)
    (hstep : rw.step e = some rw1) :
    rw1.readerCount = rw1.readers ∧
    rw1.writerCount = rw1.wSleep1 + rw1.wReady1 + rw1.wSleep2 + rw1.wReady2 + rw1.writers := by
  cases e <;> simp only [rwLock.step] at hstep <;> (try split_ifs at hstep with hpos) <;>
    simp only [Option.some.injEq] at hstep <;> subst hstep <;>
    simp only [rwLock.RLockFirst, rwLock.RLockSecond, rwLock.RUnlock, rwLock.LockFirst,
      rwLock.LockSecond, rwLock.Unlock, rwLock.Broadcast] <;>
    (try split_ifs) <;> (try simp only []) <;> refine ⟨?_, ?_⟩ <;> omega

theorem rwLock_run_counts (evs : List rwEvent) :
    ∀ rw rw1 : rwLock, rw.readerCount = rw.readers →
      rw.writerCount = rw.wSleep1 + rw.wReady1 + rw.wSleep2 + rw.wReady2 + rw.writers →
      rw.run evs = some rw1 →
      rw1.readerCount = rw1.readers ∧
      rw1.writerCount =
        rw1.wSleep1 + rw1.wReady1 + rw1.wSleep2 + rw1.wReady2 + rw1.writers := by
  induction evs with
  | nil =>
    intro rw rw1 hr hw hrun
    simp only [rwLock.run, Option.some.injEq] at hrun
    subst hrun
    exact ⟨hr, hw⟩
  | cons e es ih =>
    intro rw rw1 hr hw hrun
    simp only [rwLock.run] at hrun
    cases hstep : rw.step e with
    | none => rw [hstep] at hrun; cases hrun
    | some rw2 =>
      rw [hstep] at hrun
      obtain ⟨h1, h2⟩ := rwLock_step_counts rw rw2 e hr hw hstep
      exact ih rw2 rw1 h1 h2 hrun

/-- Claim C31, as amended: neither lock detects a release.  `RUnlock` and `Unlock` of `rwLock`
and `RUnlock` of `rwLockFaster` decrement `readerCount`, `writerCount` and `readingReaders`
whatever their value.  When every `RUnlock` is called by a thread that holds the lock in shared
mode and every `Unlock` by a thread that holds it exclusively, then in every state reached from
`NewRWLock()` and from `NewRWLockFaster()` `readerCount` and `readingReaders` equal the number
of shared holders and `writerCount` the number of writers queued or active, so none of them is
negative. -/
theorem release_counters_when_held (evs : List rwEvent) (evsF : List rwFasterEvent)
    (rw : rwLock) (rwF : rwLockFaster)
    (hrun : NewRWLock.run evs = some rw) (hrunF : NewRWLockFaster.run evsF = some rwF) :
    ((∀ l : rwLock, l.RUnlock.readerCount = l.readerCount - 1) ∧
      (∀ l : rwLock, l.Unlock.writerCount = l.writerCount - 1) ∧
      (∀ (l : rwLockFaster) (pick : Pick),
        (l.RUnlock pick).readingReaders = l.readingReaders - 1)) ∧
    (rw.readerCount = rw.readers ∧
      rw.writerCount = rw.wSleep1 + rw.wReady1 + rw.wSleep2 + rw.wReady2 + rw.writers ∧
      rwF.readingReaders = rwF.readers) ∧
    (0 ≤ rw.readerCount ∧ 0 ≤ rw.writerCount ∧ 0 ≤ rwF.readingReaders) := by
  obtain ⟨h1, h2⟩ := rwLock_run_counts evs NewRWLock rw rfl rfl hrun
  have h3 := (rwLockFaster_run_inv evsF NewRWLockFaster rwF rwLockFaster_new_inv hrunF).2.2.2.1
  refine ⟨⟨?_, ?_, ?_⟩, ⟨h1, h2, h3⟩, by omega, by omega, by omega⟩
  · intro l
    simp only [rwLock.RUnlock, rwLock.Broadcast]
    split_ifs <;> rfl
  · intro l
    rfl
  · intro l pick
    simp only [rwLockFaster.RUnlock, rwLockFaster.RUnlockSlow, rwLockFaster.rCondSignal,
      rwLockFaster.w2CondSignal]
    split_ifs <;> rfl

/-- Claim C31, as amended, at concrete runs: two readers enter, one leaves, a writer calls
`Lock` and waits for the other reader. -/
theorem release_counters_when_held_witness :
    NewRWLock.run [.RLock, .RLock, .RUnlock, .Lock] =
      some { readerCount := 1, writerCount := 1, writerWait := false,
             rSleep1 := 0, rReady1 := 0, rSleep2 := 0, rReady2 := 0, readers := 1,
             wSleep1 := 1, wReady1 := 0, wSleep2 := 0, wReady2 := 0, writers := 0 } ∧
    NewRWLockFaster.run [.RLock, .RLock, .RUnlock .first, .Lock] =
      some { readingReaders := 1, pendingReaders := 0, writerWaiting := true,
             writerWriting := false, waitForReaders := 1,
             rSleep1 := 0, rReady1 := 0, rSleep2 := 0, rReady2 := 0, readers := 1,
             wSleep1 := 0, wReady1 := 0, wSleep2 := 1, wReady2 := 0, writers := 0 } ∧
    ((0 : Int) ≤ 1 ∧ (0 : Int) ≤ 1 ∧ (0 : Int) ≤ 1) :=
  ⟨by decide, by decide,
   (release_counters_when_held [.RLock, .RLock, .RUnlock, .Lock]
      [.RLock, .RLock, .RUnlock .first, .Lock]
      { readerCount := 1, writerCount := 1, writerWait := false,
        rSleep1 := 0, rReady1 := 0, rSleep2 := 0, rReady2 := 0, readers := 1,
        wSleep1 := 1, wReady1 := 0, wSleep2 := 0, wReady2 := 0, writers := 0 }
      { readingReaders := 1, pendingReaders := 0, writerWaiting := true,
        writerWriting := false, waitForReaders := 1,
        rSleep1 := 0, rReady1 := 0, rSleep2 := 0, rReady2 := 0, readers := 1,
        wSleep1 := 0, wReady1 := 0, wSleep2 := 1, wReady2 := 0, writers := 0 }
      (by decide) (by decide)).2.2⟩

end TwitterFeed
